import Mathlib

/-!
# storm: bit vector (src/storage/BitVector.cpp)

Shallow embedding of `storm::storage::BitVector`.  A bit vector is its
`bitCount` together with the heap block `buckets` of 64-bit words; the length
of the list is the number of words that were allocated.  Machine words are
natural numbers below `2 ^ 64`; every operation that can leave that range in
C++ is reduced modulo `2 ^ 64` here.  Operations return `Except Fault _`:
`Fault.assertion` is a failed `STORM_LOG_ASSERT`, `Fault.outOfBounds` is an
access outside the allocated block and `Fault.badShift` a shift by a negative
amount (both undefined behaviour in C++).  Loops whose number of rounds is
not a syntactic bound carry a round budget; `Fault.loopBound` reports an
exhausted budget, so a result `.ok _` is always a result of the C++ loop.
-/

namespace Storm

/-- The ways an operation of the class can go wrong. -/
inductive Fault where
  | assertion
  | outOfBounds
  | badShift
  | loopBound
deriving DecidableEq, Repr

/-- Result of an operation that may fail. -/
abbrev Res (α : Type) : Type := Except Fault α

instance instDecEqRes {α : Type} [DecidableEq α] : DecidableEq (Res α) := fun a b =>
  match a, b with
  | .ok x, .ok y =>
    if h : x = y then isTrue (by rw [h]) else isFalse (by intro e; cases e; exact h rfl)
  | .error x, .error y =>
    if h : x = y then isTrue (by rw [h]) else isFalse (by intro e; cases e; exact h rfl)
  | .ok _, .error _ => isFalse (by intro e; cases e)
  | .error _, .ok _ => isFalse (by intro e; cases e)

/-- Number of values of a `uint64_t` / `uint_fast64_t` / `size_t`. -/
def wordSize : Nat := 2 ^ 64

/-- The word `-1ull`. -/
def allOnes : Nat := 2 ^ 64 - 1

/-- Modelled from the spec: the constant `mod64mask` is declared in
`BitVector.h`, which is not among the sources; buckets are 64-bit words, so
the mask that extracts an index modulo 64 is `(1 << 6) - 1`. -/
def mod64mask : Nat := 63

/-- Modelled from the spec: the macro `STORM_LOG_ASSERT` comes from
`src/utility/macros.h`, which is not among the sources; the spec says the
guarded operations fail when the condition is violated. -/
def STORM_LOG_ASSERT (cond : Bool) : Res Unit :=
  if cond then pure () else throw Fault.assertion

/-- Bitwise complement `~a` of a 64-bit word. -/
def not64 (a : Nat) : Nat := a ^^^ allOnes

/-- The expressions `1ull << k` and `1ll << k` on 64-bit words (the same bit
pattern for `k < 64`). -/
def shl1 (k : Nat) : Nat := (1 <<< k) % wordSize

/-- Subtraction `a - b` on 64-bit words and on `size_t` (wraps around). -/
def sub64 (a b : Nat) : Nat := (a + wordSize - b % wordSize) % wordSize

/-- Read `p[i]` from an allocated block. -/
def readBucket (bs : List Nat) (i : Nat) : Res Nat :=
  match bs[i]? with
  | some w => pure w
  | none => throw Fault.outOfBounds

/-- Write `p[i] = w` into an allocated block. -/
def writeBucket (bs : List Nat) (i : Nat) (w : Nat) : Res (List Nat) :=
  if i < bs.length then pure (bs.set i w) else throw Fault.outOfBounds

/-- State of a `BitVector` object: the member `bitCount` and the block the
member `buckets` points to. -/
structure BitVector where
  bitCount : Nat
  buckets : List Nat
deriving DecidableEq, Repr

/-- The local computation of the number of buckets needed for `length` bits
(constructor, lines 69-72; `resize`, lines 195-198 and 221-224). -/
def neededBuckets (length : Nat) : Nat :=
  let bucketCount := length >>> 6
  if length &&& mod64mask ≠ 0 then bucketCount + 1 else bucketCount

namespace BitVector

/-- Method `BitVector::bucketCount`, lines 629-631. -/
def bucketCount (v : BitVector) : Nat := v.bitCount >>> 6

/-- Method `BitVector::size`, lines 564-566. -/
def size (v : BitVector) : Nat := v.bitCount

/-- Method `BitVector::truncateLastBucket`, lines 623-627.  The index
`bucketCount() - 1` is computed in `size_t`. -/
def truncateLastBucket (v : BitVector) : Res BitVector :=
  if v.bitCount &&& mod64mask ≠ 0 then do
    let idx := sub64 v.bucketCount 1
    let w ← readBucket v.buckets idx
    let bs ← writeBucket v.buckets idx
      (w &&& not64 (sub64 (shl1 (64 - (v.bitCount &&& mod64mask))) 1))
    pure { v with buckets := bs }
  else
    pure v

/-- Constructor `BitVector::BitVector(uint_fast64_t length, bool init)`, lines 67-82. -/
def new (length : Nat) (init : Bool) : Res BitVector :=
  let bucketCount := neededBuckets length
  if init then
    truncateLastBucket { bitCount := length, buckets := List.replicate bucketCount allOnes }
  else
    pure { bitCount := length, buckets := List.replicate bucketCount 0 }

/-- Method `BitVector::set(uint_fast64_t index, bool value)`, lines 163-173. -/
def set (v : BitVector) (index : Nat) (value : Bool) : Res BitVector := do
  STORM_LOG_ASSERT (decide (index < v.bitCount))
  let bucket := index >>> 6
  let mask := shl1 (63 - (index &&& mod64mask))
  let w ← readBucket v.buckets bucket
  let bs ← if value then writeBucket v.buckets bucket (w ||| mask)
    else writeBucket v.buckets bucket (w &&& not64 mask)
  pure { v with buckets := bs }

/-- Operator `BitVector::operator[]`, lines 182-186. -/
def opIndex (v : BitVector) (index : Nat) : Res Bool := do
  let bucket := index >>> 6
  let mask := shl1 (63 - (index &&& mod64mask))
  let w ← readBucket v.buckets bucket
  pure ((w &&& mask) == mask)

/-- Method `BitVector::get(uint_fast64_t index)`, lines 188-191. -/
def get (v : BitVector) (index : Nat) : Res Bool := do
  STORM_LOG_ASSERT (decide (index < v.bitCount))
  v.opIndex index

end BitVector

/-- The compiler builtin `__builtin_popcountll` used at lines 513 and 535:
the number of one bits among the 64 bits of a word (counted here from the
most significant bit down). -/
def popcountll (w : Nat) : Nat := (List.range 64).countP (fun j => w.testBit (63 - j))

/-- Library algorithm `std::transform` with a unary operation over `n`
buckets starting at position `i`: `dst[k] = op(src[k])`. -/
def std_transform1 (op : Nat → Nat) (src : List Nat) : Nat → Nat → List Nat → Res (List Nat)
  | 0, _, dst => pure dst
  | n + 1, i, dst => do
    let a ← readBucket src i
    let dst ← writeBucket dst i (op a)
    std_transform1 op src n (i + 1) dst

/-- Library algorithm `std::transform` with a binary operation over `n`
buckets starting at position `i`: `dst[k] = op(src1[k], src2[k])`. -/
def std_transform2 (op : Nat → Nat → Nat) (src1 src2 : List Nat) :
    Nat → Nat → List Nat → Res (List Nat)
  | 0, _, dst => pure dst
  | n + 1, i, dst => do
    let a ← readBucket src1 i
    let b ← readBucket src2 i
    let dst ← writeBucket dst i (op a b)
    std_transform2 op src1 src2 n (i + 1) dst

/-- Library algorithm `std::equal` over `n` buckets starting at position `i`. -/
def std_equal (src1 src2 : List Nat) : Nat → Nat → Res Bool
  | 0, _ => pure true
  | n + 1, i => do
    let a ← readBucket src1 i
    let b ← readBucket src2 i
    if a ≠ b then pure false else std_equal src1 src2 n (i + 1)

namespace BitVector

/-- The loop of lines 510-526: add the population counts of the buckets
`i, ..., i + n - 1` to `result`. -/
def countFullBuckets (bs : List Nat) : Nat → Nat → Nat → Res Nat
  | 0, _, result => pure result
  | n + 1, i, result => do
    let w ← readBucket bs i
    countFullBuckets bs n (i + 1) (result + popcountll w)

/-- Method `BitVector::getNumberOfSetBitsBeforeIndex`, lines 505-547. -/
def getNumberOfSetBitsBeforeIndex (v : BitVector) (index : Nat) : Res Nat := do
  let bucket := index >>> 6
  let result ← countFullBuckets v.buckets bucket 0 0
  let tmp := index &&& mod64mask
  if tmp ≠ 0 then
    let tmp := not64 (sub64 (shl1 (64 - (tmp &&& mod64mask))) 1)
    let w ← readBucket v.buckets bucket
    let tmp := tmp &&& w
    pure (result + popcountll tmp)
  else
    pure result

/-- Method `BitVector::getNumberOfSetBits`, lines 501-503. -/
def getNumberOfSetBits (v : BitVector) : Res Nat :=
  v.getNumberOfSetBitsBeforeIndex v.bitCount

/-- Operator `BitVector::operator==`, lines 151-157. -/
def opEq (v other : BitVector) : Res Bool :=
  if v.bitCount ≠ other.bitCount then pure false
  else std_equal v.buckets other.buckets v.bucketCount 0

/-- Operator `BitVector::operator&`, lines 240-245.  The declaration
`BitVector result(bitCount)` uses the constructor with its default
`init = false`. -/
def opAnd (v other : BitVector) : Res BitVector := do
  STORM_LOG_ASSERT (v.bitCount == other.bitCount)
  let result ← new v.bitCount false
  let bs ← std_transform2 (fun a b => a &&& b) v.buckets other.buckets v.bucketCount 0
    result.buckets
  pure { result with buckets := bs }

/-- Operator `BitVector::operator|`, lines 253-258. -/
def opOr (v other : BitVector) : Res BitVector := do
  STORM_LOG_ASSERT (v.bitCount == other.bitCount)
  let result ← new v.bitCount false
  let bs ← std_transform2 (fun a b => a ||| b) v.buckets other.buckets v.bucketCount 0
    result.buckets
  pure { result with buckets := bs }

/-- Operator `BitVector::operator~`, lines 302-307. -/
def opNot (v : BitVector) : Res BitVector := do
  let result ← new v.bitCount false
  let bs ← std_transform1 not64 v.buckets v.bucketCount 0 result.buckets
  truncateLastBucket { result with buckets := bs }

end BitVector

/-- The inner loop of `getNextSetIndex`, lines 602-604: advance
`currentBitInByte` while the bit is clear.  `room` is `64 - currentBitInByte`;
with no room left the shift amount `63 - currentBitInByte` is negative. -/
def skipClearBits (remainingInBucket : Nat) : Nat → Nat → Res Nat
  | 0, _ => throw Fault.badShift
  | room + 1, currentBitInByte =>
    if (remainingInBucket &&& shl1 (63 - currentBitInByte)) == 0 then
      skipClearBits remainingInBucket room (currentBitInByte + 1)
    else
      pure currentBitInByte

/-- The outer loop of `getNextSetIndex`, lines 595-620, with a budget of
`rounds` rounds; `bucketIt` is the position of the bucket pointer in the
block. -/
def getNextSetIndexLoop (dataPtr : List Nat) (endIndex : Nat) :
    Nat → Nat → Nat → Nat → Nat → Res Nat
  | 0, startingIndex, _, _, _ =>
    if startingIndex < endIndex then throw Fault.loopBound else pure endIndex
  | rounds + 1, startingIndex, bucketIt, mask, currentBitInByte =>
    if startingIndex < endIndex then do
      let w ← readBucket dataPtr bucketIt
      let remainingInBucket := w &&& mask
      if remainingInBucket ≠ 0 then do
        let currentBitInByte ←
          skipClearBits remainingInBucket (64 - currentBitInByte) currentBitInByte
        if startingIndex + currentBitInByte < endIndex then
          pure (startingIndex + currentBitInByte)
        else
          pure endIndex
      else
        getNextSetIndexLoop dataPtr endIndex rounds ((startingIndex + 64) % wordSize)
          (bucketIt + 1) allOnes 0
    else
      pure endIndex

/-- The static `BitVector::getNextSetIndex(dataPtr, startingIndex, endIndex)`,
lines 584-621.  Every round adds 64 to `startingIndex`, so
`endIndex / 64 + 1` rounds are enough. -/
def getNextSetIndex (dataPtr : List Nat) (startingIndex endIndex : Nat) : Res Nat :=
  let currentBitInByte := startingIndex &&& mod64mask
  let bucketIt := startingIndex >>> 6
  let startingIndex := (startingIndex >>> 6) <<< 6
  let mask := if currentBitInByte = 0 then allOnes else sub64 (shl1 (64 - currentBitInByte)) 1
  getNextSetIndexLoop dataPtr endIndex (endIndex / 64 + 1) startingIndex bucketIt mask
    currentBitInByte

/-- State of a `BitVector::const_iterator`. -/
structure const_iterator where
  dataPtr : List Nat
  currentIndex : Nat
  endIndex : Nat
deriving DecidableEq, Repr

namespace const_iterator

/-- The constructor of `const_iterator`, lines 16-23. -/
def new (dataPtr : List Nat) (startIndex endIndex : Nat) (setOnFirstBit : Bool) :
    Res const_iterator :=
  if setOnFirstBit then do
    let c ← getNextSetIndex dataPtr startIndex endIndex
    pure ⟨dataPtr, c, endIndex⟩
  else
    pure ⟨dataPtr, startIndex, endIndex⟩

/-- Operator `const_iterator::operator++`, lines 39-42. -/
def opInc (it : const_iterator) : Res const_iterator := do
  let c ← getNextSetIndex it.dataPtr ((it.currentIndex + 1) % wordSize) it.endIndex
  pure { it with currentIndex := c }

/-- Operator `const_iterator::operator*`, lines 51-53. -/
def opDeref (it : const_iterator) : Nat := it.currentIndex

/-- Operator `const_iterator::operator!=`, lines 55-57. -/
def opNe (it other : const_iterator) : Bool := it.currentIndex != other.currentIndex

end const_iterator

/-- The range-based for statement `for (auto bit : v) body` on the iterator
pair `it`, `last`, threading the state `st` of the enclosing function through
the body, with a budget of `rounds` rounds. -/
def rangeForLoop {σ : Type} (body : σ → Nat → Res σ) (last : const_iterator) :
    Nat → const_iterator → σ → Res σ
  | 0, it, st => if it.opNe last then throw Fault.loopBound else pure st
  | rounds + 1, it, st =>
    if it.opNe last then do
      let st ← body st it.opDeref
      let it ← it.opInc
      rangeForLoop body last rounds it st
    else
      pure st

namespace BitVector

/-- Method `BitVector::getNextSetIndex(startingIndex)`, lines 580-582. -/
def getNextSetIndex (v : BitVector) (startingIndex : Nat) : Res Nat :=
  Storm.getNextSetIndex v.buckets startingIndex v.bitCount

/-- Method `BitVector::begin`, lines 572-574; the fourth constructor
argument is the default `setOnFirstBit = true`. -/
def begin_ (v : BitVector) : Res const_iterator :=
  const_iterator.new v.buckets 0 v.bitCount true

/-- Method `BitVector::end`, lines 576-578. -/
def end_ (v : BitVector) : Res const_iterator :=
  const_iterator.new v.buckets v.bitCount v.bitCount false

/-- The statement `for (auto bit : v) body`: every round yields a different
index below `bitCount`, so `bitCount` rounds are enough. -/
def forEach {σ : Type} (v : BitVector) (body : σ → Nat → Res σ) (init : σ) : Res σ := do
  let first ← v.begin_
  let last ← v.end_
  rangeForLoop body last v.bitCount first init

/-- The sequence of indices produced by iterating `v` from `begin()` to
`end()`. -/
def indices (v : BitVector) : Res (List Nat) :=
  v.forEach (fun acc bit => pure (acc ++ [bit])) []

/-- Body of the loop of the first branch of `operator%`, lines 284-287; the
state is the pair of `result` and `position`. -/
def bodyIterateFilter (v : BitVector) (st : BitVector × Nat) (bit : Nat) :
    Res (BitVector × Nat) := do
  let hit ← v.opIndex bit
  let result ← if hit then st.1.set st.2 true else pure st.1
  pure (result, st.2 + 1)

/-- First branch of `operator%`, lines 282-288: iterate over the filter. -/
def opModIterateFilter (v filter result : BitVector) : Res BitVector := do
  let position := 0
  let st ← filter.forEach (bodyIterateFilter v) (result, position)
  pure st.1

/-- Body of the loop of the second branch of `operator%`, lines 293-295. -/
def bodyIterateSelf (filter : BitVector) (result : BitVector) (bit : Nat) : Res BitVector := do
  let hit ← filter.opIndex bit
  if hit then do
    let position ← filter.getNumberOfSetBitsBeforeIndex bit
    result.set position true
  else
    pure result

/-- Second branch of `operator%`, lines 292-296: iterate over the vector
itself. -/
def opModIterateSelf (v filter result : BitVector) : Res BitVector :=
  v.forEach (bodyIterateSelf filter) result

/-- Operator `BitVector::operator%`, lines 274-300. -/
def opMod (v filter : BitVector) : Res BitVector := do
  STORM_LOG_ASSERT (v.bitCount == filter.bitCount)
  let length ← filter.getNumberOfSetBits
  let result ← new length false
  let filterCount ← filter.getNumberOfSetBits
  let ownCount ← v.getNumberOfSetBits
  if filterCount / 10 < ownCount then
    opModIterateFilter v filter result
  else
    opModIterateSelf v filter result

end BitVector

/-- The expression `a << k` on 64-bit words; a shift by 64 or more is
undefined. -/
def shl64 (a k : Nat) : Res Nat :=
  if k < 64 then pure ((a <<< k) % wordSize) else throw Fault.badShift

/-- The expression `a >> k` on 64-bit words; a shift by 64 or more is
undefined. -/
def shr64 (a k : Nat) : Res Nat :=
  if k < 64 then pure (a >>> k) else throw Fault.badShift

/-- The expression `new uint64_t[n]` without an initialiser: a block of `n`
words of indeterminate content; `fresh k` is the 64-bit word the allocator
left at position `k`. -/
def allocate (fresh : Nat → Nat) (n : Nat) : List Nat :=
  (List.range n).map fresh

/-- The copy loop `dst[j + k] = src[i + k]` for `k < n`, shared by
`std::copy_n`, `std::copy` and the loop of lines 383-385. -/
def copyBuckets (src : List Nat) : Nat → Nat → Nat → List Nat → Res (List Nat)
  | 0, _, _, dst => pure dst
  | n + 1, i, j, dst => do
    let a ← readBucket src i
    let dst ← writeBucket dst j a
    copyBuckets src n (i + 1) (j + 1) dst

/-- Library algorithm `std::copy_n(src, n, dst)`. -/
def std_copy_n (src : List Nat) (n : Nat) (dst : List Nat) : Res (List Nat) :=
  copyBuckets src n 0 0 dst

/-- Library algorithm `std::fill_n(dst, n, value)`, writing from position
`i`. -/
def std_fill_n (value : Nat) : Nat → Nat → List Nat → Res (List Nat)
  | 0, _, dst => pure dst
  | n + 1, i, dst => do
    let dst ← writeBucket dst i value
    std_fill_n value n (i + 1) dst

/-- The loop of `operator<`, lines 130-137, over `n` buckets from position
`i`. -/
def lessLoop (first1 first2 : List Nat) : Nat → Nat → Res Bool
  | 0, _ => pure false
  | n + 1, i => do
    let a ← readBucket first1 i
    let b ← readBucket first2 i
    if a < b then pure true
    else if a > b then pure false
    else lessLoop first1 first2 n (i + 1)

/-- The loop of `isSubsetOf`, lines 330-335, over `n` buckets from position
`i`. -/
def subsetLoop (it1 it2 : List Nat) : Nat → Nat → Res Bool
  | 0, _ => pure true
  | n + 1, i => do
    let a ← readBucket it1 i
    let b ← readBucket it2 i
    if (a &&& b) ≠ a then pure false else subsetLoop it1 it2 n (i + 1)

namespace BitVector

/-- Constructor `BitVector::BitVector(uint_fast64_t bucketCount, uint_fast64_t
bitCount)`, lines 99-102. -/
def newBuckets (bucketCount bitCount : Nat) : Res BitVector := do
  STORM_LOG_ASSERT (((bucketCount <<< 6) % wordSize) == bitCount)
  pure { bitCount := bitCount, buckets := List.replicate bucketCount 0 }

/-- Copy constructor `BitVector::BitVector(BitVector const& other)`, lines
104-107. -/
def copy (fresh : Nat → Nat) (other : BitVector) : Res BitVector := do
  let buckets := allocate fresh other.bucketCount
  let buckets ← std_copy_n other.buckets other.bucketCount buckets
  pure { bitCount := other.bitCount, buckets := buckets }

/-- Copy assignment `BitVector::operator=(BitVector const& other)`, lines
109-117, for a source that is a different object. -/
def opAssign (fresh : Nat → Nat) (_v other : BitVector) : Res BitVector := do
  let buckets := allocate fresh other.bucketCount
  let buckets ← std_copy_n other.buckets other.bucketCount buckets
  pure { bitCount := other.bitCount, buckets := buckets }

/-- Operator `BitVector::operator<`, lines 119-138. -/
def opLt (v other : BitVector) : Res Bool :=
  if v.size < other.size then pure true
  else if v.size > other.size then pure false
  else lessLoop v.buckets other.buckets v.bucketCount 0

/-- Method `BitVector::isSubsetOf`, lines 323-336. -/
def isSubsetOf (v other : BitVector) : Res Bool := do
  STORM_LOG_ASSERT (v.bitCount == other.bitCount)
  subsetLoop v.buckets other.buckets v.bucketCount 0

/-- The statement `p[bucketCount() - 1] |= ((1ull << (64 - (bitCount &
mod64mask))) - 1ull)` of `resize`, lines 204 and 215. -/
def fillLastBucket (v : BitVector) (p : List Nat) : Res (List Nat) := do
  let idx := sub64 v.bucketCount 1
  let w ← readBucket p idx
  let s ← shl64 1 (64 - (v.bitCount &&& mod64mask))
  writeBucket p idx (w ||| sub64 s 1)

/-- Method `BitVector::resize`, lines 193-238. -/
def resize (fresh : Nat → Nat) (v : BitVector) (newLength : Nat) (init : Bool) :
    Res BitVector :=
  if newLength > v.bitCount then do
    let newBucketCount := neededBuckets newLength
    let v2 ← if newBucketCount > v.bucketCount then do
        let newBuckets := allocate fresh newBucketCount
        let newBuckets ← std_copy_n v.buckets v.bucketCount newBuckets
        let newBuckets ← if init then do
            let newBuckets ← fillLastBucket v newBuckets
            std_fill_n allOnes (sub64 newBucketCount v.bucketCount) 0 newBuckets
          else
            std_fill_n 0 (sub64 newBucketCount v.bucketCount) 0 newBuckets
        pure { bitCount := newLength, buckets := newBuckets }
      else do
        let buckets ← if init then fillLastBucket v v.buckets else pure v.buckets
        pure { bitCount := newLength, buckets := buckets }
    truncateLastBucket v2
  else do
    let newBucketCount := neededBuckets newLength
    let buckets ← if newBucketCount < v.bucketCount then
        std_copy_n v.buckets newBucketCount (allocate fresh newBucketCount)
      else
        pure v.buckets
    truncateLastBucket { bitCount := newLength, buckets := buckets }

/-- Method `BitVector::set(uint_fast64_t bitIndex, BitVector const& other)`,
lines 372-386.  The bound `this->size() - bitIndex` is computed in `size_t`. -/
def setBlock (v : BitVector) (bitIndex : Nat) (other : BitVector) : Res BitVector := do
  STORM_LOG_ASSERT ((bitIndex &&& mod64mask) == 0)
  STORM_LOG_ASSERT (decide (other.size ≤ sub64 v.size bitIndex))
  let index := bitIndex >>> 6
  let buckets ← copyBuckets other.buckets other.bucketCount 0 index v.buckets
  pure { v with buckets := buckets }

/-- Method `BitVector::get(uint_fast64_t bitIndex, uint_fast64_t
numberOfBits)`, lines 388-397. -/
def getBlock (v : BitVector) (bitIndex numberOfBits : Nat) : Res BitVector := do
  let numberOfBuckets := numberOfBits >>> 6
  let index := bitIndex >>> 6
  STORM_LOG_ASSERT (decide ((index + numberOfBuckets) % wordSize ≤ v.bucketCount))
  let result ← newBuckets numberOfBuckets numberOfBits
  let buckets ← copyBuckets v.buckets numberOfBuckets index 0 result.buckets
  truncateLastBucket { result with buckets := buckets }

/-- Method `BitVector::getAsInt`, lines 399-436. -/
def getAsInt (v : BitVector) (bitIndex numberOfBits : Nat) : Res Nat := do
  let bucket := bitIndex >>> 6
  let bitIndexInBucket := bitIndex &&& mod64mask
  let mask ← if bitIndexInBucket = 0 then pure allOnes else do
      let s ← shl64 1 (64 - bitIndexInBucket)
      pure (sub64 s 1)
  if (bitIndexInBucket + numberOfBits) % wordSize < 64 then do
    let s ← shl64 1 (sub64 64 (bitIndexInBucket + numberOfBits))
    let mask := mask &&& not64 (sub64 s 1)
    let w ← readBucket v.buckets bucket
    shr64 (w &&& mask) (sub64 64 (bitIndexInBucket + numberOfBits))
  else if (bitIndexInBucket + numberOfBits) % wordSize > 64 then do
    let w ← readBucket v.buckets bucket
    let result := w &&& mask
    let bucket := bucket + 1
    let numberOfBits := sub64 numberOfBits (sub64 64 bitIndexInBucket)
    let result ← shl64 result numberOfBits
    let s ← shl64 1 (sub64 64 numberOfBits)
    let mask := not64 (sub64 s 1)
    let w2 ← readBucket v.buckets bucket
    let lowerBits := w2 &&& mask
    let t ← shr64 lowerBits (sub64 64 numberOfBits)
    pure (result ||| t)
  else do
    let w ← readBucket v.buckets bucket
    pure (w &&& mask)

/-- The loop of `NonZeroBitVectorHash::operator()`, lines 647-650, over `n`
buckets from position `index`. -/
def hashLoop (v : BitVector) : Nat → Nat → Nat → Res Nat
  | 0, _, result => pure result
  | n + 1, index, result => do
    let result := result ^^^ ((result <<< 3) % wordSize)
    let amount ← v.getAsInt ((index <<< 6) % wordSize) 5
    let shifted ← shr64 result amount
    let result := result ^^^ shifted
    hashLoop v n (index + 1) result

end BitVector

/-- Function object `NonZeroBitVectorHash::operator()`, lines 643-657. -/
def NonZeroBitVectorHash (bitvector : BitVector) : Res Nat := do
  STORM_LOG_ASSERT (decide (bitvector.size > 0))
  let result ← BitVector.hashLoop bitvector bitvector.bucketCount 0 0
  let result := result &&& not64 1
  pure ((result + 1) % wordSize)

/-- Library algorithm `std::find(first, last, value)` over `n` buckets from
position `i`: the position of the first bucket equal to `value`, or the end
position. -/
def std_find (p : List Nat) (value : Nat) : Nat → Nat → Res Nat
  | 0, i => pure i
  | n + 1, i => do
    let a ← readBucket p i
    if a = value then pure i else std_find p value n (i + 1)

/-- Method `BitVector::empty`, lines 474-478. -/
def BitVector.empty (v : BitVector) : Res Bool := do
  let last := v.bucketCount
  let it ← std_find v.buckets 0 v.bucketCount 0
  pure (it != last)

namespace BitVector

/-- Method `BitVector::setFromInt`, lines 438-472. -/
def setFromInt (v : BitVector) (bitIndex numberOfBits value : Nat) : Res BitVector := do
  let t ← shr64 value numberOfBits
  STORM_LOG_ASSERT (t == 0)
  let bucket := bitIndex >>> 6
  let bitIndexInBucket := bitIndex &&& mod64mask
  let mask ← if bitIndexInBucket = 0 then pure allOnes else do
      let s ← shl64 1 (64 - bitIndexInBucket)
      pure (sub64 s 1)
  if (bitIndexInBucket + numberOfBits) % wordSize < 64 then do
    let s ← shl64 1 (sub64 64 (bitIndexInBucket + numberOfBits))
    let mask := mask &&& not64 (sub64 s 1)
    let w ← readBucket v.buckets bucket
    let shifted ← shl64 value (sub64 64 (bitIndexInBucket + numberOfBits))
    let buckets ← writeBucket v.buckets bucket ((w &&& not64 mask) ||| shifted)
    pure { v with buckets := buckets }
  else if (bitIndexInBucket + numberOfBits) % wordSize > 64 then do
    let w ← readBucket v.buckets bucket
    let shifted ← shr64 value ((numberOfBits + sub64 bitIndexInBucket 64) % wordSize)
    let buckets ← writeBucket v.buckets bucket ((w &&& not64 mask) ||| shifted)
    let bucket := bucket + 1
    let numberOfBits := sub64 numberOfBits (sub64 64 bitIndexInBucket)
    let value ← shl64 value (sub64 64 numberOfBits)
    let s ← shl64 1 (sub64 64 numberOfBits)
    let mask := sub64 s 1
    let w2 ← readBucket buckets bucket
    let buckets ← writeBucket buckets bucket ((w2 &&& mask) ||| value)
    pure { v with buckets := buckets }
  else do
    let w ← readBucket v.buckets bucket
    let buckets ← writeBucket v.buckets bucket ((w &&& not64 mask) ||| value)
    pure { v with buckets := buckets }

end BitVector

/-! # storm: topological min/max equation solver
(src/storm/solver/TopologicalMinMaxLinearEquationSolver.cpp, scalar build)

The class is a template over `ValueType` and is instantiated for `double`
(line 476).  The embedding is generic in the value type `V`: the arithmetic and
the vector routines of `storm/utility/vector.h` and of the sparse matrix are
the fields of `ValueOps V`, so a theorem stated for every `ValueOps V` holds
for the floating-point instantiation as well as for exact numbers; `exactOps`
is the instance over the rationals, with the routines modelled from the spec.
The sparse matrix, the bit set of the `storm/` tree, the SCC decomposition and
the topological sort live in files that are not among the sources; the first
two are modelled from the spec, the decomposition is an input of the
embedding and the sort is modelled from the spec.  Checked element accesses
(`.at`) throw `std::out_of_range`, which is `SolverError.outOfRange` here.
-/

/-- Enumeration `OptimizationDirection`. -/
inductive OptimizationDirection where
  | Minimize
  | Maximize
deriving DecidableEq, Repr

/-- Exceptions thrown by the solver: the two storm exceptions and
`std::out_of_range` of a checked element access. -/
inductive SolverError where
  | illegalArgument
  | invalidState
  | outOfRange
deriving DecidableEq, Repr

/-- Equality of solver outcomes is decidable. -/
instance instDecEqSolverRes {α : Type} [DecidableEq α] : DecidableEq (Except SolverError α) :=
  fun a b =>
  match a, b with
  | .ok x, .ok y =>
    if h : x = y then isTrue (by rw [h]) else isFalse (by intro e; cases e; exact h rfl)
  | .error x, .error y =>
    if h : x = y then isTrue (by rw [h]) else isFalse (by intro e; cases e; exact h rfl)
  | .ok _, .error _ => isFalse (by intro e; cases e)
  | .error _, .ok _ => isFalse (by intro e; cases e)

/-- Modelled from the spec: the macro `STORM_LOG_THROW` comes from
`storm/utility/macros.h`, which is not among the sources; it throws the given
exception when its condition is false. -/
def STORM_LOG_THROW (cond : Bool) (e : SolverError) : Except SolverError Unit :=
  if cond then pure () else throw e

/-- Checked read `v.at(i)` of a `std::vector`. -/
def vectorAt {α : Type} (v : List α) (i : Nat) : Except SolverError α :=
  match v[i]? with
  | some a => pure a
  | none => throw SolverError.outOfRange

/-- Checked write `v.at(i) = a` of a `std::vector`. -/
def vectorSet {α : Type} (v : List α) (i : Nat) (a : α) : Except SolverError (List α) :=
  if i < v.length then pure (v.set i a) else throw SolverError.outOfRange

/-- Modelled from the spec: the class `SparseMatrix` is not among the sources;
section 6 of the spec gives it as the row group starts (one per state plus
one) and the rows as lists of (column, value) pairs. -/
structure SparseMatrix (V : Type) where
  rowGroupIndices : List Nat
  rows : List (List (Nat × V))
  columnCount : Nat
deriving DecidableEq

namespace SparseMatrix

/-- Modelled from the spec: accessor `getRowCount`. -/
def getRowCount {V : Type} (A : SparseMatrix V) : Nat := A.rows.length

/-- Modelled from the spec: accessor `getRow`. -/
def getRow {V : Type} (A : SparseMatrix V) (r : Nat) : List (Nat × V) := A.rows.getD r []

/-- Modelled from the spec: the rows of the row group of `state`. -/
def rowsOfGroup {V : Type} (A : SparseMatrix V) (state : Nat) : List Nat :=
  List.range' (A.rowGroupIndices.getD state 0)
    (A.rowGroupIndices.getD (state + 1) 0 - A.rowGroupIndices.getD state 0)

/-- Modelled from the spec: `multiplyWithVector(x, result)` over exact
numbers, the product of the matrix with the vector `x`. -/
def multiplyWithVector (A : SparseMatrix ℚ) (x : List ℚ) : List ℚ :=
  A.rows.map (fun row => (row.map (fun e => e.2 * x.getD e.1 0)).sum)

/-- Modelled from the spec: `getSubmatrix(true, constraint, constraint)`, the
matrix of the rows of the selected row groups restricted to the selected
columns, which are renumbered by their rank; `sel` lists the selected states
in ascending order. -/
def getSubmatrix {V : Type} (A : SparseMatrix V) (sel : List Nat) : SparseMatrix V where
  rowGroupIndices := List.scanl (fun acc s => acc + (A.rowsOfGroup s).length) 0 sel
  rows := ((sel.map A.rowsOfGroup).flatten).map (fun r =>
    ((A.getRow r).filter (fun e => decide (e.1 ∈ sel))).map (fun e => (sel.indexOf e.1, e.2)))
  columnCount := sel.length

end SparseMatrix

/-- Modelled from the spec: the bit set built by `BitVector
subMatrixIndices(columnCount, scc.cbegin(), scc.cend())`, given by its
ascending list of set positions. -/
def subMatrixIndicesOf (columnCount : Nat) (scc : List Nat) : List Nat :=
  (List.range columnCount).filter (fun c => decide (c ∈ scc))

/-- Modelled from the spec: `selectVectorValues(vector, positions, values)`
of `storm/utility/vector.h`; `zero` is the value the target vector was
created with. -/
def selectVectorValues {V : Type} (zero : V) (positions : List Nat) (values : List V) : List V :=
  positions.map (fun p => values.getD p zero)

/-- Modelled from the spec: `selectVectorValues(vector, rowGroupPositions,
rowGrouping, values)` of `storm/utility/vector.h`. -/
def selectVectorValuesGrouped {V : Type} (zero : V) (A : SparseMatrix V) (positions : List Nat)
    (values : List V) : List V :=
  ((positions.map A.rowsOfGroup).flatten).map (fun r => values.getD r zero)

/-- Modelled from the spec: `addVectors(first, second, target)` of
`storm/utility/vector.h` over exact numbers. -/
def addVectors (first second : List ℚ) : List ℚ := List.zipWith (fun a b => a + b) first second

/-- Modelled from the spec: the minimum or maximum of the values of one row
group. -/
def reduceGroup (dir : OptimizationDirection) : List ℚ → ℚ
  | [] => 0
  | a :: rest => rest.foldl (fun acc v =>
      match dir with
      | .Minimize => min acc v
      | .Maximize => max acc v) a

/-- Modelled from the spec: `reduceVectorMinOrMax(dir, source, target,
rowGrouping)` of `storm/utility/vector.h` over exact numbers. -/
def reduceVectorMinOrMax (dir : OptimizationDirection) (source : List ℚ)
    (rowGrouping : List Nat) : List ℚ :=
  (List.range (rowGrouping.length - 1)).map (fun g =>
    reduceGroup dir ((source.drop (rowGrouping.getD g 0)).take
      (rowGrouping.getD (g + 1) 0 - rowGrouping.getD g 0)))

/-- Modelled from the spec: `equalModuloPrecision(left, right, precision,
relative)` of `storm/utility/vector.h` over exact numbers: the distance of
every pair of entries is at most `precision`, absolutely or relative to the
right entry. -/
def equalModuloPrecision (left right : List ℚ) (precision : ℚ) (relative : Bool) : Bool :=
  (List.zipWith (fun a b =>
    if relative then decide (|a - b| ≤ precision * |b|) else decide (|a - b| ≤ precision))
    left right).all id

/-- The value type of the template and the routines on it that are not among
the sources: the zero a vector is created with, `+` and `*` of line 175, and
the matrix and vector routines called by the solver.  `reduce_length` records
that `reduceVectorMinOrMax` writes one entry per row group. -/
structure ValueOps (V : Type) where
  zero : V
  add : V → V → V
  mul : V → V → V
  multiplyWithVector : SparseMatrix V → List V → List V
  addVectors : List V → List V → List V
  reduceVectorMinOrMax : OptimizationDirection → List V → List Nat → List V
  equalModuloPrecision : List V → List V → V → Bool → Bool
  reduce_length : ∀ dir source rowGrouping,
    (reduceVectorMinOrMax dir source rowGrouping).length = rowGrouping.length - 1

/-- The value operations over exact numbers, with the routines modelled from
the spec. -/
def exactOps : ValueOps ℚ where
  zero := 0
  add := fun a b => a + b
  mul := fun a b => a * b
  multiplyWithVector := SparseMatrix.multiplyWithVector
  addVectors := addVectors
  reduceVectorMinOrMax := reduceVectorMinOrMax
  equalModuloPrecision := equalModuloPrecision
  reduce_length := by
    intro dir source rowGrouping
    simp [reduceVectorMinOrMax]

/-- Modelled from the spec: the termination condition
`TerminateIfFilteredExtremumExceedsThreshold`, whose header is not among the
sources, as the list of its constructor arguments in call order. -/
inductive CtorArg (V : Type) where
  | filter (relevantValues : List Nat)
  | flag (b : Bool)
  | value (v : V)
deriving DecidableEq

/-- A termination condition is the argument list it was constructed from. -/
abbrev TerminationCondition (V : Type) := List (CtorArg V)

/-- Members of `TopologicalMinMaxLinearEquationSolver` and of its base class
`MinMaxLinearEquationSolver`. -/
structure TopologicalMinMaxLinearEquationSolver (V : Type) where
  A : SparseMatrix V
  precision : V
  maximalNumberOfIterations : Nat
  relative : Bool
  direction : Option OptimizationDirection
  terminationCondition : Option (TerminationCondition V)
deriving DecidableEq

/-- What `solveEquations` leaves behind: the returned flag, the vector `x`
and the local counter `globalIterations` of sweeps. -/
structure SolveResult (V : Type) where
  converged : Bool
  x : List V
  globalIterations : Nat
deriving DecidableEq

namespace TopologicalMinMaxLinearEquationSolver

/-- The loop over the entries of one row, lines 171-177: for every entry
whose column is outside the component, line 175 adds its contribution to
`sccSubB.at(innerIndex)`, reading `x.at(column)`. -/
def foldRowEntries {V : Type} (ops : ValueOps V) (member : Nat → Bool) (x : List V)
    (innerIndex : Nat) : List (Nat × V) → List V → Except SolverError (List V)
  | [], sccSubB => pure sccSubB
  | e :: rest, sccSubB =>
    if !member e.1 then do
      let cur ← vectorAt sccSubB innerIndex
      let xv ← vectorAt x e.1
      let sccSubB ← vectorSet sccSubB innerIndex (ops.add cur (ops.mul e.2 xv))
      foldRowEntries ops member x innerIndex rest sccSubB
    else foldRowEntries ops member x innerIndex rest sccSubB

/-- The loop over the rows of one row group, lines 169-179. -/
def foldRows {V : Type} (ops : ValueOps V) (A : SparseMatrix V) (member : Nat → Bool)
    (x : List V) : List Nat → List V × Nat → Except SolverError (List V × Nat)
  | [], st => pure st
  | r :: rest, (sccSubB, innerIndex) => do
    let sccSubB ← foldRowEntries ops member x innerIndex (A.getRow r) sccSubB
    foldRows ops A member x rest (sccSubB, innerIndex + 1)

/-- The loop over the states of the component, lines 165-181; the state is
`sccSubB`, `innerIndex`, `outerIndex` and
`sccSubNondeterministicChoiceIndices`. -/
def foldStates {V : Type} (ops : ValueOps V) (A : SparseMatrix V) (member : Nat → Bool)
    (x : List V) : List Nat → List V × Nat × Nat × List Nat →
      Except SolverError (List V × Nat × Nat × List Nat)
  | [], st => pure st
  | state :: rest, (sccSubB, innerIndex, outerIndex, choiceIndices) => do
    let previous ← vectorAt choiceIndices outerIndex
    let choiceIndices ← vectorSet choiceIndices (outerIndex + 1)
      (previous + (A.rowGroupIndices.getD (state + 1) 0 - A.rowGroupIndices.getD state 0))
    let st ← foldRows ops A member x (A.rowsOfGroup state) (sccSubB, innerIndex)
    foldStates ops A member x rest (st.1, st.2, outerIndex + 1, choiceIndices)

/-- The while loop of lines 224-252 with `remaining = maximalNumberOfIterations
- localIterations` sweeps left; returns `converged`, `*currentX` and
`localIterations`. -/
def valueIteration {V : Type} (ops : ValueOps V) (dir : OptimizationDirection)
    (sccSubmatrix : SparseMatrix V) (sccSubB : List V) (choiceIndices : List Nat)
    (precision : V) (relative : Bool) : Nat → List V → Nat → Bool × List V × Nat
  | 0, currentX, localIterations => (false, currentX, localIterations)
  | remaining + 1, currentX, localIterations =>
    let sccMultiplyResult :=
      ops.addVectors (ops.multiplyWithVector sccSubmatrix currentX) sccSubB
    let swap := ops.reduceVectorMinOrMax dir sccMultiplyResult choiceIndices
    let converged := ops.equalModuloPrecision currentX swap precision relative
    if converged then (true, swap, localIterations + 1)
    else valueIteration ops dir sccSubmatrix sccSubB choiceIndices precision relative remaining
      swap (localIterations + 1)

/-- The write-back loop of lines 258-262: `x.at(state) =
currentX->at(innerIndex)`. -/
def writeBack {V : Type} (currentX : List V) : List Nat → Nat → List V →
    Except SolverError (List V)
  | [], _, x => pure x
  | state :: rest, innerIndex, x => do
    let v ← vectorAt currentX innerIndex
    let x ← vectorSet x state v
    writeBack currentX rest (innerIndex + 1) x

/-- The local right-hand side `sccSubB` and the choice indices after lines
144-181. -/
def localRightHandSide {V : Type} (ops : ValueOps V) (s : TopologicalMinMaxLinearEquationSolver V)
    (x b : List V) (scc : List Nat) : Except SolverError (List V × List Nat) := do
  let subMatrixIndices := subMatrixIndicesOf s.A.columnCount scc
  let sccSubmatrix := s.A.getSubmatrix subMatrixIndices
  let sccSubB := selectVectorValuesGrouped ops.zero s.A subMatrixIndices b
  let choiceIndices ← vectorSet (List.replicate (sccSubmatrix.columnCount + 1) 0) 0 0
  let st ← foldStates ops s.A (fun c => decide (c ∈ subMatrixIndices)) x scc
    (sccSubB, 0, 0, choiceIndices)
  pure (st.1, st.2.2.2)

/-- The body of the component loop, lines 141-272; returns `converged`, `x`
and `localIterations`.  In this build a component flagged for the GPU ends
with `InvalidStateException` after the local system has been set up. -/
def processComponent {V : Type} (ops : ValueOps V) (s : TopologicalMinMaxLinearEquationSolver V)
    (dir : OptimizationDirection) (x b : List V) (useGpu : Bool) (scc : List Nat) :
    Except SolverError (Bool × List V × Nat) := do
  let subMatrixIndices := subMatrixIndicesOf s.A.columnCount scc
  let sccSubmatrix := s.A.getSubmatrix subMatrixIndices
  let sccSubX := selectVectorValues ops.zero subMatrixIndices x
  let pre ← localRightHandSide ops s x b scc
  if useGpu then throw SolverError.invalidState
  else
    let r := valueIteration ops dir sccSubmatrix pre.1 pre.2 s.precision s.relative
      s.maximalNumberOfIterations sccSubX 0
    let x ← writeBack r.2.1 scc 0 x
    pure (r.1, x, r.2.2)

/-- The component loop of lines 140-273; the state is `converged`, `x` and
`globalIterations`. -/
def componentLoop {V : Type} (ops : ValueOps V) (s : TopologicalMinMaxLinearEquationSolver V)
    (dir : OptimizationDirection) (b : List V) :
    List (Bool × List Nat) → SolveResult V → Except SolverError (SolveResult V)
  | [], st => pure st
  | (useGpu, scc) :: rest, st =>
    if st.converged then do
      let r ← processComponent ops s dir st.x b useGpu scc
      componentLoop ops s dir b rest ⟨r.1, r.2.1, st.globalIterations + r.2.2⟩
    else pure st

/-- Scalar build of `getOptimalGroupingFromTopologicalSccDecomposition`,
lines 422-425. -/
def getOptimalGroupingFromTopologicalSccDecomposition (sccDecomposition : List (List Nat))
    (topologicalSort : List Nat) : List (Bool × List Nat) :=
  topologicalSort.map (fun sccIndex => (false, sccDecomposition.getD sccIndex []))

/-- Method `solveEquations`, lines 36-286, scalar build; `sccDecomposition`
is what the SCC decomposition returns for the matrix and `topologicalSort`
what `getTopologicalSort` returns for its dependency graph. -/
def solveEquations {V : Type} (ops : ValueOps V) (s : TopologicalMinMaxLinearEquationSolver V)
    (sccDecomposition : List (List Nat)) (topologicalSort : List Nat)
    (dir : OptimizationDirection) (x b : List V) : Except SolverError (SolveResult V) := do
  STORM_LOG_THROW (decide (sccDecomposition.length > 0)) SolverError.illegalArgument
  let optimalSccs := getOptimalGroupingFromTopologicalSccDecomposition sccDecomposition
    topologicalSort
  componentLoop ops s dir b optimalSccs ⟨true, x, 0⟩

/-- The loop of `repeatedMultiply`, lines 445-457. -/
def repeatedMultiplyLoop {V : Type} (ops : ValueOps V)
    (s : TopologicalMinMaxLinearEquationSolver V) (dir : OptimizationDirection)
    (b : Option (List V)) : Nat → List V → List V
  | 0, x => x
  | n + 1, x =>
    let multiplyResult := ops.multiplyWithVector s.A x
    let multiplyResult := match b with
      | some bv => ops.addVectors multiplyResult bv
      | none => multiplyResult
    repeatedMultiplyLoop ops s dir b n
      (ops.reduceVectorMinOrMax dir multiplyResult s.A.rowGroupIndices)

/-- Method `repeatedMultiply`, lines 441-458. -/
def repeatedMultiply {V : Type} (ops : ValueOps V) (s : TopologicalMinMaxLinearEquationSolver V)
    (dir : OptimizationDirection) (x : List V) (b : Option (List V)) (n : Nat) : List V :=
  repeatedMultiplyLoop ops s dir b n x

end TopologicalMinMaxLinearEquationSolver

/-! ## Accelerated build of the grouping function
(lines 296-420; `STORM_HAVE_CUDA` defined) -/

/-- Modelled from the spec: the block type `StateBlock` is a sorted set of
states; inserting one state keeps the order and drops a duplicate. -/
def StateBlock.insert (s : Nat) : List Nat → List Nat
  | [] => [s]
  | a :: rest =>
    if s < a then s :: a :: rest
    else if s = a then a :: rest
    else a :: StateBlock.insert s rest

/-- Modelled from the spec: construction of a `StateBlock` from a range. -/
def StateBlock.ofRange (l : List Nat) : List Nat := l.foldl (fun acc s => StateBlock.insert s acc) []

/-- Library algorithm `std::inplace_merge` on two consecutive sorted ranges. -/
def std_inplace_merge (first second : List Nat) : List Nat :=
  List.merge first second (fun a b => decide (a ≤ b))

/-- Library algorithm `std::sort`. -/
def std_sort (l : List Nat) : List Nat := l.foldr (fun a acc => List.orderedInsert (· ≤ ·) a acc) []

namespace TopologicalMinMaxLinearEquationSolver

/-- The merge loop `for (j = from; j < until; ++j)` of lines 341-348 and
392-399, which appends component `topologicalSort[j]` to `tempGroups` and
merges. -/
def mergeLoop (sccDecomposition : List (List Nat)) (topologicalSort : List Nat) :
    Nat → Nat → List Nat → List Nat
  | 0, _, tempGroups => tempGroups
  | count + 1, j, tempGroups =>
    let scc := sccDecomposition.getD (topologicalSort.getD j 0) []
    mergeLoop sccDecomposition topologicalSort count (j + 1) (std_inplace_merge tempGroups scc)

/-- The append loop `for (j = from; j < until; ++j)` of lines 351-354 and
402-405, followed by `std::sort`. -/
def appendLoop (sccDecomposition : List (List Nat)) (topologicalSort : List Nat) :
    Nat → Nat → List Nat → List Nat
  | 0, _, tempGroups => tempGroups
  | count + 1, j, tempGroups =>
    let scc := sccDecomposition.getD (topologicalSort.getD j 0) []
    appendLoop sccDecomposition topologicalSort count (j + 1) (tempGroups ++ scc)

/-- The flush inside the loop, lines 327-362: the block pushed for the open
group that starts at `startIndex` when component `i` does not fit. -/
def flushInLoop (sccDecomposition : List (List Nat)) (topologicalSort : List Nat)
    (startIndex i : Nat) : Bool × List Nat :=
  if startIndex + 1 < i then
    let scc_first := sccDecomposition.getD (topologicalSort.getD startIndex 0) []
    let tempGroups := scc_first
    if (startIndex + 1) + 80 ≥ i then
      -- line 341: the bound of `j` is `topologicalSort.size()`
      (true, StateBlock.ofRange (mergeLoop sccDecomposition topologicalSort
        (topologicalSort.length - (startIndex + 1)) (startIndex + 1) tempGroups))
    else
      -- line 351: the bound of `j` is `i`
      (true, StateBlock.ofRange (std_sort (appendLoop sccDecomposition topologicalSort
        (i - (startIndex + 1)) (startIndex + 1) tempGroups)))
  else
    (true, sccDecomposition.getD (topologicalSort.getD startIndex 0) [])

/-- The flush after the loop, lines 383-417. -/
def flushFinal (sccDecomposition : List (List Nat)) (topologicalSort : List Nat)
    (startIndex : Nat) : Bool × List Nat :=
  let topologicalSortSize := topologicalSort.length
  if startIndex + 1 < topologicalSortSize then
    let scc_first := sccDecomposition.getD (topologicalSort.getD startIndex 0) []
    let tempGroups := scc_first
    if (startIndex + 1) + 80 ≥ topologicalSortSize then
      (true, StateBlock.ofRange (mergeLoop sccDecomposition topologicalSort
        (topologicalSort.length - (startIndex + 1)) (startIndex + 1) tempGroups))
    else
      (true, StateBlock.ofRange (std_sort (appendLoop sccDecomposition topologicalSort
        (topologicalSort.length - (startIndex + 1)) (startIndex + 1) tempGroups)))
  else
    (true, sccDecomposition.getD (topologicalSort.getD startIndex 0) [])

/-- The loop over the topological order, lines 311-381; `count` components are
left from position `i`, the state is `result`, `currentSize` and `startIndex`.
The memory need of a component is `calculateMemorySize` of its row count, its
number of states and its entry count; that function belongs to the CUDA
plugin and is a parameter here, like the free memory `cudaFreeMemory`. -/
def groupingLoop {V : Type} (matrix : SparseMatrix V) (calculateMemorySize : Nat → Nat → Nat → Nat)
    (cudaFreeMemory : Nat) (sccDecomposition : List (List Nat)) (topologicalSort : List Nat) :
    Nat → Nat → List (Bool × List Nat) × Nat × Nat → List (Bool × List Nat) × Nat × Nat
  | 0, _, st => st
  | count + 1, i, (result, currentSize, startIndex) =>
    let scc := sccDecomposition.getD (topologicalSort.getD i 0) []
    let rowCount := (scc.map (fun s => (matrix.rowsOfGroup s).length)).sum
    let entryCount := (scc.map (fun s =>
      ((matrix.rowsOfGroup s).map (fun r => (matrix.getRow r).length)).sum)).sum
    let sccSize := calculateMemorySize rowCount scc.length entryCount
    if currentSize + sccSize ≤ cudaFreeMemory then
      groupingLoop matrix calculateMemorySize cudaFreeMemory sccDecomposition topologicalSort
        count (i + 1) (result, currentSize + sccSize, startIndex)
    else
      let result := if startIndex < i then
          result ++ [flushInLoop sccDecomposition topologicalSort startIndex i]
        else result
      if sccSize ≤ cudaFreeMemory then
        groupingLoop matrix calculateMemorySize cudaFreeMemory sccDecomposition topologicalSort
          count (i + 1) (result, sccSize, i)
      else
        groupingLoop matrix calculateMemorySize cudaFreeMemory sccDecomposition topologicalSort
          count (i + 1) (result ++ [(false, scc)], 0, i + 1)

/-- Accelerated build of `getOptimalGroupingFromTopologicalSccDecomposition`,
lines 296-420. -/
def getOptimalGroupingAccelerated {V : Type} (matrix : SparseMatrix V)
    (calculateMemorySize : Nat → Nat → Nat → Nat) (cudaFreeMemory : Nat)
    (sccDecomposition : List (List Nat)) (topologicalSort : List Nat) :
    List (Bool × List Nat) :=
  let st := groupingLoop matrix calculateMemorySize cudaFreeMemory sccDecomposition
    topologicalSort topologicalSort.length 0 ([], 0, 0)
  let result := st.1
  let startIndex := st.2.2
  if startIndex < topologicalSort.length then
    result ++ [flushFinal sccDecomposition topologicalSort startIndex]
  else result

end TopologicalMinMaxLinearEquationSolver

/-! # storm: solve goals (src/storm/solver/SolveGoal.cpp) -/

/-- Modelled from the spec: the class `BoundedGoal` of `SolveGoal.h`, which is
not among the sources: a direction, the relevant states, the threshold and
the strictness flag. -/
structure BoundedGoal where
  optimizationDirection : OptimizationDirection
  relevantValues : List Nat
  thresholdValue : ℚ
  boundIsStrict : Bool
deriving DecidableEq

/-- Modelled from the spec: the class `SolveGoal` of `SolveGoal.h`: a goal is
unbounded and carries a direction, or it is a bounded goal. -/
inductive SolveGoal where
  | unbounded (optimizationDirection : OptimizationDirection)
  | bounded (goal : BoundedGoal)
deriving DecidableEq

/-- Modelled from the spec: accessor `direction` of a bounded goal. -/
def BoundedGoal.direction (g : BoundedGoal) : OptimizationDirection := g.optimizationDirection

/-- Modelled from the spec: accessor `minimize` of a bounded goal. -/
def BoundedGoal.minimize (g : BoundedGoal) : Bool :=
  decide (g.optimizationDirection = OptimizationDirection.Minimize)

/-- Modelled from the spec: accessor `direction`. -/
def SolveGoal.direction : SolveGoal → OptimizationDirection
  | .unbounded d => d
  | .bounded g => g.direction

/-- Modelled from the spec: accessor `isBounded`. -/
def SolveGoal.isBounded : SolveGoal → Bool
  | .unbounded _ => false
  | .bounded _ => true

/-- Members of the base class `LinearEquationSolver` that `SolveGoal.cpp`
touches. -/
structure LinearEquationSolver where
  A : SparseMatrix ℚ
  terminationCondition : Option (TerminationCondition ℚ)
deriving DecidableEq

/-- Modelled from the spec: setter `setOptimizationDirection` of the base
class. -/
def TopologicalMinMaxLinearEquationSolver.setOptimizationDirection
    (s : TopologicalMinMaxLinearEquationSolver ℚ) (d : OptimizationDirection) :
    TopologicalMinMaxLinearEquationSolver ℚ :=
  { s with direction := some d }

/-- Modelled from the spec: setter `setTerminationCondition` of the base
class. -/
def TopologicalMinMaxLinearEquationSolver.setTerminationCondition
    (s : TopologicalMinMaxLinearEquationSolver ℚ) (c : TerminationCondition ℚ) :
    TopologicalMinMaxLinearEquationSolver ℚ :=
  { s with terminationCondition := some c }

/-- Modelled from the spec: setter `setTerminationCondition` of the base
class. -/
def LinearEquationSolver.setTerminationCondition (s : LinearEquationSolver)
    (c : TerminationCondition ℚ) : LinearEquationSolver :=
  { s with terminationCondition := some c }

/-- Function `configureMinMaxLinearEquationSolver` for a bounded goal, lines
16-22. -/
def configureMinMaxLinearEquationSolverBounded (goal : BoundedGoal)
    (factory : SparseMatrix ℚ → TopologicalMinMaxLinearEquationSolver ℚ) (matrix : SparseMatrix ℚ) :
    TopologicalMinMaxLinearEquationSolver ℚ :=
  let p := factory matrix
  let p := p.setOptimizationDirection goal.direction
  p.setTerminationCondition [CtorArg.filter goal.relevantValues, CtorArg.flag goal.boundIsStrict,
    CtorArg.value goal.thresholdValue, CtorArg.flag goal.minimize]

/-- Function `configureMinMaxLinearEquationSolver`, lines 24-32. -/
def configureMinMaxLinearEquationSolver (goal : SolveGoal)
    (factory : SparseMatrix ℚ → TopologicalMinMaxLinearEquationSolver ℚ) (matrix : SparseMatrix ℚ) :
    TopologicalMinMaxLinearEquationSolver ℚ :=
  match goal with
  | .bounded g => configureMinMaxLinearEquationSolverBounded g factory matrix
  | .unbounded _ =>
    let solver := factory matrix
    solver.setOptimizationDirection goal.direction

/-- Function `configureLinearEquationSolver` for a bounded goal, lines
34-39. -/
def configureLinearEquationSolverBounded (goal : BoundedGoal)
    (factory : SparseMatrix ℚ → LinearEquationSolver) (matrix : SparseMatrix ℚ) :
    LinearEquationSolver :=
  let solver := factory matrix
  solver.setTerminationCondition [CtorArg.filter goal.relevantValues,
    CtorArg.value goal.thresholdValue, CtorArg.flag goal.boundIsStrict,
    CtorArg.flag goal.minimize]

/-- Function `configureLinearEquationSolver`, lines 41-47. -/
def configureLinearEquationSolver (goal : SolveGoal)
    (factory : SparseMatrix ℚ → LinearEquationSolver) (matrix : SparseMatrix ℚ) :
    LinearEquationSolver :=
  match goal with
  | .bounded g => configureLinearEquationSolverBounded g factory matrix
  | .unbounded _ => factory matrix

/-! ## Vocabulary of the specification -/

/-- Bucket `b` of a block (zero outside the block). -/
def wordAt (bs : List Nat) (b : Nat) : Nat := bs[b]?.getD 0

/-- Bit `i` of a block of buckets: bit 0 is the most significant bit of bucket 0. -/
def bitAt (bs : List Nat) (i : Nat) : Bool := (wordAt bs (i / 64)).testBit (63 - i % 64)

/-- Every bucket of the block is a 64-bit word. -/
def Words (bs : List Nat) : Prop := ∀ w ∈ bs, w < wordSize

instance instDecidableWords (bs : List Nat) : Decidable (Words bs) := by
  unfold Words; infer_instance

/-- State invariant of a bit vector object: the block holds at least the
buckets needed for `bitCount` bits, each bucket is a 64-bit word, and
`bitCount` is a `uint_fast64_t` that can be rounded up to a multiple of 64
(the block of a longer vector would take `2 ^ 61` bytes). -/
def BitVector.WF (v : BitVector) : Prop :=
  neededBuckets v.bitCount ≤ v.buckets.length ∧ Words v.buckets ∧ v.bitCount + 64 ≤ wordSize

instance instDecidableWF (v : BitVector) : Decidable v.WF := by
  unfold BitVector.WF; infer_instance

/-- The word written by `set`. -/
def setWord (w k : Nat) (value : Bool) : Nat :=
  if value then w ||| 2 ^ k else w &&& not64 (2 ^ k)

/-- Number of set bits among the first `t` bits of a bucket. -/
def wordCount (w t : Nat) : Nat := (List.range t).countP (fun j => w.testBit (63 - j))

/-- Number of set bits of a block at the positions below `k`. -/
def bitCountBefore (bs : List Nat) (k : Nat) : Nat := (List.range k).countP (bitAt bs)

/-- Sum of the population counts of the first `b` buckets. -/
def fullCount (bs : List Nat) : Nat → Nat
  | 0 => 0
  | b + 1 => fullCount bs b + popcountll (wordAt bs b)

/-- Result of the bit search in one bucket: `j` is the first position at or
after `cur` whose bit is set in `w`. -/
def FirstSetFrom (w cur j : Nat) : Prop :=
  cur ≤ j ∧ j < 64 ∧ w.testBit (63 - j) = true ∧ ∀ i, cur ≤ i → i < j → w.testBit (63 - i) = false

/-- Specification of `getNextSetIndex`: `r` is the least index in `[s, n)`
whose bit is set, or `n` when there is none. -/
def IsNext (bs : List Nat) (n s r : Nat) : Prop :=
  r ≤ n ∧ (r < n → s ≤ r ∧ bitAt bs r = true) ∧ ∀ i, s ≤ i → i < r → bitAt bs i = false

/-- The set positions of a block in `[s, n)`, ascending. -/
def setFrom (bs : List Nat) (n s : Nat) : List Nat := (List.range' s (n - s)).filter (bitAt bs)

/-- The set positions of a bit vector, ascending. -/
def BitVector.setIndices (v : BitVector) : List Nat :=
  (List.range v.bitCount).filter (bitAt v.buckets)

/-- Bit of the block `vbs` at the `k`-th member of the index list `l`. -/
def selBit (vbs : List Nat) (l : List Nat) (k : Nat) : Bool :=
  match l[k]? with
  | some j => bitAt vbs j
  | none => false

/-- The truncation invariant: every bit of the last allocated bucket at a
position at or beyond `bitCount` is zero. -/
def BitVector.truncated (v : BitVector) : Prop :=
  ∀ k < 64 * v.buckets.length, 64 * (v.buckets.length - 1) ≤ k → v.bitCount ≤ k →
    bitAt v.buckets k = false

instance instDecidableTruncated (v : BitVector) : Decidable v.truncated := by
  unfold BitVector.truncated; infer_instance

/-- The mask applied by `truncateLastBucket` to a vector of `n` bits. -/
def truncMask (n : Nat) : Nat := not64 (2 ^ (64 - n % 64) - 1)

/-! ## Vocabulary for the solver claims -/

open TopologicalMinMaxLinearEquationSolver

/-- The matrix of the three-state example. -/
def exampleMatrix : SparseMatrix ℚ :=
  { rowGroupIndices := [0, 1, 2, 3], rows := [[(1, 1)], [(2, 1)], []], columnCount := 3 }

/-- The solver of the three-state example. -/
def exampleSolver (precision : ℚ) (m : Nat) : TopologicalMinMaxLinearEquationSolver ℚ :=
  { A := exampleMatrix, precision := precision, maximalNumberOfIterations := m, relative := false,
    direction := none, terminationCondition := none }

/-- A matrix with three states: state 2 has an empty row, state 1 loops to
itself with weight 1/2, state 0 moves to state 1. -/
def loopMatrix : SparseMatrix ℚ :=
  { rowGroupIndices := [0, 1, 2, 3], rows := [[(1, 1)], [(1, 1 / 2)], []], columnCount := 3 }

/-- A solver for `loopMatrix` with precision 0 and the absolute test. -/
def loopSolver (m : Nat) : TopologicalMinMaxLinearEquationSolver ℚ :=
  { A := loopMatrix, precision := 0, maximalNumberOfIterations := m, relative := false,
    direction := none, terminationCondition := none }

/-- Spec-side one-step operator of the min/max system. -/
def bellmanStep (A : SparseMatrix ℚ) (dir : OptimizationDirection) (b : Option (List ℚ))
    (x : List ℚ) : List ℚ :=
  (List.range (A.rowGroupIndices.length - 1)).map (fun st =>
    reduceGroup dir ((A.rowsOfGroup st).map (fun r =>
      ((A.getRow r).map (fun e => e.2 * x.getD e.1 0)).sum
        + (match b with
          | some bv => bv.getD r 0
          | none => 0))))

/-- A factory that creates the solver of the three-state example. -/
def exampleFactory (matrix : SparseMatrix ℚ) : TopologicalMinMaxLinearEquationSolver ℚ :=
  { A := matrix, precision := 1 / 1000000, maximalNumberOfIterations := 20000, relative := true,
    direction := none, terminationCondition := none }

/-- A factory of linear equation solvers. -/
def exampleLinearFactory (matrix : SparseMatrix ℚ) : LinearEquationSolver :=
  { A := matrix, terminationCondition := none }

/-- A bounded goal: maximise, all three states relevant, strict bound 1/2. -/
def exampleGoal : BoundedGoal :=
  { optimizationDirection := OptimizationDirection.Maximize, relevantValues := [0, 1, 2],
    thresholdValue := 1 / 2, boundIsStrict := true }

/-- The blocks of the processing order. -/
def processingOrder (d : List (List Nat)) (t : List Nat) : List (List Nat) :=
  t.map (fun k => d.getD k [])

/-- The rows of the states of a block, in the order of the block. -/
def rowsOfBlock {V : Type} (A : SparseMatrix V) (scc : List Nat) : List Nat :=
  (scc.map A.rowsOfGroup).flatten

/-- Running sums `a + s0, a + s0 + s1, ...` of a list of sizes. -/
def prefixFrom (a : Nat) : List Nat → List Nat
  | [] => []
  | s :: rest => (a + s) :: prefixFrom (a + s) rest

/-- A block the solver can process on the vector `x` without leaving a
vector: its states ascend (a `StateBlock` is a sorted set) and lie below the
column count and the length of `x`, and every column of a row of its states
lies below the length of `x`. -/
def ValidBlock {V : Type} (A : SparseMatrix V) (n : Nat) (scc : List Nat) : Prop :=
  scc.Pairwise (· < ·) ∧ (∀ st ∈ scc, st < A.columnCount ∧ st < n) ∧
    ∀ st ∈ scc, ∀ r ∈ A.rowsOfGroup st, ∀ e ∈ A.getRow r, e.1 < n

instance instDecidableValidBlock {V : Type} (A : SparseMatrix V) (n : Nat) (scc : List Nat) :
    Decidable (ValidBlock A n scc) := by
  unfold ValidBlock; infer_instance

/-- Every column that line 175 reads for the block lies below the length of
`x`. -/
def columnsInRange {V : Type} (A : SparseMatrix V) (n : Nat) (scc : List Nat) : Bool :=
  (rowsOfBlock A scc).all (fun r =>
    (A.getRow r).all (fun e => decide (e.1 ∈ scc) || decide (e.1 < n)))

/-- The value line 175 accumulates for one row, starting from `acc`: the
contributions of the entries whose column is outside the block, added in
the order of the row. -/
def foldedEntries {V : Type} (ops : ValueOps V) (member : Nat → Bool) (x : List V) :
    List (Nat × V) → V → V
  | [], acc => acc
  | e :: rest, acc =>
    foldedEntries ops member x rest
      (if !member e.1 then ops.add acc (ops.mul e.2 (x.getD e.1 ops.zero)) else acc)

/-- The local right-hand side of a block: one entry per row of its states. -/
def localRhs {V : Type} (ops : ValueOps V) (A : SparseMatrix V) (x b : List V)
    (scc : List Nat) : List V :=
  (rowsOfBlock A scc).map (fun r =>
    foldedEntries ops (fun c => decide (c ∈ scc)) x (A.getRow r) (b.getD r ops.zero))

/-- The choice indices of the local system of a block: the running sums of
the row group sizes of its states. -/
def localChoiceIndices {V : Type} (A : SparseMatrix V) (scc : List Nat) : List Nat :=
  0 :: prefixFrom 0 (scc.map (fun st => (A.rowsOfGroup st).length))

/-- One sweep of the local iteration of a component: multiply with the
sub-matrix, add the local right-hand side, reduce per row group. -/
def localSweep {V : Type} (ops : ValueOps V) (s : TopologicalMinMaxLinearEquationSolver V)
    (dir : OptimizationDirection) (x b : List V) (scc : List Nat) (cur : List V) : List V :=
  ops.reduceVectorMinOrMax dir
    (ops.addVectors (ops.multiplyWithVector (s.A.getSubmatrix scc) cur) (localRhs ops s.A x b scc))
    (localChoiceIndices s.A scc)

/-- The start vector of the local iteration of a component. -/
def localStart {V : Type} (ops : ValueOps V) (x : List V) (scc : List Nat) : List V :=
  selectVectorValues ops.zero scc x

/-- The local iteration of a component reaches, within
`maximalNumberOfIterations` sweeps, two successive iterates that are equal
modulo the precision. -/
def LocallyConverges {V : Type} (ops : ValueOps V) (s : TopologicalMinMaxLinearEquationSolver V)
    (dir : OptimizationDirection) (x b : List V) (scc : List Nat) : Prop :=
  ∃ j, j < s.maximalNumberOfIterations ∧
    ops.equalModuloPrecision ((localSweep ops s dir x b scc)^[j] (localStart ops x scc))
      ((localSweep ops s dir x b scc)^[j + 1] (localStart ops x scc)) s.precision s.relative
      = true

/-- The vector `x` with the entries of the states of a block replaced by the
entries of `cur` from position `i` on. -/
def writtenBack {V : Type} (cur : List V) : List Nat → Nat → List V → List V
  | [], _, x => x
  | state :: rest, i, x =>
    writtenBack cur rest (i + 1)
      (match cur[i]? with
        | some v => x.set state v
        | none => x)

/-- The outcome of the local iteration of a block on `x`: the flag, the
vector after the write-back and the number of sweeps. -/
def componentValue {V : Type} (ops : ValueOps V) (s : TopologicalMinMaxLinearEquationSolver V)
    (dir : OptimizationDirection) (x b : List V) (scc : List Nat) : Bool × List V × Nat :=
  ((valueIteration ops dir (s.A.getSubmatrix scc) (localRhs ops s.A x b scc)
      (localChoiceIndices s.A scc) s.precision s.relative s.maximalNumberOfIterations
      (localStart ops x scc) 0).1,
    writtenBack (valueIteration ops dir (s.A.getSubmatrix scc) (localRhs ops s.A x b scc)
      (localChoiceIndices s.A scc) s.precision s.relative s.maximalNumberOfIterations
      (localStart ops x scc) 0).2.1 scc 0 x,
    (valueIteration ops dir (s.A.getSubmatrix scc) (localRhs ops s.A x b scc)
      (localChoiceIndices s.A scc) s.precision s.relative s.maximalNumberOfIterations
      (localStart ops x scc) 0).2.2)

/-- The vector `x` after the first `k` blocks of a processing order have been
processed. -/
def xAfter {V : Type} (ops : ValueOps V) (s : TopologicalMinMaxLinearEquationSolver V)
    (dir : OptimizationDirection) (b : List V) (blocks : List (List Nat)) (x : List V) :
    Nat → List V
  | 0 => x
  | k + 1 => (componentValue ops s dir (xAfter ops s dir b blocks x k) b (blocks.getD k [])).2.1

/-- The number of sweeps made by the first `k` blocks of a processing
order. -/
def sweepsAfter {V : Type} (ops : ValueOps V) (s : TopologicalMinMaxLinearEquationSolver V)
    (dir : OptimizationDirection) (b : List V) (blocks : List (List Nat)) (x : List V) :
    Nat → Nat
  | 0 => 0
  | k + 1 => sweepsAfter ops s dir b blocks x k
      + (componentValue ops s dir (xAfter ops s dir b blocks x k) b (blocks.getD k [])).2.2

/-- The right-hand side of row `r` with the transitions that leave the block
folded in: `b[r]` plus the sum of `p * x[c]` over the entries `(c, p)` of the
row with `c` outside the block. -/
def foldedRightHandSide (A : SparseMatrix ℚ) (x b : List ℚ) (scc : List Nat) (r : Nat) : ℚ :=
  b.getD r 0 + (((A.getRow r).filter (fun e => !decide (e.1 ∈ scc))).map
    (fun e => e.2 * x.getD e.1 0)).sum

/-- The global min/max equation at state `st`: `x[st]` is the optimum over
the rows `r` of the row group of `st` of `b[r]` plus the sum of `p * x[c]`
over the entries `(c, p)` of row `r`. -/
def BellmanAt (A : SparseMatrix ℚ) (dir : OptimizationDirection) (b x : List ℚ) (st : Nat) :
    Prop :=
  x.getD st 0 = reduceGroup dir ((A.rowsOfGroup st).map (fun r =>
    b.getD r 0 + ((A.getRow r).map (fun e => e.2 * x.getD e.1 0)).sum))

/-- The local operator of a block written per state. -/
def localRow (A : SparseMatrix ℚ) (x b : List ℚ) (scc : List Nat) (cur : List ℚ) (r : Nat) : ℚ :=
  (((A.getRow r).filter (fun e => decide (e.1 ∈ scc))).map
      (fun e => e.2 * cur.getD (scc.indexOf e.1) 0)).sum
    + foldedRightHandSide A x b scc r

/-- The condensation graph of a decomposition (spec, section 3): an edge from
component `i` to component `j` exists when `i` and `j` differ and some state
of `i` has a matrix entry whose column is a state of `j`. -/
def CondensationEdge {V : Type} (A : SparseMatrix V) (d : List (List Nat)) (i j : Nat) : Prop :=
  i < d.length ∧ j < d.length ∧ i ≠ j ∧
    ∃ st ∈ d.getD i [], ∃ r ∈ A.rowsOfGroup st, ∃ e ∈ A.getRow r, e.1 ∈ d.getD j []

/-- Modelled from the spec: `extractPartitionDependencyGraph` of the SCC
decomposition is not among the sources; the graph is given by the list of
successors of every component in the condensation graph. -/
def extractPartitionDependencyGraph {V : Type} (A : SparseMatrix V) (d : List (List Nat)) :
    List (List Nat) :=
  (List.range d.length).map (fun i =>
    (List.range d.length).filter (fun j =>
      decide (i ≠ j) && (d.getD i []).any (fun st =>
        (A.rowsOfGroup st).any (fun r =>
          (A.getRow r).any (fun e => decide (e.1 ∈ d.getD j []))))))

/-- Modelled from the spec: one round of the sort places the first component
that is not placed yet and whose successors are all placed. -/
def topologicalStep (graph : List (List Nat)) (order : List Nat) : List Nat :=
  match (List.range graph.length).find? (fun i =>
      decide (i ∉ order) && (graph.getD i []).all (fun j => decide (j ∈ order))) with
  | some i => order ++ [i]
  | none => order

/-- Modelled from the spec: `storm::utility::graph::getTopologicalSort` is
not among the sources; the spec asks for a processing order in which every
component comes after all components it has an edge to.  One round per
component. -/
def getTopologicalSort (graph : List (List Nat)) : List Nat :=
  (topologicalStep graph)^[graph.length] []

/-- A list of components in which every component comes after all its
successors in the graph. -/
structure SuccessorsFirst (graph : List (List Nat)) (order : List Nat) : Prop where
  nodup : order.Nodup
  bound : ∀ i ∈ order, i < graph.length
  earlier : ∀ p i : Nat, order[p]? = some i →
    ∀ j ∈ graph.getD i [], ∃ q : Nat, q < p ∧ order[q]? = some j

/-! ## Word-level facts -/

theorem shiftRight6 (i : Nat) : i >>> 6 = i / 64 := by
  rw [Nat.shiftRight_eq_div_pow]

theorem and_mod64mask (i : Nat) : i &&& mod64mask = i % 64 := by
  have h := Nat.and_pow_two_sub_one_eq_mod i 6
  simpa [mod64mask] using h

theorem shl1_eq {k : Nat} (hk : k < 64) : shl1 k = 2 ^ k := by
  unfold shl1 wordSize
  rw [Nat.one_shiftLeft]
  exact Nat.mod_eq_of_lt (Nat.pow_lt_pow_right (by decide) hk)

theorem sub64_one {a : Nat} (h0 : 0 < a) (h1 : a < wordSize) : sub64 a 1 = a - 1 := by
  unfold sub64 wordSize at *
  omega

theorem and_two_pow_beq (w k : Nat) : ((w &&& 2 ^ k) == 2 ^ k) = w.testBit k := by
  cases h : w.testBit k
  · rw [beq_eq_false_iff_ne]
    intro e
    have h2 : (w &&& 2 ^ k).testBit k = true := by rw [e]; exact Nat.testBit_two_pow_self
    rw [Nat.testBit_and, h] at h2
    simp at h2
  · rw [beq_iff_eq]
    apply Nat.eq_of_testBit_eq
    intro j
    rw [Nat.testBit_and, Nat.testBit_two_pow]
    by_cases hj : k = j
    · subst hj; simp [h]
    · simp [hj]

theorem testBit_not64 (a j : Nat) : (not64 a).testBit j = (a.testBit j ^^ decide (j < 64)) := by
  unfold not64 allOnes
  rw [Nat.testBit_xor, Nat.testBit_two_pow_sub_one]

theorem not64_lt (a : Nat) (h : a < wordSize) : not64 a < wordSize := by
  unfold not64 allOnes wordSize at *
  exact Nat.xor_lt_two_pow h (by decide)

/-! ## Bits of a block -/

theorem neededBuckets_eq (n : Nat) : neededBuckets n = (n + 63) / 64 := by
  unfold neededBuckets
  simp only [shiftRight6, and_mod64mask]
  split <;> omega

theorem bucket_lt_needed {i n : Nat} (h : i < n) : i / 64 < neededBuckets n := by
  rw [neededBuckets_eq]; omega

theorem readBucket_ok {bs : List Nat} {i : Nat} (h : i < bs.length) :
    readBucket bs i = .ok (wordAt bs i) := by
  unfold readBucket wordAt
  rw [List.getElem?_eq_getElem h]
  rfl

theorem writeBucket_ok {bs : List Nat} {i : Nat} (h : i < bs.length) (w : Nat) :
    writeBucket bs i w = .ok (bs.set i w) := by
  unfold writeBucket
  rw [if_pos h]
  rfl

theorem bitAt_set {bs : List Nat} {b : Nat} (hb : b < bs.length) (w j : Nat) :
    bitAt (bs.set b w) j = if j / 64 = b then w.testBit (63 - j % 64) else bitAt bs j := by
  unfold bitAt wordAt
  rw [List.getElem?_set]
  by_cases h : j / 64 = b
  · subst h
    simp [hb]
  · rw [if_neg (Ne.symm h), if_neg h]

theorem opIndex_ok {v : BitVector} {i : Nat} (h : i / 64 < v.buckets.length) :
    v.opIndex i = .ok (bitAt v.buckets i) := by
  have hk : 63 - i % 64 < 64 := by omega
  unfold BitVector.opIndex
  simp only [shiftRight6, and_mod64mask, shl1_eq hk, readBucket_ok h, bind, Except.bind, pure,
    Except.pure, and_two_pow_beq]
  rfl

theorem get_ok {v : BitVector} {i : Nat} (hi : i < v.bitCount) (h : i / 64 < v.buckets.length) :
    v.get i = .ok (bitAt v.buckets i) := by
  unfold BitVector.get STORM_LOG_ASSERT
  simp [hi, opIndex_ok h, bind, Except.bind, pure, Except.pure]

theorem testBit_setWord (w : Nat) {k j : Nat} (hj : j < 64) (value : Bool) :
    (setWord w k value).testBit j = if j = k then value else w.testBit j := by
  unfold setWord
  cases value
  · simp only [Bool.false_eq_true, if_false, Nat.testBit_and, testBit_not64, Nat.testBit_two_pow]
    by_cases h : j = k
    · subst h; simp [hj]
    · have h2 : ¬ k = j := fun e => h e.symm
      simp [h, h2, hj]
  · simp only [if_true, Nat.testBit_or, Nat.testBit_two_pow]
    by_cases h : j = k
    · subst h; simp
    · have h2 : ¬ k = j := fun e => h e.symm
      simp [h, h2]

theorem setWord_lt {w k : Nat} (hw : w < wordSize) (hk : k < 64) (value : Bool) :
    setWord w k value < wordSize := by
  unfold setWord
  have h2 : 2 ^ k < wordSize := Nat.pow_lt_pow_right (by decide) hk
  cases value
  · exact Nat.and_lt_two_pow _ (not64_lt _ h2)
  · exact Nat.or_lt_two_pow hw h2

theorem set_ok {v : BitVector} {i : Nat} (hi : i < v.bitCount) (h : i / 64 < v.buckets.length)
    (value : Bool) :
    v.set i value = .ok ⟨v.bitCount,
      v.buckets.set (i / 64) (setWord (wordAt v.buckets (i / 64)) (63 - i % 64) value)⟩ := by
  have hk : 63 - i % 64 < 64 := by omega
  unfold BitVector.set STORM_LOG_ASSERT setWord
  cases value <;>
    simp [hi, shiftRight6, and_mod64mask, shl1_eq hk, readBucket_ok h, writeBucket_ok h, bind,
      Except.bind, pure, Except.pure]

theorem bitAt_set_bit {bs : List Nat} {i : Nat} (h : i / 64 < bs.length) (value : Bool) (j : Nat) :
    bitAt (bs.set (i / 64) (setWord (wordAt bs (i / 64)) (63 - i % 64) value)) j
      = if j = i then value else bitAt bs j := by
  rw [bitAt_set h]
  have hj : 63 - j % 64 < 64 := by omega
  rw [testBit_setWord _ hj]
  by_cases e : j = i
  · subst e; simp
  · by_cases hb : j / 64 = i / 64
    · have : ¬ (63 - j % 64 = 63 - i % 64) := by omega
      simp [e, hb, this, bitAt]
    · simp [e, hb]

theorem new_false (n : Nat) :
    BitVector.new n false = .ok { bitCount := n, buckets := List.replicate (neededBuckets n) 0 } := by
  simp [BitVector.new, pure, Except.pure]

theorem bitAt_replicate_zero (n j : Nat) : bitAt (List.replicate n 0) j = false := by
  unfold bitAt wordAt
  rw [List.getElem?_replicate]
  split <;> simp

/-- C1: for every length `N` and index `i < N`, starting from `BitVector(N, false)`,
`get(i)` returns true after `set(i, true)` and false after a further `set(i, false)`. -/
theorem C1_set_then_get (N i : Nat) (h : i < N) :
    (do let v0 ← BitVector.new N false
        let v1 ← v0.set i true
        v1.get i) = .ok true ∧
    (do let v0 ← BitVector.new N false
        let v1 ← v0.set i true
        let v2 ← v1.set i false
        v2.get i) = .ok false := by
  have hb : i / 64 < (List.replicate (neededBuckets N) 0).length := by
    rw [List.length_replicate]; exact bucket_lt_needed h
  have s1 : (BitVector.mk N (List.replicate (neededBuckets N) 0)).set i true = _ :=
    set_ok h hb true
  have hb1 : i / 64 < ((List.replicate (neededBuckets N) 0).set (i / 64)
      (setWord (wordAt (List.replicate (neededBuckets N) 0) (i / 64)) (63 - i % 64) true)).length := by
    rw [List.length_set]; exact hb
  constructor
  · simp only [new_false, bind, Except.bind, s1]
    rw [get_ok h hb1, bitAt_set_bit hb]
    simp
  · simp only [new_false, bind, Except.bind, s1]
    rw [set_ok h hb1 false]
    simp only []
    rw [get_ok h (by rw [List.length_set]; exact hb1), bitAt_set_bit hb1]
    simp

/-- Witness for C1 at `N = 70`, `i = 65`. -/
theorem C1_set_then_get_witness :
    (65 < 70) ∧
    ((do let v0 ← BitVector.new 70 false
         let v1 ← v0.set 65 true
         v1.get 65) = .ok true ∧
     (do let v0 ← BitVector.new 70 false
         let v1 ← v0.set 65 true
         let v2 ← v1.set 65 false
         v2.get 65) = .ok false) :=
  ⟨by decide, C1_set_then_get 70 65 (by decide)⟩

/-! ## Counting set bits -/

theorem sub64_shl1 {t : Nat} (h0 : 0 < t) (ht : t ≤ 64) :
    sub64 (shl1 (64 - t)) 1 = 2 ^ (64 - t) - 1 := by
  have hk : 64 - t < 64 := by omega
  rw [shl1_eq hk]
  have h1 : 0 < 2 ^ (64 - t) := Nat.two_pow_pos _
  have h2 : 2 ^ (64 - t) < wordSize := Nat.pow_lt_pow_right (by decide) hk
  exact sub64_one h1 h2

theorem testBit_truncMask (w : Nat) {t j : Nat} (hj : j < 64) :
    (not64 (2 ^ (64 - t) - 1) &&& w).testBit (63 - j) = (decide (j < t) && w.testBit (63 - j)) := by
  rw [Nat.testBit_and, testBit_not64, Nat.testBit_two_pow_sub_one]
  by_cases h : j < t
  · have h1 : ¬ (63 - j < 64 - t) := by omega
    have h2 : 63 - j < 64 := by omega
    simp [h, h1, h2]
  · have h1 : 63 - j < 64 - t := by omega
    have h2 : 63 - j < 64 := by omega
    simp [h, h1, h2]

theorem popcountll_masked (w : Nat) {t : Nat} (ht : t ≤ 64) :
    popcountll (not64 (2 ^ (64 - t) - 1) &&& w) = wordCount w t := by
  unfold popcountll wordCount
  have e : List.range 64 = List.range (t + (64 - t)) := by congr 1; omega
  rw [e, List.range_add, List.countP_append, List.countP_map]
  have h1 : List.countP (fun j => (not64 (2 ^ (64 - t) - 1) &&& w).testBit (63 - j)) (List.range t)
      = List.countP (fun j => w.testBit (63 - j)) (List.range t) := by
    apply List.countP_congr
    intro j hj
    rw [List.mem_range] at hj
    rw [testBit_truncMask w (by omega)]
    simp [hj]
  have h2 : List.countP ((fun j => (not64 (2 ^ (64 - t) - 1) &&& w).testBit (63 - j)) ∘
      fun x => t + x) (List.range (64 - t)) = 0 := by
    rw [List.countP_eq_zero]
    intro j hj
    rw [List.mem_range] at hj
    simp only [Function.comp]
    rw [testBit_truncMask w (by omega)]
    simp
  rw [h1, h2]
  rfl

theorem bitCountBefore_add (bs : List Nat) (b : Nat) {t : Nat} (ht : t ≤ 64) :
    bitCountBefore bs (64 * b + t) = bitCountBefore bs (64 * b) + wordCount (wordAt bs b) t := by
  unfold bitCountBefore wordCount
  rw [List.range_add, List.countP_append, List.countP_map]
  congr 1
  apply List.countP_congr
  intro j hj
  rw [List.mem_range] at hj
  have e1 : (64 * b + j) / 64 = b := by omega
  have e2 : (64 * b + j) % 64 = j := by omega
  simp only [Function.comp, bitAt, e1, e2]

theorem fullCount_eq (bs : List Nat) (b : Nat) : fullCount bs b = bitCountBefore bs (64 * b) := by
  induction b with
  | zero => rfl
  | succ b ih =>
    have e : 64 * (b + 1) = 64 * b + 64 := by ring
    rw [fullCount, ih, e, bitCountBefore_add bs b (Nat.le_refl 64)]
    rfl

theorem countFullBuckets_ok (bs : List Nat) :
    ∀ (n i : Nat), i + n ≤ bs.length →
      BitVector.countFullBuckets bs n i (fullCount bs i) = .ok (fullCount bs (i + n)) := by
  intro n
  induction n with
  | zero => intro i _; rfl
  | succ n ih =>
    intro i h
    have hi : i < bs.length := by omega
    have h2 := ih (i + 1) (by omega)
    have e : i + 1 + n = i + (n + 1) := by omega
    rw [e] at h2
    simp only [BitVector.countFullBuckets, readBucket_ok hi, bind, Except.bind]
    exact h2

theorem getNumberOfSetBitsBeforeIndex_ok {v : BitVector} {k : Nat}
    (h1 : k / 64 ≤ v.buckets.length) (h2 : k % 64 ≠ 0 → k / 64 < v.buckets.length) :
    v.getNumberOfSetBitsBeforeIndex k = .ok (bitCountBefore v.buckets k) := by
  have hc := countFullBuckets_ok v.buckets (k / 64) 0 (by omega)
  simp only [fullCount, Nat.zero_add] at hc
  have hk : k = 64 * (k / 64) + k % 64 := by omega
  unfold BitVector.getNumberOfSetBitsBeforeIndex
  simp only [shiftRight6, and_mod64mask, hc, bind, Except.bind, Nat.mod_mod]
  by_cases hz : k % 64 = 0
  · simp only [hz, ne_eq, not_true_eq_false, if_false]
    rw [fullCount_eq]
    have : 64 * (k / 64) = k := by omega
    rw [this]
    rfl
  · have hpos : 0 < k % 64 := by omega
    have hle : k % 64 ≤ 64 := by omega
    simp only [ne_eq, hz, not_false_eq_true, if_true, readBucket_ok (h2 hz), sub64_shl1 hpos hle,
      popcountll_masked _ hle, fullCount_eq]
    rw [← bitCountBefore_add v.buckets (k / 64) hle, ← hk]
    rfl

theorem wf_bucket_lt {v : BitVector} (hwf : v.WF) {i : Nat} (hi : i < v.bitCount) :
    i / 64 < v.buckets.length :=
  Nat.lt_of_lt_of_le (bucket_lt_needed hi) hwf.1

theorem wf_get {v : BitVector} (hwf : v.WF) {i : Nat} (hi : i < v.bitCount) :
    v.get i = .ok (bitAt v.buckets i) :=
  get_ok hi (wf_bucket_lt hwf hi)

theorem wf_count {v : BitVector} (hwf : v.WF) {k : Nat} (hk : k ≤ v.bitCount) :
    v.getNumberOfSetBitsBeforeIndex k = .ok (bitCountBefore v.buckets k) := by
  have h := hwf.1
  rw [neededBuckets_eq] at h
  apply getNumberOfSetBitsBeforeIndex_ok
  · omega
  · intro _; omega

theorem count_get_eq {v : BitVector} (hwf : v.WF) {k : Nat} (hk : k ≤ v.bitCount) :
    (List.range k).countP (fun i => decide (v.get i = .ok true)) = bitCountBefore v.buckets k := by
  unfold bitCountBefore
  apply List.countP_congr
  intro i hi
  rw [List.mem_range] at hi
  rw [wf_get hwf (by omega)]
  simp

/-- C9: for every bit vector `v` of length `N` and every `k ≤ N`,
`getNumberOfSetBitsBeforeIndex(k)` returns the number of indices `i < k` with
`v.get(i)` true, and `getNumberOfSetBits()` is the case `k = N`. -/
theorem C9_count_before_index (v : BitVector) (k : Nat) (hwf : v.WF) (hk : k ≤ v.bitCount) :
    v.getNumberOfSetBitsBeforeIndex k
      = .ok ((List.range k).countP (fun i => decide (v.get i = .ok true))) ∧
    v.getNumberOfSetBits = v.getNumberOfSetBitsBeforeIndex v.size ∧
    v.getNumberOfSetBits
      = .ok ((List.range v.size).countP (fun i => decide (v.get i = .ok true))) := by
  refine ⟨?_, rfl, ?_⟩
  · rw [count_get_eq hwf hk]; exact wf_count hwf hk
  · unfold BitVector.getNumberOfSetBits BitVector.size
    rw [count_get_eq hwf (Nat.le_refl _)]; exact wf_count hwf (Nat.le_refl _)

/-- Witness for C9: the vector of length 70 with buckets `5, 2 ^ 63` (bits 61,
63 and 64 set) and `k = 64`. -/
theorem C9_count_before_index_witness :
    (BitVector.mk 70 [5, 9223372036854775808]).getNumberOfSetBitsBeforeIndex 64
      = .ok ((List.range 64).countP
          (fun i => decide ((BitVector.mk 70 [5, 9223372036854775808]).get i = .ok true))) ∧
    (BitVector.mk 70 [5, 9223372036854775808]).getNumberOfSetBits
      = (BitVector.mk 70 [5, 9223372036854775808]).getNumberOfSetBitsBeforeIndex
          (BitVector.mk 70 [5, 9223372036854775808]).size ∧
    (BitVector.mk 70 [5, 9223372036854775808]).getNumberOfSetBits
      = .ok ((List.range (BitVector.mk 70 [5, 9223372036854775808]).size).countP
          (fun i => decide ((BitVector.mk 70 [5, 9223372036854775808]).get i = .ok true))) :=
  C9_count_before_index (BitVector.mk 70 [5, 9223372036854775808]) 64 (by decide) (by decide)

/-! ## Searching the next set bit -/

theorem and_two_pow_beq_zero (w k : Nat) : ((w &&& 2 ^ k) == 0) = !w.testBit k := by
  cases h : w.testBit k
  · simp only [Bool.not_false, beq_iff_eq]
    apply Nat.eq_of_testBit_eq
    intro j
    rw [Nat.testBit_and, Nat.testBit_two_pow, Nat.zero_testBit]
    by_cases hj : k = j
    · subst hj; simp [h]
    · simp [hj]
  · simp only [Bool.not_true, beq_eq_false_iff_ne]
    intro e
    have h2 : (w &&& 2 ^ k).testBit k = false := by rw [e]; exact Nat.zero_testBit k
    rw [Nat.testBit_and, h, Nat.testBit_two_pow_self] at h2
    simp at h2

theorem skipClearBits_ok (w : Nat) :
    ∀ (room cur : Nat), room = 64 - cur →
      (∃ j, cur ≤ j ∧ j < 64 ∧ w.testBit (63 - j) = true) →
      ∃ j, skipClearBits w room cur = .ok j ∧ FirstSetFrom w cur j := by
  intro room
  induction room with
  | zero =>
    intro cur hr ⟨j, h1, h2, _⟩
    omega
  | succ room ih =>
    intro cur hr ⟨j, h1, h2, h3⟩
    have hk : 63 - cur < 64 := by omega
    unfold skipClearBits
    rw [shl1_eq hk, and_two_pow_beq_zero]
    cases hb : w.testBit (63 - cur)
    · have hne : j ≠ cur := by
        intro e; rw [e, hb] at h3; cases h3
      obtain ⟨j2, e2, c1, c2, c3, c4⟩ := ih (cur + 1) (by omega) ⟨j, by omega, h2, h3⟩
      refine ⟨j2, ?_, by omega, c2, c3, ?_⟩
      · simpa using e2
      · intro i hi1 hi2
        by_cases e : i = cur
        · rw [e]; exact hb
        · exact c4 i (by omega) hi2
    · refine ⟨cur, by simp [pure, Except.pure], Nat.le_refl _, by omega, hb, ?_⟩
      intro i hi1 hi2
      omega

theorem testBit_restMask (w : Nat) {cur j : Nat} (hj : j < 64) :
    (w &&& (2 ^ (64 - cur) - 1)).testBit (63 - j) = (w.testBit (63 - j) && decide (cur ≤ j)) := by
  rw [Nat.testBit_and, Nat.testBit_two_pow_sub_one]
  by_cases h : cur ≤ j
  · have : 63 - j < 64 - cur := by omega
    simp [h, this]
  · have : ¬ (63 - j < 64 - cur) := by omega
    simp [h, this]

theorem restMask_zero {w cur : Nat} (h : w &&& (2 ^ (64 - cur) - 1) = 0) :
    ∀ j, cur ≤ j → j < 64 → w.testBit (63 - j) = false := by
  intro j h1 h2
  have e := @testBit_restMask w cur j h2
  rw [h, Nat.zero_testBit] at e
  simpa [h1] using e.symm

theorem restMask_ne_zero {w cur : Nat} (h : w &&& (2 ^ (64 - cur) - 1) ≠ 0) :
    ∃ j, cur ≤ j ∧ j < 64 ∧ (w &&& (2 ^ (64 - cur) - 1)).testBit (63 - j) = true := by
  obtain ⟨k, hk⟩ := Nat.ne_zero_implies_bit_true h
  have hk2 := hk
  rw [Nat.testBit_and, Nat.testBit_two_pow_sub_one] at hk2
  simp only [Bool.and_eq_true, decide_eq_true_eq] at hk2
  refine ⟨63 - k, by omega, by omega, ?_⟩
  have e : 63 - (63 - k) = k := by omega
  rw [e]; exact hk

theorem bitAt_bucket (bs : List Nat) (b : Nat) {j : Nat} (hj : j < 64) :
    bitAt bs (64 * b + j) = (wordAt bs b).testBit (63 - j) := by
  have e1 : (64 * b + j) / 64 = b := by omega
  have e2 : (64 * b + j) % 64 = j := by omega
  simp only [bitAt, e1, e2]

theorem bitAt_of_bucket (bs : List Nat) (i : Nat) :
    bitAt bs i = (wordAt bs (i / 64)).testBit (63 - i % 64) := rfl

theorem getNextSetIndexLoop_ok (bs : List Nat) (n : Nat) (hlen : neededBuckets n ≤ bs.length)
    (hn : n + 64 ≤ wordSize) :
    ∀ (rounds b cur : Nat), cur < 64 → n ≤ 64 * (b + rounds) →
      ∃ r, getNextSetIndexLoop bs n rounds (64 * b) b (2 ^ (64 - cur) - 1) cur = .ok r ∧
        IsNext bs n (64 * b + cur) r := by
  intro rounds
  induction rounds with
  | zero =>
    intro b cur _ hb
    refine ⟨n, ?_, Nat.le_refl _, fun h => absurd h (Nat.lt_irrefl _), ?_⟩
    · have : ¬ (64 * b < n) := by omega
      simp [getNextSetIndexLoop, this, pure, Except.pure]
    · intro i h1 h2
      omega
  | succ rounds ih =>
    intro b cur hcur hb
    unfold getNextSetIndexLoop
    by_cases hlt : 64 * b < n
    · have hbl : b < bs.length := by
        rw [neededBuckets_eq] at hlen; omega
      simp only [hlt, if_true, readBucket_ok hbl, bind, Except.bind]
      by_cases hz : wordAt bs b &&& (2 ^ (64 - cur) - 1) = 0
      · have hclear := restMask_zero hz
        have hmod : (64 * b + 64) % wordSize = 64 * (b + 1) := by
          unfold wordSize at *
          omega
        obtain ⟨r, e, r1, r2, r3⟩ := ih (b + 1) 0 (by decide) (by omega)
        refine ⟨r, ?_, r1, ?_, ?_⟩
        · simp only [hz, ne_eq, not_true_eq_false, if_false, hmod]
          exact e
        · intro hr
          have := r2 hr
          exact ⟨by omega, this.2⟩
        · intro i h1 h2
          by_cases hi : i < 64 * (b + 1)
          · have e1 : i = 64 * b + (i - 64 * b) := by omega
            rw [e1, bitAt_bucket bs b (by omega)]
            exact hclear _ (by omega) (by omega)
          · exact r3 i (by omega) h2
      · obtain ⟨j, e, c1, c2, c3, c4⟩ :=
          skipClearBits_ok (wordAt bs b &&& (2 ^ (64 - cur) - 1)) (64 - cur) cur rfl
            (restMask_ne_zero hz)
        rw [testBit_restMask _ c2] at c3
        simp only [Bool.and_eq_true, decide_eq_true_eq] at c3
        have hclear : ∀ i, cur ≤ i → i < j → (wordAt bs b).testBit (63 - i) = false := by
          intro i h1 h2
          have := c4 i h1 h2
          rw [testBit_restMask _ (by omega)] at this
          simpa [h1] using this
        simp only [ne_eq, hz, not_false_eq_true, if_true, e]
        by_cases hin : 64 * b + j < n
        · refine ⟨64 * b + j, by simp [hin, pure, Except.pure], by omega, ?_, ?_⟩
          · intro _
            refine ⟨by omega, ?_⟩
            rw [bitAt_bucket bs b c2]; exact c3.1
          · intro i h1 h2
            have e1 : i = 64 * b + (i - 64 * b) := by omega
            rw [e1, bitAt_bucket bs b (by omega)]
            exact hclear _ (by omega) (by omega)
        · refine ⟨n, by simp [hin, pure, Except.pure], Nat.le_refl _,
            fun h => absurd h (Nat.lt_irrefl _), ?_⟩
          intro i h1 h2
          have e1 : i = 64 * b + (i - 64 * b) := by omega
          rw [e1, bitAt_bucket bs b (by omega)]
          exact hclear _ (by omega) (by omega)
    · refine ⟨n, by simp [hlt, pure, Except.pure], Nat.le_refl _,
        fun h => absurd h (Nat.lt_irrefl _), ?_⟩
      intro i h1 h2
      omega

theorem getNextSetIndex_ok (bs : List Nat) (n s : Nat) (hlen : neededBuckets n ≤ bs.length)
    (hn : n + 64 ≤ wordSize) :
    ∃ r, getNextSetIndex bs s n = .ok r ∧ IsNext bs n s r := by
  have hcur : s % 64 < 64 := Nat.mod_lt _ (by decide)
  obtain ⟨r, e, h⟩ := getNextSetIndexLoop_ok bs n hlen hn (n / 64 + 1) (s / 64) (s % 64) hcur
    (by omega)
  have hs : 64 * (s / 64) + s % 64 = s := by omega
  rw [hs] at h
  refine ⟨r, ?_, h⟩
  unfold getNextSetIndex
  simp only [shiftRight6, and_mod64mask, Nat.shiftLeft_eq]
  have hm : (if s % 64 = 0 then allOnes else sub64 (shl1 (64 - s % 64)) 1)
      = 2 ^ (64 - s % 64) - 1 := by
    by_cases hz : s % 64 = 0
    · simp [hz, allOnes]
    · rw [if_neg hz, sub64_shl1 (by omega) (by omega)]
  rw [hm]
  have hmul : s / 64 * 2 ^ 6 = 64 * (s / 64) := by omega
  rw [hmul]
  exact e

/-! ## Iteration -/

theorem setFrom_zero (bs : List Nat) (n : Nat) :
    setFrom bs n 0 = (List.range n).filter (bitAt bs) := by
  unfold setFrom
  rw [List.range_eq_range']
  rfl

theorem setFrom_end (bs : List Nat) (n : Nat) : setFrom bs n n = [] := by
  simp [setFrom]

theorem setFrom_cons {bs : List Nat} {n c : Nat} (hc : c < n) (hb : bitAt bs c = true) :
    setFrom bs n c = c :: setFrom bs n (c + 1) := by
  unfold setFrom
  have e : n - c = (n - (c + 1)) + 1 := by omega
  rw [e, List.range'_succ, List.filter_cons_of_pos hb]

theorem setFrom_of_next {bs : List Nat} {n s r : Nat} (h : IsNext bs n s r) (hs : s ≤ n) :
    setFrom bs n s = setFrom bs n r := by
  obtain ⟨h1, h2, h3⟩ := h
  have hsr : s ≤ r := by
    by_cases hr : r < n
    · exact (h2 hr).1
    · omega
  unfold setFrom
  have e : n - s = (n - r) + (r - s) := by omega
  have e2 : List.range' r (n - r) = List.range' (s + (r - s)) (n - r) := by
    congr 1; omega
  rw [e, ← List.range'_append_1, List.filter_append, e2]
  have hnil : List.filter (bitAt bs) (List.range' s (r - s)) = [] := by
    rw [List.filter_eq_nil_iff]
    intro a ha
    rw [List.mem_range'_1] at ha
    rw [h3 a ha.1 (by omega)]
    simp
  rw [hnil, List.nil_append]

theorem rangeForLoop_ok {σ : Type} (body : σ → Nat → Res σ) (bs : List Nat) (n : Nat)
    (hlen : neededBuckets n ≤ bs.length) (hn : n + 64 ≤ wordSize) :
    ∀ (rounds c : Nat) (st : σ), c ≤ n → (c < n → bitAt bs c = true) → n ≤ c + rounds →
      rangeForLoop body ⟨bs, n, n⟩ rounds ⟨bs, c, n⟩ st = (setFrom bs n c).foldlM body st := by
  intro rounds
  induction rounds with
  | zero =>
    intro c st h1 _ h3
    have e : c = n := by omega
    subst e
    simp [rangeForLoop, const_iterator.opNe, setFrom_end]
  | succ rounds ih =>
    intro c st h1 h2 h3
    by_cases e : c = n
    · subst e
      simp [rangeForLoop, const_iterator.opNe, setFrom_end]
    · have hc : c < n := by omega
      have hne : (const_iterator.mk bs c n).opNe ⟨bs, n, n⟩ = true := by
        simp [const_iterator.opNe, e]
      rw [setFrom_cons hc (h2 hc), List.foldlM_cons]
      unfold rangeForLoop
      rw [if_pos hne]
      simp only [const_iterator.opDeref, bind, Except.bind]
      cases hbody : body st c with
      | error err => rfl
      | ok st2 =>
        have hmod : (c + 1) % wordSize = c + 1 := by
          unfold wordSize at *; omega
        obtain ⟨r, er, hr⟩ := getNextSetIndex_ok bs n (c + 1) hlen hn
        simp only [const_iterator.opInc, hmod, er, bind, Except.bind, pure, Except.pure]
        rw [setFrom_of_next hr (by omega)]
        have hr1 := hr.1
        have hr2 := hr.2.1
        apply ih r st2 hr1 (fun h => (hr2 h).2)
        by_cases hrn : r < n
        · have := (hr2 hrn).1; omega
        · omega

theorem forEach_ok {σ : Type} (v : BitVector) (hwf : v.WF) (body : σ → Nat → Res σ) (init : σ) :
    v.forEach body init = v.setIndices.foldlM body init := by
  obtain ⟨r, er, hr⟩ := getNextSetIndex_ok v.buckets v.bitCount 0 hwf.1 hwf.2.2
  unfold BitVector.forEach BitVector.begin_ BitVector.end_ const_iterator.new
  simp only [er, if_true, Bool.false_eq_true, if_false, bind, Except.bind, pure, Except.pure]
  rw [rangeForLoop_ok body v.buckets v.bitCount hwf.1 hwf.2.2 v.bitCount r init hr.1
    (fun h => (hr.2.1 h).2) (by omega)]
  rw [← setFrom_of_next hr (Nat.zero_le _), setFrom_zero]
  rfl

theorem foldlM_snoc (l acc : List Nat) :
    l.foldlM (fun (acc : List Nat) (bit : Nat) => (pure (acc ++ [bit]) : Res (List Nat))) acc
      = .ok (acc ++ l) := by
  induction l generalizing acc with
  | nil => simp [pure, Except.pure]
  | cons a l ih =>
    rw [List.foldlM_cons]
    simp only [bind, Except.bind, pure, Except.pure]
    have := ih (acc ++ [a])
    simp only [pure, Except.pure] at this
    rw [this]
    simp

theorem indices_ok (v : BitVector) (hwf : v.WF) : v.indices = .ok v.setIndices := by
  unfold BitVector.indices
  rw [forEach_ok v hwf, foldlM_snoc]
  simp

theorem setIndices_eq_get (v : BitVector) (hwf : v.WF) :
    v.setIndices = (List.range v.size).filter (fun i => decide (v.get i = .ok true)) := by
  unfold BitVector.setIndices BitVector.size
  apply List.filter_congr
  intro i hi
  rw [List.mem_range] at hi
  rw [wf_get hwf hi]
  simp

theorem mem_setIndices (v : BitVector) (hwf : v.WF) (i : Nat) :
    i ∈ v.setIndices ↔ i < v.size ∧ v.get i = .ok true := by
  rw [setIndices_eq_get v hwf, List.mem_filter, List.mem_range]
  simp

theorem setIndices_sorted (v : BitVector) : v.setIndices.Pairwise (· < ·) :=
  List.Pairwise.filter _ (List.pairwise_lt_range _)

theorem setIndices_length (v : BitVector) (hwf : v.WF) :
    v.getNumberOfSetBits = .ok v.setIndices.length := by
  unfold BitVector.getNumberOfSetBits
  rw [wf_count hwf (Nat.le_refl _)]
  unfold bitCountBefore BitVector.setIndices
  rw [List.countP_eq_length_filter]

/-- C8: iterating a bit vector from `begin()` to `end()` yields a strictly
ascending sequence whose members are exactly the indices `i < N` with
`get(i)` true and whose length is `getNumberOfSetBits()`; and
`getNextSetIndex(s)` returns the least set index at or after `s`, or `N` when
there is none. -/
theorem C8_iteration_yields_set_bits (v : BitVector) (hwf : v.WF) :
    ∃ l, v.indices = .ok l ∧ l.Pairwise (· < ·) ∧
      (∀ i, i ∈ l ↔ i < v.size ∧ v.get i = .ok true) ∧
      v.getNumberOfSetBits = .ok l.length ∧
      ∀ s, ∃ r, v.getNextSetIndex s = .ok r ∧ r ≤ v.size ∧
        (r < v.size → s ≤ r ∧ v.get r = .ok true) ∧
        ∀ i, s ≤ i → i < r → v.get i = .ok false := by
  refine ⟨v.setIndices, indices_ok v hwf, setIndices_sorted v, mem_setIndices v hwf,
    setIndices_length v hwf, ?_⟩
  intro s
  obtain ⟨r, er, h1, h2, h3⟩ := getNextSetIndex_ok v.buckets v.bitCount s hwf.1 hwf.2.2
  refine ⟨r, er, h1, ?_, ?_⟩
  · intro hr
    have hr2 : r < v.bitCount := hr
    refine ⟨(h2 hr2).1, ?_⟩
    rw [wf_get hwf hr2, (h2 hr2).2]
  · intro i hi1 hi2
    have hi3 : i < v.bitCount := by omega
    rw [wf_get hwf hi3, h3 i hi1 hi2]

/-- Witness for C8: the vector of length 70 with buckets `5, 2 ^ 63 + 1`
(bits 61, 63, 64 set, and the stray bit 127 beyond the length). -/
theorem C8_iteration_yields_set_bits_witness :
    ∃ l, (BitVector.mk 70 [5, 9223372036854775809]).indices = .ok l ∧ l.Pairwise (· < ·) ∧
      (∀ i, i ∈ l ↔ i < (BitVector.mk 70 [5, 9223372036854775809]).size ∧
        (BitVector.mk 70 [5, 9223372036854775809]).get i = .ok true) ∧
      (BitVector.mk 70 [5, 9223372036854775809]).getNumberOfSetBits = .ok l.length ∧
      ∀ s, ∃ r, (BitVector.mk 70 [5, 9223372036854775809]).getNextSetIndex s = .ok r ∧
        r ≤ (BitVector.mk 70 [5, 9223372036854775809]).size ∧
        (r < (BitVector.mk 70 [5, 9223372036854775809]).size →
          s ≤ r ∧ (BitVector.mk 70 [5, 9223372036854775809]).get r = .ok true) ∧
        ∀ i, s ≤ i → i < r → (BitVector.mk 70 [5, 9223372036854775809]).get i = .ok false :=
  C8_iteration_yields_set_bits (BitVector.mk 70 [5, 9223372036854775809]) (by decide)

/-! ## Projection -/

theorem wordAt_lt {bs : List Nat} (hw : Words bs) (b : Nat) : wordAt bs b < wordSize := by
  unfold wordAt
  cases h : bs[b]? with
  | none => simp [wordSize]
  | some w =>
    simp only [Option.getD_some]
    exact hw w (List.getElem?_mem h)

theorem words_set {bs : List Nat} (hw : Words bs) (b : Nat) {w : Nat} (h : w < wordSize) :
    Words (bs.set b w) := by
  intro x hx
  rcases List.mem_or_eq_of_mem_set hx with h1 | h1
  · exact hw x h1
  · rw [h1]; exact h

theorem set_step {res : BitVector} {c p : Nat} (hc : res.bitCount = c)
    (hlen : neededBuckets c ≤ res.buckets.length) (hw : Words res.buckets) (hp : p < c) :
    ∃ res2, res.set p true = .ok res2 ∧ res2.bitCount = c ∧
      res2.buckets.length = res.buckets.length ∧ Words res2.buckets ∧
      ∀ k, bitAt res2.buckets k = (bitAt res.buckets k || decide (k = p)) := by
  have hb : p / 64 < res.buckets.length := Nat.lt_of_lt_of_le (bucket_lt_needed hp) hlen
  refine ⟨_, set_ok (by omega) hb true, hc, by simp, ?_, ?_⟩
  · exact words_set hw _ (setWord_lt (wordAt_lt hw _) (by omega) true)
  · intro k
    simp only []
    rw [bitAt_set_bit hb]
    by_cases e : k = p <;> simp [e]

theorem opModIterateFilter_eq (v filter result : BitVector) :
    v.opModIterateFilter filter result
      = (do let st ← filter.forEach (BitVector.bodyIterateFilter v) (result, 0)
            pure st.1) := rfl

theorem opModIterateSelf_eq (v filter result : BitVector) :
    v.opModIterateSelf filter result = v.forEach (BitVector.bodyIterateSelf filter) result := rfl

theorem foldl_iterateFilter (v : BitVector) (hv : v.WF) (c : Nat) :
    ∀ (l : List Nat) (p : Nat) (res : BitVector), (∀ x ∈ l, x < v.bitCount) →
      res.bitCount = c → neededBuckets c ≤ res.buckets.length → Words res.buckets →
      p + l.length ≤ c →
      ∃ res2, l.foldlM (BitVector.bodyIterateFilter v) (res, p) = .ok (res2, p + l.length) ∧
        res2.bitCount = c ∧ res2.buckets.length = res.buckets.length ∧ Words res2.buckets ∧
        ∀ k, bitAt res2.buckets k
          = (bitAt res.buckets k || (decide (p ≤ k) && selBit v.buckets l (k - p))) := by
  intro l
  induction l with
  | nil =>
    intro p res _ hc _ hw _
    refine ⟨res, by simp [pure, Except.pure], hc, rfl, hw, ?_⟩
    intro k
    simp [selBit]
  | cons a l ih =>
    intro p res hl hc hlen hw hp
    have ha : a < v.bitCount := hl a (List.mem_cons_self _ _)
    have hl2 : ∀ x ∈ l, x < v.bitCount := fun x hx => hl x (List.mem_cons_of_mem _ hx)
    simp only [List.length_cons] at hp
    have hidx := opIndex_ok (wf_bucket_lt hv ha)
    obtain ⟨r1, e1, c1, c2, c3, c4⟩ := set_step hc hlen hw (show p < c by omega)
    have hstep : ∃ r, BitVector.bodyIterateFilter v (res, p) a = .ok (r, p + 1) ∧ r.bitCount = c ∧
        r.buckets.length = res.buckets.length ∧ Words r.buckets ∧
        ∀ k, bitAt r.buckets k = (bitAt res.buckets k || (decide (k = p) && bitAt v.buckets a)) := by
      unfold BitVector.bodyIterateFilter
      cases hbit : bitAt v.buckets a
      · refine ⟨res, ?_, hc, rfl, hw, by simp⟩
        simp [hidx, hbit, bind, Except.bind, pure, Except.pure]
      · refine ⟨r1, ?_, c1, c2, c3, by simpa using c4⟩
        simp [hidx, hbit, e1, bind, Except.bind, pure, Except.pure]
    obtain ⟨r, er, d1, d2, d3, d4⟩ := hstep
    obtain ⟨res2, e2, f1, f2, f3, f4⟩ := ih (p + 1) r hl2 d1 (by omega) d3 (by omega)
    refine ⟨res2, ?_, f1, by omega, f3, ?_⟩
    · rw [List.foldlM_cons]
      simp only [er, bind, Except.bind, List.length_cons]
      rw [e2]
      congr 2
      omega
    · intro k
      rw [f4, d4]
      by_cases hk : k = p
      · subst hk
        simp [selBit]
      · by_cases hk2 : p + 1 ≤ k
        · have e : k - p = (k - (p + 1)) + 1 := by omega
          have hpk : p ≤ k := by omega
          simp [hk, hk2, hpk, selBit, e]
        · have hpk : ¬ p ≤ k := by omega
          simp [hk, hk2, hpk]

theorem rank_lt {bs : List Nat} {n j : Nat} (hj : j < n) (hb : bitAt bs j = true) :
    bitCountBefore bs j < bitCountBefore bs n := by
  unfold bitCountBefore
  have e : List.range n = List.range (j + 1 + (n - (j + 1))) := by congr 1; omega
  rw [e, List.range_add, List.countP_append, List.range_succ, List.countP_append]
  simp [hb]
  omega

theorem foldl_iterateSelf (filter : BitVector) (hf : filter.WF) (c : Nat)
    (hcount : c = bitCountBefore filter.buckets filter.bitCount) :
    ∀ (l : List Nat) (res : BitVector), (∀ x ∈ l, x < filter.bitCount) →
      res.bitCount = c → neededBuckets c ≤ res.buckets.length → Words res.buckets →
      ∃ res2, l.foldlM (BitVector.bodyIterateSelf filter) res = .ok res2 ∧
        res2.bitCount = c ∧ res2.buckets.length = res.buckets.length ∧ Words res2.buckets ∧
        ∀ k, bitAt res2.buckets k = (bitAt res.buckets k ||
          l.any (fun j => bitAt filter.buckets j && decide (bitCountBefore filter.buckets j = k))) := by
  intro l
  induction l with
  | nil =>
    intro res _ hc _ hw
    exact ⟨res, by simp [pure, Except.pure], hc, rfl, hw, by simp⟩
  | cons a l ih =>
    intro res hl hc hlen hw
    have ha : a < filter.bitCount := hl a (List.mem_cons_self _ _)
    have hl2 : ∀ x ∈ l, x < filter.bitCount := fun x hx => hl x (List.mem_cons_of_mem _ hx)
    have hidx := opIndex_ok (wf_bucket_lt hf ha)
    have hrank := wf_count hf (Nat.le_of_lt ha)
    have hstep : ∃ r, BitVector.bodyIterateSelf filter res a = .ok r ∧ r.bitCount = c ∧
        r.buckets.length = res.buckets.length ∧ Words r.buckets ∧
        ∀ k, bitAt r.buckets k = (bitAt res.buckets k ||
          (bitAt filter.buckets a && decide (bitCountBefore filter.buckets a = k))) := by
      unfold BitVector.bodyIterateSelf
      cases hbit : bitAt filter.buckets a
      · refine ⟨res, ?_, hc, rfl, hw, by simp⟩
        simp [hidx, hbit, bind, Except.bind, pure, Except.pure]
      · have hp : bitCountBefore filter.buckets a < c := by
          rw [hcount]; exact rank_lt ha hbit
        obtain ⟨r1, e1, c1, c2, c3, c4⟩ := set_step hc hlen hw hp
        refine ⟨r1, ?_, c1, c2, c3, ?_⟩
        · simp [hidx, hbit, hrank, e1, bind, Except.bind]
        · intro k
          rw [c4]
          have : (k = bitCountBefore filter.buckets a) ↔ (bitCountBefore filter.buckets a = k) :=
            ⟨Eq.symm, Eq.symm⟩
          simp [this]
    obtain ⟨r, er, d1, d2, d3, d4⟩ := hstep
    obtain ⟨res2, e2, f1, f2, f3, f4⟩ := ih r hl2 d1 (by omega) d3
    refine ⟨res2, ?_, f1, by omega, f3, ?_⟩
    · rw [List.foldlM_cons]
      simp only [er, bind, Except.bind]
      exact e2
    · intro k
      rw [f4, d4, List.any_cons, Bool.or_assoc]

theorem kth_of_rank {bs : List Nat} {n j : Nat} (hj : j < n) (hb : bitAt bs j = true) :
    ((List.range n).filter (bitAt bs))[bitCountBefore bs j]? = some j := by
  have e : List.range n = List.range (j + (n - j)) := by congr 1; omega
  have e2 : n - j = (n - j - 1) + 1 := by omega
  rw [e, List.range_add, List.filter_append, e2, List.range_succ_eq_map, List.map_cons,
    List.filter_cons_of_pos (by simpa using hb)]
  have hlen : ((List.range j).filter (bitAt bs)).length = bitCountBefore bs j := by
    unfold bitCountBefore
    rw [List.countP_eq_length_filter]
  rw [List.getElem?_append_right (by omega), hlen]
  simp

theorem rank_of_kth {bs : List Nat} {n k j : Nat}
    (h : ((List.range n).filter (bitAt bs))[k]? = some j) : bitCountBefore bs j = k := by
  have hmem := List.getElem?_mem h
  rw [List.mem_filter, List.mem_range] at hmem
  have h2 := kth_of_rank hmem.1 hmem.2
  have hnd : ((List.range n).filter (bitAt bs)).Nodup :=
    (List.Pairwise.filter _ (List.pairwise_lt_range n)).imp (fun hlt => Nat.ne_of_lt hlt)
  rw [List.getElem?_eq_some_iff] at h h2
  obtain ⟨hk, ek⟩ := h
  obtain ⟨hr, er⟩ := h2
  exact (hnd.getElem_inj_iff).1 (er.trans ek.symm)

theorem buckets_ext {xs ys : List Nat} (hl : xs.length = ys.length) (hx : Words xs)
    (hy : Words ys) (h : ∀ k, bitAt xs k = bitAt ys k) : xs = ys := by
  apply List.ext_getElem?
  intro b
  by_cases hb : b < xs.length
  · have hb2 : b < ys.length := by omega
    have ex : wordAt xs b < wordSize := wordAt_lt hx b
    have ey : wordAt ys b < wordSize := wordAt_lt hy b
    have hw : wordAt xs b = wordAt ys b := by
      apply Nat.eq_of_testBit_eq
      intro t
      by_cases ht : t < 64
      · have := h (64 * b + (63 - t))
        rw [bitAt_bucket xs b (by omega), bitAt_bucket ys b (by omega)] at this
        have e : 63 - (63 - t) = t := by omega
        rw [e] at this
        exact this
      · have hp : (2 : Nat) ^ 64 ≤ 2 ^ t := Nat.pow_le_pow_right (by decide) (by omega)
        unfold wordSize at ex ey
        rw [Nat.testBit_lt_two_pow (Nat.lt_of_lt_of_le ex hp),
          Nat.testBit_lt_two_pow (Nat.lt_of_lt_of_le ey hp)]
    unfold wordAt at hw
    rw [List.getElem?_eq_getElem hb, List.getElem?_eq_getElem hb2] at hw ⊢
    simpa using hw
  · rw [List.getElem?_eq_none (by omega), List.getElem?_eq_none (by omega)]

theorem selBit_eq_any (v filter : BitVector) (hlen : v.bitCount = filter.bitCount) (k : Nat) :
    selBit v.buckets filter.setIndices k
      = v.setIndices.any
          (fun j => bitAt filter.buckets j && decide (bitCountBefore filter.buckets j = k)) := by
  rw [Bool.eq_iff_iff, List.any_eq_true]
  unfold selBit
  constructor
  · intro h
    cases hk : filter.setIndices[k]? with
    | none => rw [hk] at h; cases h
    | some j =>
      rw [hk] at h
      simp only [] at h
      have hmem := List.getElem?_mem hk
      unfold BitVector.setIndices at hmem hk
      rw [List.mem_filter, List.mem_range] at hmem
      refine ⟨j, ?_, ?_⟩
      · unfold BitVector.setIndices
        rw [List.mem_filter, List.mem_range, hlen]
        exact ⟨hmem.1, h⟩
      · simp [hmem.2, rank_of_kth hk]
  · rintro ⟨j, hj, hp⟩
    unfold BitVector.setIndices at hj
    rw [List.mem_filter, List.mem_range, hlen] at hj
    simp only [Bool.and_eq_true, decide_eq_true_eq] at hp
    have := kth_of_rank hj.1 hp.1
    rw [hp.2] at this
    unfold BitVector.setIndices
    rw [this]
    exact hj.2

theorem mem_setIndices_lt {v : BitVector} {x : Nat} (h : x ∈ v.setIndices) : x < v.bitCount := by
  unfold BitVector.setIndices at h
  rw [List.mem_filter, List.mem_range] at h
  exact h.1

/-- C10: for `v` and `filter` of equal length, `v % filter` has length
`filter.getNumberOfSetBits()`, its bit `k` equals the bit of `v` at the `k`-th
set index of `filter`, and the two branches of the operator return the same
vector. -/
theorem C10_projection (v filter : BitVector) (hv : v.WF) (hf : filter.WF)
    (hlen : v.size = filter.size) :
    ∃ r c r0, filter.getNumberOfSetBits = .ok c ∧ BitVector.new c false = .ok r0 ∧
      v.opMod filter = .ok r ∧
      v.opModIterateFilter filter r0 = .ok r ∧ v.opModIterateSelf filter r0 = .ok r ∧
      r.size = c ∧
      ∀ k, k < c → ∃ i b,
        ((List.range filter.size).filter (fun i => decide (filter.get i = .ok true)))[k]? = some i ∧
        r.get k = .ok b ∧ v.get i = .ok b := by
  have hlen2 : v.bitCount = filter.bitCount := hlen
  have hcnt := setIndices_length filter hf
  have hcntv := setIndices_length v hv
  have hc : filter.setIndices.length = bitCountBefore filter.buckets filter.bitCount := by
    unfold bitCountBefore BitVector.setIndices
    rw [List.countP_eq_length_filter]
  have hw0 : Words (List.replicate (neededBuckets filter.setIndices.length) 0) := by
    intro w hw
    rw [List.eq_of_mem_replicate hw]
    decide
  obtain ⟨r1, e1, a1, a2, a3, a4⟩ := foldl_iterateFilter v hv filter.setIndices.length
    filter.setIndices 0 ⟨filter.setIndices.length,
      List.replicate (neededBuckets filter.setIndices.length) 0⟩
    (fun x hx => by rw [hlen2]; exact mem_setIndices_lt hx) rfl (by simp) hw0 (by omega)
  obtain ⟨r2, e2, b1, b2, b3, b4⟩ := foldl_iterateSelf filter hf filter.setIndices.length hc
    v.setIndices ⟨filter.setIndices.length,
      List.replicate (neededBuckets filter.setIndices.length) 0⟩
    (fun x hx => by rw [← hlen2]; exact mem_setIndices_lt hx) rfl (by simp) hw0
  simp only [bitAt_replicate_zero, Bool.false_or, Nat.zero_le, decide_True, Bool.true_and,
    Nat.sub_zero, Nat.zero_add] at a4 b4 e1
  have hsame : r2 = r1 := by
    have hb : r2.buckets = r1.buckets := by
      apply buckets_ext (by rw [a2, b2]) b3 a3
      intro k
      rw [a4, b4, selBit_eq_any v filter hlen2]
    cases r1; cases r2
    simp only [] at a1 b1 hb
    simp [a1, b1, hb]
  have hbr1 : v.opModIterateFilter filter ⟨filter.setIndices.length,
      List.replicate (neededBuckets filter.setIndices.length) 0⟩ = .ok r1 := by
    rw [opModIterateFilter_eq, forEach_ok filter hf, e1]
    rfl
  have hbr2 : v.opModIterateSelf filter ⟨filter.setIndices.length,
      List.replicate (neededBuckets filter.setIndices.length) 0⟩ = .ok r1 := by
    rw [opModIterateSelf_eq, forEach_ok v hv, e2, hsame]
  refine ⟨r1, filter.setIndices.length, _, hcnt, new_false _, ?_, hbr1, hbr2, a1, ?_⟩
  · unfold BitVector.opMod STORM_LOG_ASSERT
    simp only [hlen2, beq_self_eq_true, if_true, hcnt, hcntv, new_false, bind, Except.bind, pure,
      Except.pure]
    split
    · exact hbr1
    · exact hbr2
  · intro k hk
    have hsome : filter.setIndices[k]? = some (filter.setIndices.get ⟨k, hk⟩) := by
      rw [List.getElem?_eq_getElem hk]; rfl
    have hi : filter.setIndices.get ⟨k, hk⟩ < v.bitCount := by
      rw [hlen2]; exact mem_setIndices_lt (List.getElem?_mem hsome)
    refine ⟨filter.setIndices.get ⟨k, hk⟩, bitAt v.buckets (filter.setIndices.get ⟨k, hk⟩), ?_, ?_, ?_⟩
    · rw [← setIndices_eq_get filter hf]; exact hsome
    · have hkb : k / 64 < r1.buckets.length := by
        rw [a2, List.length_replicate]; exact bucket_lt_needed hk
      rw [get_ok (by rw [a1]; exact hk) hkb, a4]
      simp [selBit, hsome]
    · exact wf_get hv hi

/-- Witness for C10: `v` of length 70 with bits 3 and 65 set, `filter` of
length 70 with bits 3, 64 and 65 set. -/
theorem C10_projection_witness :
    ∃ r c r0, (BitVector.mk 70 [1152921504606846976, 13835058055282163712]).getNumberOfSetBits
        = .ok c ∧
      BitVector.new c false = .ok r0 ∧
      (BitVector.mk 70 [1152921504606846976, 4611686018427387904]).opMod
        (BitVector.mk 70 [1152921504606846976, 13835058055282163712]) = .ok r ∧
      (BitVector.mk 70 [1152921504606846976, 4611686018427387904]).opModIterateFilter
        (BitVector.mk 70 [1152921504606846976, 13835058055282163712]) r0 = .ok r ∧
      (BitVector.mk 70 [1152921504606846976, 4611686018427387904]).opModIterateSelf
        (BitVector.mk 70 [1152921504606846976, 13835058055282163712]) r0 = .ok r ∧
      r.size = c ∧
      ∀ k, k < c → ∃ i b,
        ((List.range (BitVector.mk 70 [1152921504606846976, 13835058055282163712]).size).filter
          (fun i => decide ((BitVector.mk 70 [1152921504606846976, 13835058055282163712]).get i
            = .ok true)))[k]? = some i ∧
        r.get k = .ok b ∧
        (BitVector.mk 70 [1152921504606846976, 4611686018427387904]).get i = .ok b :=
  C10_projection (BitVector.mk 70 [1152921504606846976, 4611686018427387904])
    (BitVector.mk 70 [1152921504606846976, 13835058055282163712]) (by decide) (by decide) rfl

/-! ## Bulk operations -/

theorem wordAt_set {bs : List Nat} {i : Nat} (hi : i < bs.length) (w k : Nat) :
    wordAt (bs.set i w) k = if k = i then w else wordAt bs k := by
  unfold wordAt
  rw [List.getElem?_set]
  by_cases h : k = i
  · subst h; simp [hi]
  · rw [if_neg (Ne.symm h), if_neg h]

theorem std_transform1_ok (op : Nat → Nat) (src : List Nat) :
    ∀ (n i : Nat) (dst : List Nat), i + n ≤ src.length → i + n ≤ dst.length →
      ∃ out, std_transform1 op src n i dst = .ok out ∧ out.length = dst.length ∧
        ∀ k, wordAt out k = if i ≤ k ∧ k < i + n then op (wordAt src k) else wordAt dst k := by
  intro n
  induction n with
  | zero =>
    intro i dst _ _
    refine ⟨dst, rfl, rfl, ?_⟩
    intro k
    have : ¬ (i ≤ k ∧ k < i + 0) := by omega
    rw [if_neg this]
  | succ n ih =>
    intro i dst h1 h2
    have hi1 : i < src.length := by omega
    have hi2 : i < dst.length := by omega
    obtain ⟨out, e, l, hk⟩ := ih (i + 1) (dst.set i (op (wordAt src i))) (by omega)
      (by rw [List.length_set]; omega)
    refine ⟨out, ?_, by rw [l, List.length_set], ?_⟩
    · simp only [std_transform1, readBucket_ok hi1, writeBucket_ok hi2, bind, Except.bind]
      exact e
    · intro k
      rw [hk, wordAt_set hi2]
      by_cases hki : k = i
      · subst hki
        have a1 : ¬ (k + 1 ≤ k ∧ k < k + 1 + n) := by omega
        have a2 : k ≤ k ∧ k < k + (n + 1) := by omega
        rw [if_neg a1, if_pos rfl, if_pos a2]
      · by_cases hr : i + 1 ≤ k ∧ k < i + 1 + n
        · have a2 : i ≤ k ∧ k < i + (n + 1) := by omega
          rw [if_pos hr, if_pos a2]
        · have a2 : ¬ (i ≤ k ∧ k < i + (n + 1)) := by omega
          rw [if_neg hr, if_neg hki, if_neg a2]

theorem std_transform2_ok (op : Nat → Nat → Nat) (src1 src2 : List Nat) :
    ∀ (n i : Nat) (dst : List Nat), i + n ≤ src1.length → i + n ≤ src2.length →
      i + n ≤ dst.length →
      ∃ out, std_transform2 op src1 src2 n i dst = .ok out ∧ out.length = dst.length ∧
        ∀ k, wordAt out k
          = if i ≤ k ∧ k < i + n then op (wordAt src1 k) (wordAt src2 k) else wordAt dst k := by
  intro n
  induction n with
  | zero =>
    intro i dst _ _ _
    refine ⟨dst, rfl, rfl, ?_⟩
    intro k
    have : ¬ (i ≤ k ∧ k < i + 0) := by omega
    rw [if_neg this]
  | succ n ih =>
    intro i dst h1 h2 h3
    have hi1 : i < src1.length := by omega
    have hi2 : i < src2.length := by omega
    have hi3 : i < dst.length := by omega
    obtain ⟨out, e, l, hk⟩ := ih (i + 1) (dst.set i (op (wordAt src1 i) (wordAt src2 i)))
      (by omega) (by omega) (by rw [List.length_set]; omega)
    refine ⟨out, ?_, by rw [l, List.length_set], ?_⟩
    · simp only [std_transform2, readBucket_ok hi1, readBucket_ok hi2, writeBucket_ok hi3, bind,
        Except.bind]
      exact e
    · intro k
      rw [hk, wordAt_set hi3]
      by_cases hki : k = i
      · subst hki
        have a1 : ¬ (k + 1 ≤ k ∧ k < k + 1 + n) := by omega
        have a2 : k ≤ k ∧ k < k + (n + 1) := by omega
        rw [if_neg a1, if_pos rfl, if_pos a2]
      · by_cases hr : i + 1 ≤ k ∧ k < i + 1 + n
        · have a2 : i ≤ k ∧ k < i + (n + 1) := by omega
          rw [if_pos hr, if_pos a2]
        · have a2 : ¬ (i ≤ k ∧ k < i + (n + 1)) := by omega
          rw [if_neg hr, if_neg hki, if_neg a2]

theorem std_equal_true (src1 src2 : List Nat) :
    ∀ (n i : Nat), i + n ≤ src1.length → i + n ≤ src2.length →
      (∀ k, i ≤ k → k < i + n → wordAt src1 k = wordAt src2 k) →
      std_equal src1 src2 n i = .ok true := by
  intro n
  induction n with
  | zero => intro i _ _ _; rfl
  | succ n ih =>
    intro i h1 h2 h
    have hi1 : i < src1.length := by omega
    have hi2 : i < src2.length := by omega
    have e := h i (Nat.le_refl _) (by omega)
    simp only [std_equal, readBucket_ok hi1, readBucket_ok hi2, bind, Except.bind, e, ne_eq,
      not_true_eq_false, if_false]
    exact ih (i + 1) (by omega) (by omega) (fun k a b => h k (by omega) (by omega))

theorem truncateLastBucket_ok (v : BitVector) (hlen : v.bitCount / 64 ≤ v.buckets.length)
    (hn : v.bitCount < wordSize) (h : v.bitCount % 64 = 0 ∨ 64 ≤ v.bitCount) :
    ∃ out, v.truncateLastBucket = .ok out ∧ out.bitCount = v.bitCount ∧
      out.buckets.length = v.buckets.length ∧
      ∀ k, wordAt out.buckets k
        = if v.bitCount % 64 ≠ 0 ∧ k + 1 = v.bitCount / 64
          then wordAt v.buckets k &&& truncMask v.bitCount else wordAt v.buckets k := by
  unfold BitVector.truncateLastBucket
  by_cases hz : v.bitCount % 64 = 0
  · refine ⟨v, by simp [and_mod64mask, hz, pure, Except.pure], rfl, rfl, ?_⟩
    intro k
    simp [hz]
  · have h64 : 64 ≤ v.bitCount := by omega
    have hidx : sub64 v.bucketCount 1 = v.bitCount / 64 - 1 := by
      unfold BitVector.bucketCount
      rw [shiftRight6]
      apply sub64_one (by omega)
      unfold wordSize at *; omega
    have hin : v.bitCount / 64 - 1 < v.buckets.length := by omega
    refine ⟨⟨v.bitCount, v.buckets.set (v.bitCount / 64 - 1)
      (wordAt v.buckets (v.bitCount / 64 - 1) &&& truncMask v.bitCount)⟩, ?_, rfl, ?_, ?_⟩
    · simp only [and_mod64mask, ne_eq, hz, not_false_eq_true, if_true, hidx, readBucket_ok hin,
        writeBucket_ok hin, sub64_shl1 (Nat.pos_of_ne_zero hz) (by omega), bind, Except.bind,
        pure, Except.pure]
      rfl
    · simp
    · intro k
      simp only []
      rw [wordAt_set hin]
      by_cases hk : k = v.bitCount / 64 - 1
      · have hk2 : v.bitCount % 64 ≠ 0 ∧ k + 1 = v.bitCount / 64 := ⟨hz, by omega⟩
        rw [if_pos hk, if_pos hk2, hk]
      · have hk2 : ¬ (v.bitCount % 64 ≠ 0 ∧ k + 1 = v.bitCount / 64) := by omega
        rw [if_neg hk, if_neg hk2]

theorem opAnd_ok {a b : BitVector} (ha : a.WF) (hb : b.WF) (hab : a.bitCount = b.bitCount) :
    ∃ r, a.opAnd b = .ok r ∧ r.bitCount = a.bitCount ∧
      r.buckets.length = neededBuckets a.bitCount ∧
      ∀ k, k < a.bitCount / 64 → wordAt r.buckets k = wordAt a.buckets k &&& wordAt b.buckets k := by
  have h1 := ha.1
  have h2 := hb.1
  rw [neededBuckets_eq] at h1 h2
  obtain ⟨out, e, l, hk⟩ := std_transform2_ok (fun x y => x &&& y) a.buckets b.buckets
    (a.bitCount / 64) 0 (List.replicate (neededBuckets a.bitCount) 0) (by omega) (by omega)
    (by rw [List.length_replicate, neededBuckets_eq]; omega)
  refine ⟨⟨a.bitCount, out⟩, ?_, rfl, by rw [l, List.length_replicate], ?_⟩
  · unfold BitVector.opAnd STORM_LOG_ASSERT BitVector.bucketCount
    simp only [hab, beq_self_eq_true, if_true, new_false, shiftRight6, bind, Except.bind, pure,
      Except.pure]
    rw [← hab, e]
  · intro k hlt
    have hk0 : 0 ≤ k ∧ k < 0 + a.bitCount / 64 := by omega
    simp only []
    rw [hk, if_pos hk0]

theorem opOr_ok (a b : BitVector) (hla : a.bitCount / 64 ≤ a.buckets.length)
    (hlb : a.bitCount / 64 ≤ b.buckets.length) (hab : a.bitCount = b.bitCount) :
    ∃ r, a.opOr b = .ok r ∧ r.bitCount = a.bitCount ∧
      r.buckets.length = neededBuckets a.bitCount ∧
      ∀ k, k < a.bitCount / 64 → wordAt r.buckets k = wordAt a.buckets k ||| wordAt b.buckets k := by
  obtain ⟨out, e, l, hk⟩ := std_transform2_ok (fun x y => x ||| y) a.buckets b.buckets
    (a.bitCount / 64) 0 (List.replicate (neededBuckets a.bitCount) 0) (by omega) (by omega)
    (by rw [List.length_replicate, neededBuckets_eq]; omega)
  refine ⟨⟨a.bitCount, out⟩, ?_, rfl, by rw [l, List.length_replicate], ?_⟩
  · unfold BitVector.opOr STORM_LOG_ASSERT BitVector.bucketCount
    simp only [hab, beq_self_eq_true, if_true, new_false, shiftRight6, bind, Except.bind, pure,
      Except.pure]
    rw [← hab, e]
  · intro k hlt
    have hk0 : 0 ≤ k ∧ k < 0 + a.bitCount / 64 := by omega
    simp only []
    rw [hk, if_pos hk0]

theorem opNot_ok (a : BitVector) (hla : a.bitCount / 64 ≤ a.buckets.length)
    (hn : a.bitCount < wordSize) (h : a.bitCount % 64 = 0 ∨ 64 ≤ a.bitCount) :
    ∃ r, a.opNot = .ok r ∧ r.bitCount = a.bitCount ∧
      r.buckets.length = neededBuckets a.bitCount ∧
      ∀ k, k < a.bitCount / 64 → wordAt r.buckets k
        = if a.bitCount % 64 ≠ 0 ∧ k + 1 = a.bitCount / 64
          then not64 (wordAt a.buckets k) &&& truncMask a.bitCount
          else not64 (wordAt a.buckets k) := by
  obtain ⟨out, e, l, hk⟩ := std_transform1_ok not64 a.buckets
    (a.bitCount / 64) 0 (List.replicate (neededBuckets a.bitCount) 0) (by omega)
    (by rw [List.length_replicate, neededBuckets_eq]; omega)
  have hl : out.length = neededBuckets a.bitCount := by rw [l, List.length_replicate]
  obtain ⟨r, er, r1, r2, r3⟩ := truncateLastBucket_ok ⟨a.bitCount, out⟩
    (by simp only []; rw [hl, neededBuckets_eq]; omega) hn h
  refine ⟨r, ?_, r1, by rw [r2]; exact hl, ?_⟩
  · unfold BitVector.opNot BitVector.bucketCount
    simp only [new_false, shiftRight6, bind, Except.bind, e]
    exact er
  · intro k hlt
    have hk0 : 0 ≤ k ∧ k < 0 + a.bitCount / 64 := by omega
    rw [r3]
    simp only []
    rw [hk, if_pos hk0]

theorem testBit_word_high {x t : Nat} (hx : x < wordSize) (ht : ¬ t < 64) :
    x.testBit t = false := by
  have hp : (2 : Nat) ^ 64 ≤ 2 ^ t := Nat.pow_le_pow_right (by decide) (by omega)
  exact Nat.testBit_lt_two_pow (Nat.lt_of_lt_of_le hx hp)

theorem de_morgan_word {x y : Nat} (hx : x < wordSize) (hy : y < wordSize) :
    not64 (x &&& y) = not64 x ||| not64 y := by
  apply Nat.eq_of_testBit_eq
  intro t
  simp only [testBit_not64, Nat.testBit_and, Nat.testBit_or]
  by_cases ht : t < 64
  · simp only [ht, decide_True]
    cases x.testBit t <;> cases y.testBit t <;> rfl
  · rw [testBit_word_high hx ht, testBit_word_high hy ht]
    simp [ht]

theorem de_morgan_word_masked {x y : Nat} (hx : x < wordSize) (hy : y < wordSize) (m : Nat) :
    not64 (x &&& y) &&& m = (not64 x &&& m) ||| (not64 y &&& m) := by
  rw [de_morgan_word hx hy]
  apply Nat.eq_of_testBit_eq
  intro t
  simp only [Nat.testBit_and, Nat.testBit_or]
  cases (not64 x).testBit t <;> cases (not64 y).testBit t <;> cases m.testBit t <;> rfl

/-- De Morgan under `operator==` away from the faulting lengths: for vectors
of equal length `N` with `N % 64 = 0` or `64 ≤ N`, the comparison
`~(a & b) == (~a | ~b)` evaluates to true. -/
theorem de_morgan_from_64 (a b : BitVector) (ha : a.WF) (hb : b.WF)
    (hab : a.bitCount = b.bitCount) (h : a.bitCount % 64 = 0 ∨ 64 ≤ a.bitCount) :
    (do let ab ← a.opAnd b
        let lhs ← ab.opNot
        let na ← a.opNot
        let nb ← b.opNot
        let rhs ← na.opOr nb
        lhs.opEq rhs) = .ok true := by
  have hna : a.bitCount < wordSize := by have := ha.2.2; omega
  have h1 := ha.1
  have h2 := hb.1
  rw [neededBuckets_eq] at h1 h2
  obtain ⟨ab, e1, p1, p2, p3⟩ := opAnd_ok ha hb hab
  obtain ⟨lhs, e2, q1, q2, q3⟩ := opNot_ok ab
    (by rw [p1, p2, neededBuckets_eq]; omega) (by rw [p1]; exact hna) (by rw [p1]; exact h)
  obtain ⟨na, e3, s1, s2, s3⟩ := opNot_ok a (by omega) hna h
  obtain ⟨nb, e4, t1, t2, t3⟩ := opNot_ok b (by omega) (by rw [← hab]; exact hna)
    (by rw [← hab]; exact h)
  obtain ⟨rhs, e5, u1, u2, u3⟩ := opOr_ok na nb
    (by rw [s1, s2, neededBuckets_eq]; omega)
    (by rw [s1, t2, ← hab, neededBuckets_eq]; omega) (by rw [s1, t1, hab])
  simp only [e1, e2, e3, e4, e5, bind, Except.bind]
  unfold BitVector.opEq BitVector.bucketCount
  have hbc : lhs.bitCount = rhs.bitCount := by rw [q1, p1, u1, s1]
  simp only [hbc, ne_eq, not_true_eq_false, if_false, shiftRight6]
  apply std_equal_true
  · rw [q2, p1, u1, s1, neededBuckets_eq]; omega
  · rw [u2, u1, s1, neededBuckets_eq]; omega
  · intro k _ hk
    rw [Nat.zero_add, u1, s1] at hk
    rw [q3 k (by rw [p1]; exact hk), u3 k (by rw [s1]; exact hk), s3 k hk,
      t3 k (by rw [← hab]; exact hk), p3 k hk, p1, ← hab]
    by_cases hc : a.bitCount % 64 ≠ 0 ∧ k + 1 = a.bitCount / 64
    · rw [if_pos hc, if_pos hc, if_pos hc,
        de_morgan_word_masked (wordAt_lt ha.2.1 k) (wordAt_lt hb.2.1 k)]
    · rw [if_neg hc, if_neg hc, if_neg hc,
        de_morgan_word (wordAt_lt ha.2.1 k) (wordAt_lt hb.2.1 k)]

/-- C2: `BitVector(70, true).getNumberOfSetBits()` evaluates to 12, not to 70:
`truncateLastBucket` masks bucket `bucketCount() - 1 = 0`, and bucket 1 stays
all ones.  For `N = 10` the constructor itself accesses `buckets[0 - 1]`. -/
theorem C2_all_true_popcount_at_70 :
    (do let v ← BitVector.new 70 true
        v.getNumberOfSetBits) = .ok 12 ∧
    (do let v ← BitVector.new 10 true
        v.getNumberOfSetBits) = .error Fault.outOfBounds := by
  decide

/-- C3: the vector built by `BitVector(70, true)` has the buckets
`0xFC00000000000000, 0xFFFFFFFFFFFFFFFF` and violates the truncation
invariant: bits 70..127 of its last bucket are set. -/
theorem C3_truncation_fails_at_70 :
    ∃ v, BitVector.new 70 true = .ok v ∧
      v.buckets = [18158513697557839872, 18446744073709551615] ∧ ¬ v.truncated :=
  ⟨⟨70, [18158513697557839872, 18446744073709551615]⟩, by decide, rfl, by decide⟩

/-- C4: with `a` the length-70 vector whose only set bit is 65, `(a & a)` has
length 70 but `(a & a).get(65)` is false although `a.get(65)` is true. -/
theorem C4_and_loses_bit_65 :
    (do let z ← BitVector.new 70 false
        let a ← z.set 65 true
        let r ← a.opAnd a
        let x ← r.get 65
        let y ← a.get 65
        pure (r.size, x, y)) = .ok (70, false, true) := by
  decide

/-- C5: with `a` the all-false vector of length 70, `(~a).get(10)` is false
although `a.get(10)` is false too. -/
theorem C5_not_loses_bit_10 :
    (do let a ← BitVector.new 70 false
        let r ← a.opNot
        let x ← r.get 10
        let y ← a.get 10
        pure (r.size, x, y)) = .ok (70, false, false) := by
  decide

/-- C6: for the all-false vectors `a`, `b` of length 10 the evaluation of
`~(a & b) == (~a | ~b)` does not return: `operator~` calls
`truncateLastBucket`, which accesses `buckets[bucketCount() - 1]` with
`bucketCount() = 0`, outside the allocated block. -/
theorem C6_de_morgan_faults_at_10 :
    (do let a ← BitVector.new 10 false
        let b ← BitVector.new 10 false
        let ab ← a.opAnd b
        let lhs ← ab.opNot
        let na ← a.opNot
        let nb ← b.opNot
        let rhs ← na.opOr nb
        lhs.opEq rhs) = .error Fault.outOfBounds := by
  decide

/-- C7: the length-10 vectors `a` (all false) and `b` (only bit 3 set) compare
equal under `operator==` although `get(3)` differs. -/
theorem C7_eq_ignores_bit_3 :
    (do let a ← BitVector.new 10 false
        let b ← a.set 3 true
        let e ← a.opEq b
        let x ← a.get 3
        let y ← b.get 3
        pure (a.size, b.size, e, x, y)) = .ok (10, 10, true, false, true) := by
  decide

/-! ## Further consequences on concrete inputs -/

/-- C11: for `N = 70` the filter `BitVector(70, true)` has only 12 set bits,
so `v % filter` has length 12 instead of 70 and compares unequal to `v`. -/
theorem C11_project_all_true_at_70 :
    (do let filter ← BitVector.new 70 true
        let v ← BitVector.new 70 false
        let r ← v.opMod filter
        let c ← filter.getNumberOfSetBits
        let e ← r.opEq v
        pure (r.size, c, e)) = .ok (12, 12, false) := by
  decide

/-- C12: for the length-10 vectors `a` (only bit 3 set) and `b` (all false),
`a.isSubsetOf(b)` returns true although `a.get(3)` is true and `b.get(3)` is
false. -/
theorem C12_subset_ignores_bit_3 :
    (do let a0 ← BitVector.new 10 false
        let a ← a0.set 3 true
        let b ← BitVector.new 10 false
        let s ← a.isSubsetOf b
        let x ← a.get 3
        let y ← b.get 3
        pure (s, x, y)) = .ok (true, true, false) := by
  decide

/-- C13: growing the length-64 vector with bit 0 set to 128 bits clears bit
0, whether the fresh block holds zeros or ones, and shrinking the length-128
vector with bit 10 set to 70 bits clears bit 10. -/
theorem C13_resize_loses_content :
    (do let a0 ← BitVector.new 64 false
        let a ← a0.set 0 true
        let x ← a.get 0
        let r ← BitVector.resize (fun _ => 0) a 128 false
        let y ← r.get 0
        pure (r.size, x, y)) = .ok (128, true, false) ∧
    (do let a0 ← BitVector.new 64 false
        let a ← a0.set 0 true
        let x ← a.get 0
        let r ← BitVector.resize (fun _ => allOnes) a 128 false
        let y ← r.get 0
        pure (r.size, x, y)) = .ok (128, true, false) ∧
    (do let a0 ← BitVector.new 128 false
        let a ← a0.set 10 true
        let x ← a.get 10
        let r ← BitVector.resize (fun _ => 0) a 70 false
        let y ← r.get 10
        pure (r.size, x, y)) = .ok (70, true, false) := by
  decide

/-- C14: growing the all-false vector of length 70 to 130 bits with
`init = true` leaves `get(70)` false, whether the fresh block holds zeros or
ones; growing the all-false vector of length 64 to 128 bits with
`init = false` leaves `get(64)` true when the fresh block holds ones, and
with `init = true` shifts by 64. -/
theorem C14_resize_new_bits_not_filled :
    (do let a ← BitVector.new 70 false
        let r ← BitVector.resize (fun _ => 0) a 130 true
        let x ← r.get 70
        pure (r.size, x)) = .ok (130, false) ∧
    (do let a ← BitVector.new 70 false
        let r ← BitVector.resize (fun _ => allOnes) a 130 true
        let x ← r.get 70
        pure (r.size, x)) = .ok (130, false) ∧
    (do let a ← BitVector.new 64 false
        let r ← BitVector.resize (fun _ => allOnes) a 128 false
        let x ← r.get 64
        pure (r.size, x)) = .ok (128, true) ∧
    (do let a ← BitVector.new 64 false
        BitVector.resize (fun _ => 0) a 128 true) = .error Fault.badShift := by
  decide

/-- C15: for the length-10 vectors `a` (all false) and `b` (only bit 3 set),
`a < b` returns false although the sizes are equal and at the only index
where they differ `a.get(3)` is false and `b.get(3)` is true. -/
theorem C15_less_ignores_bit_3 :
    (do let a ← BitVector.new 10 false
        let b ← a.set 3 true
        let l ← a.opLt b
        let x ← a.get 3
        let y ← b.get 3
        pure (a.size, b.size, l, x, y)) = .ok (10, 10, false, false, true) := by
  decide

/-- C16: the copy of the length-70 vector with bit 65 set has size 70 but a
block of one bucket, so `get(65)` on the copy reads outside the block while
the original returns true; the same holds for copy assignment. -/
theorem C16_copy_drops_last_bucket :
    (do let a0 ← BitVector.new 70 false
        let a ← a0.set 65 true
        let x ← a.get 65
        let c ← BitVector.copy (fun _ => 0) a
        pure (x, c)) = .ok (true, ⟨70, [0]⟩) ∧
    (do let a0 ← BitVector.new 70 false
        let a ← a0.set 65 true
        let c ← BitVector.copy (fun _ => 0) a
        c.get 65) = .error Fault.outOfBounds ∧
    (do let a0 ← BitVector.new 70 false
        let a ← a0.set 65 true
        let t ← BitVector.new 70 false
        let c ← BitVector.opAssign (fun _ => 0) t a
        c.get 65) = .error Fault.outOfBounds := by
  decide

/-- C17: copying the length-70 vector `other` with bit 65 set into the
all-false vector of length 128 at `bitIndex = 0` leaves `get(65)` false
although `other.get(65)` is true. -/
theorem C17_block_set_drops_bit_65 :
    (do let v ← BitVector.new 128 false
        let o0 ← BitVector.new 70 false
        let other ← o0.set 65 true
        let r ← v.setBlock 0 other
        let x ← r.get 65
        let y ← other.get 65
        pure (x, y)) = .ok (false, true) := by
  decide

/-- C18: `get(3, 64)` on the all-false vector of length 128 returns a vector
instead of failing; `set(128, other)` on a vector of length 64 passes both
assertions and then writes outside the block (`other` of length 64) or
returns normally (`other` of length 10). -/
theorem C18_block_checks_missing :
    (do let v ← BitVector.new 128 false
        v.getBlock 3 64) = .ok ⟨64, [0]⟩ ∧
    (do let v ← BitVector.new 64 false
        let other ← BitVector.new 64 false
        v.setBlock 128 other) = .error Fault.outOfBounds ∧
    (do let v ← BitVector.new 64 false
        let other ← BitVector.new 10 false
        v.setBlock 128 other) = .ok ⟨64, [0]⟩ := by
  decide

/-! ## Bounds checks, frame of `set`, hash -/

theorem readBucket_cases (bs : List Nat) (i : Nat) :
    (∃ w, readBucket bs i = .ok w ∧ i < bs.length) ∨ readBucket bs i = .error Fault.outOfBounds := by
  unfold readBucket
  cases hb : bs[i]? with
  | none => right; rfl
  | some w =>
    left
    rw [List.getElem?_eq_some_iff] at hb
    exact ⟨w, rfl, hb.1⟩

theorem get_assertion_iff (v : BitVector) (i : Nat) :
    v.get i = .error Fault.assertion ↔ v.size ≤ i := by
  unfold BitVector.get STORM_LOG_ASSERT BitVector.size
  by_cases h : i < v.bitCount
  · have h2 : ¬ v.bitCount ≤ i := by omega
    simp only [h, decide_True, if_true, h2, iff_false, bind, Except.bind, pure, Except.pure]
    unfold BitVector.opIndex
    rcases readBucket_cases v.buckets (i >>> 6) with ⟨w, hw, _⟩ | hw <;>
      simp [hw, bind, Except.bind, pure, Except.pure]
  · have h2 : v.bitCount ≤ i := by omega
    simp [h, h2, bind, Except.bind, throw, throwThe, MonadExceptOf.throw]

theorem set_assertion_iff (v : BitVector) (i : Nat) (value : Bool) :
    v.set i value = .error Fault.assertion ↔ v.size ≤ i := by
  unfold BitVector.set STORM_LOG_ASSERT BitVector.size
  by_cases h : i < v.bitCount
  · have h2 : ¬ v.bitCount ≤ i := by omega
    simp only [h, decide_True, if_true, h2, iff_false, bind, Except.bind, pure, Except.pure]
    rcases readBucket_cases v.buckets (i >>> 6) with ⟨w, hw, hlt⟩ | hw
    · cases value <;> simp [hw, writeBucket, hlt, bind, Except.bind, pure, Except.pure]
    · simp [hw, bind, Except.bind]
  · have h2 : v.bitCount ≤ i := by omega
    simp [h, h2, bind, Except.bind, throw, throwThe, MonadExceptOf.throw]

/-- C19: `get(i)` and `set(i, v)` fail their index assertion exactly when
`i ≥ size()`; the assertion is the first statement, so a failed call has
written nothing; on a well-formed vector both calls succeed for `i < size()`. -/
theorem C19_bounds_checked (v : BitVector) (i : Nat) (value : Bool) :
    (v.get i = .error Fault.assertion ↔ v.size ≤ i) ∧
    (v.set i value = .error Fault.assertion ↔ v.size ≤ i) ∧
    (v.WF → i < v.size → (∃ b, v.get i = .ok b) ∧ ∃ r, v.set i value = .ok r) := by
  refine ⟨get_assertion_iff v i, set_assertion_iff v i value, ?_⟩
  intro hwf hi
  exact ⟨⟨_, wf_get hwf hi⟩, ⟨_, set_ok hi (wf_bucket_lt hwf hi) value⟩⟩

/-- Witness for C19: the all-false vector of length 70 with one bucket pair,
index 65. -/
theorem C19_bounds_checked_witness :
    ((BitVector.mk 70 [0, 0]).get 65 = .error Fault.assertion ↔ (BitVector.mk 70 [0, 0]).size ≤ 65) ∧
    ((BitVector.mk 70 [0, 0]).set 65 true = .error Fault.assertion ↔
      (BitVector.mk 70 [0, 0]).size ≤ 65) ∧
    ((BitVector.mk 70 [0, 0]).WF → 65 < (BitVector.mk 70 [0, 0]).size →
      (∃ b, (BitVector.mk 70 [0, 0]).get 65 = .ok b) ∧
      ∃ r, (BitVector.mk 70 [0, 0]).set 65 true = .ok r) :=
  C19_bounds_checked (BitVector.mk 70 [0, 0]) 65 true

/-- C35: on a well-formed vector, `set(i, v)` with `i < N` leaves `size()` and
`get(j)` for every other `j < N` unchanged. -/
theorem C35_set_frame (v : BitVector) (i j : Nat) (value : Bool) (hwf : v.WF)
    (hi : i < v.size) (hj : j < v.size) (hne : j ≠ i) :
    ∃ r, v.set i value = .ok r ∧ r.size = v.size ∧ r.get j = v.get j := by
  have hb := wf_bucket_lt hwf hi
  refine ⟨_, set_ok hi hb value, rfl, ?_⟩
  have hjb : j / 64 < (v.buckets.set (i / 64)
      (setWord (wordAt v.buckets (i / 64)) (63 - i % 64) value)).length := by
    rw [List.length_set]; exact wf_bucket_lt hwf hj
  have e1 := @get_ok ⟨v.bitCount, v.buckets.set (i / 64)
    (setWord (wordAt v.buckets (i / 64)) (63 - i % 64) value)⟩ j hj hjb
  rw [e1, bitAt_set_bit hb, if_neg hne, wf_get hwf hj]

/-- Witness for C35: the vector of length 70 with buckets `5, 2 ^ 63`, setting
bit 65 and reading bit 64. -/
theorem C35_set_frame_witness :
    ∃ r, (BitVector.mk 70 [5, 9223372036854775808]).set 65 true = .ok r ∧
      r.size = (BitVector.mk 70 [5, 9223372036854775808]).size ∧
      r.get 64 = (BitVector.mk 70 [5, 9223372036854775808]).get 64 :=
  C35_set_frame (BitVector.mk 70 [5, 9223372036854775808]) 65 64 true (by decide) (by decide)
    (by decide) (by decide)

/-- C34: for `N = 70` the constructor allocates 2 buckets but `bucketCount()`
returns 1. -/
theorem C34_bucketCount_rounds_down :
    (do let v ← BitVector.new 70 false
        pure (v.bucketCount, v.buckets.length)) = .ok (1, 2) := by
  decide

/-- C36: the length-128 vector with only bit 0 set reports `empty()` true
although `get(0)` is true, and the all-false vector of length 10 reports
`empty()` false. -/
theorem C36_empty_wrong_sense :
    (do let v0 ← BitVector.new 128 false
        let v ← v0.set 0 true
        let e ← v.empty
        let x ← v.get 0
        pure (e, x)) = .ok (true, true) ∧
    (do let v ← BitVector.new 10 false
        v.empty) = .ok false := by
  decide

theorem getAsInt_aligned5 (v : BitVector) (idx : Nat) (h : idx < v.buckets.length)
    (hidx : idx * 64 < wordSize) :
    ∃ g, v.getAsInt ((idx <<< 6) % wordSize) 5 = .ok g ∧ g < 64 := by
  have e : (idx <<< 6) % wordSize = 64 * idx := by
    rw [Nat.shiftLeft_eq, Nat.mod_eq_of_lt (by omega)]; omega
  have e1 : 64 * idx / 64 = idx := by omega
  have e2 : 64 * idx % 64 = 0 := by omega
  have e3 : sub64 64 5 = 59 := by decide
  have e4 : (5 : Nat) % wordSize < 64 := by decide
  have e5 : sub64 (2 ^ 59) 1 = 2 ^ 59 - 1 := by decide
  have e6 : ((1 : Nat) <<< 59) % wordSize = 2 ^ 59 := by decide
  refine ⟨(wordAt v.buckets idx &&& (allOnes &&& not64 (2 ^ 59 - 1))) >>> 59, ?_, ?_⟩
  · unfold BitVector.getAsInt
    simp only [e, shiftRight6, and_mod64mask, e1, e2, if_true, Nat.zero_add, e3, e4, shl64, shr64,
      readBucket_ok h, bind, Except.bind, pure, Except.pure, e5, e6]
    have e7 : sub64 576460752303423488 1 = 576460752303423487 := by decide
    simp [e7]
  · rw [Nat.shiftRight_eq_div_pow]
    have hlt : wordAt v.buckets idx &&& (allOnes &&& not64 (2 ^ 59 - 1)) < 2 ^ 64 := by
      apply Nat.and_lt_two_pow
      apply Nat.and_lt_two_pow
      exact not64_lt _ (by decide)
    omega

theorem hashLoop_zero (v : BitVector) :
    ∀ (n index : Nat), index + n ≤ v.buckets.length → (index + n) * 64 < wordSize + 64 →
      BitVector.hashLoop v n index 0 = .ok 0 := by
  intro n
  induction n with
  | zero => intro index _ _; rfl
  | succ n ih =>
    intro index h1 h2
    obtain ⟨g, eg, hg⟩ := getAsInt_aligned5 v index (by omega) (by omega)
    have e0 : (0 : Nat) ^^^ ((0 <<< 3) % wordSize) = 0 := by decide
    unfold BitVector.hashLoop
    simp only [e0, eg, shr64, hg, if_true, bind, Except.bind, pure, Except.pure,
      Nat.zero_shiftRight, Nat.xor_self]
    exact ih (index + 1) (by omega) (by omega)

theorem hash_eq_one (v : BitVector) (hlen : v.bitCount / 64 ≤ v.buckets.length)
    (hn : v.bitCount < wordSize) (hpos : 0 < v.bitCount) : NonZeroBitVectorHash v = .ok 1 := by
  have hz := hashLoop_zero v (v.bitCount / 64) 0 (by omega) (by omega)
  unfold NonZeroBitVectorHash STORM_LOG_ASSERT BitVector.size BitVector.bucketCount
  simp only [gt_iff_lt, hpos, decide_True, if_true, shiftRight6, hz, bind, Except.bind, pure,
    Except.pure]
  decide

theorem wf_floor_le {v : BitVector} (hwf : v.WF) : v.bitCount / 64 ≤ v.buckets.length := by
  have h := hwf.1
  rw [neededBuckets_eq] at h
  omega

/-- C20: on a well-formed vector of length greater than 0 the hash is a value
different from 0, and on a vector of length 0 the call fails its assertion. -/
theorem C20_hash_nonzero (v : BitVector) (hwf : v.WF) :
    (0 < v.size → ∃ h, NonZeroBitVectorHash v = .ok h ∧ h ≠ 0) ∧
    (v.size = 0 → NonZeroBitVectorHash v = .error Fault.assertion) := by
  constructor
  · intro hpos
    have hn : v.bitCount < wordSize := by have := hwf.2.2; omega
    exact ⟨1, hash_eq_one v (wf_floor_le hwf) hn hpos, by decide⟩
  · intro hz
    have hz2 : v.bitCount = 0 := hz
    unfold NonZeroBitVectorHash STORM_LOG_ASSERT BitVector.size
    simp [hz2, bind, Except.bind, throw, throwThe, MonadExceptOf.throw]

/-- Witness for C20: the vector of length 70 with buckets `5, 2 ^ 63`. -/
theorem C20_hash_nonzero_witness :
    (0 < (BitVector.mk 70 [5, 9223372036854775808]).size →
      ∃ h, NonZeroBitVectorHash (BitVector.mk 70 [5, 9223372036854775808]) = .ok h ∧ h ≠ 0) ∧
    ((BitVector.mk 70 [5, 9223372036854775808]).size = 0 →
      NonZeroBitVectorHash (BitVector.mk 70 [5, 9223372036854775808]) = .error Fault.assertion) :=
  C20_hash_nonzero (BitVector.mk 70 [5, 9223372036854775808]) (by decide)

/-- C38: on a well-formed vector of length greater than 0 the hash is the
constant 1, so any two such vectors have the same hash. -/
theorem C38_hash_constant (v w : BitVector) (hv : v.WF) (hw : w.WF) (hvp : 0 < v.size)
    (hwp : 0 < w.size) :
    NonZeroBitVectorHash v = .ok 1 ∧ NonZeroBitVectorHash v = NonZeroBitVectorHash w := by
  have hnv : v.bitCount < wordSize := by have := hv.2.2; omega
  have hnw : w.bitCount < wordSize := by have := hw.2.2; omega
  have e1 := hash_eq_one v (wf_floor_le hv) hnv hvp
  have e2 := hash_eq_one w (wf_floor_le hw) hnw hwp
  exact ⟨e1, by rw [e1, e2]⟩

/-- Witness for C38: the vectors of length 70 with buckets `5, 2 ^ 63` and of
length 128 with buckets `0, 1`. -/
theorem C38_hash_constant_witness :
    NonZeroBitVectorHash (BitVector.mk 70 [5, 9223372036854775808]) = .ok 1 ∧
    NonZeroBitVectorHash (BitVector.mk 70 [5, 9223372036854775808])
      = NonZeroBitVectorHash (BitVector.mk 128 [0, 1]) :=
  C38_hash_constant (BitVector.mk 70 [5, 9223372036854775808]) (BitVector.mk 128 [0, 1])
    (by decide) (by decide) (by decide) (by decide)

/-! ## Integer fields -/

theorem wordSize_eq : wordSize = 18446744073709551616 := by decide

theorem shl64_ok {a k : Nat} (hk : k < 64) : shl64 a k = .ok ((a <<< k) % wordSize) := by
  unfold shl64
  rw [if_pos hk]
  rfl

theorem shl64_one {k : Nat} (hk : k < 64) : shl64 1 k = .ok (2 ^ k) := by
  rw [shl64_ok hk]
  exact congrArg Except.ok (shl1_eq hk)

theorem shr64_ok {a k : Nat} (hk : k < 64) : shr64 a k = .ok (a >>> k) := by
  unfold shr64
  rw [if_pos hk]
  rfl

theorem sub64_le {a c : Nat} (h : c ≤ a) (ha : a < wordSize) : sub64 a c = a - c := by
  unfold sub64
  rw [wordSize_eq] at *
  omega

theorem sub64_pow {k : Nat} (hk : k < 64) : sub64 (2 ^ k) 1 = 2 ^ k - 1 :=
  sub64_one (Nat.two_pow_pos _) (Nat.pow_lt_pow_right (by decide) hk)

theorem firstMask (b : Nat) (hb : b < 64) :
    (if b = 0 then (pure allOnes : Res Nat) else do
      let s ← shl64 1 (64 - b)
      pure (sub64 s 1)) = .ok (2 ^ (64 - b) - 1) := by
  by_cases h : b = 0
  · subst h
    rfl
  · have hk : 64 - b < 64 := by omega
    rw [if_neg h, shl64_one hk]
    exact congrArg Except.ok (sub64_pow hk)

theorem getAsInt_lt (v : BitVector) (i n : Nat) (hq : i / 64 < v.buckets.length)
    (hn1 : 1 ≤ n) (hn : i % 64 + n < 64) :
    v.getAsInt i n = .ok ((wordAt v.buckets (i / 64) &&&
      ((2 ^ (64 - i % 64) - 1) &&& not64 (2 ^ (64 - (i % 64 + n)) - 1)))
        >>> (64 - (i % 64 + n))) := by
  have e1 : (i % 64 + n) % wordSize = i % 64 + n := by rw [wordSize_eq]; omega
  have e2 : sub64 64 (i % 64 + n) = 64 - (i % 64 + n) :=
    sub64_le (by omega) (by rw [wordSize_eq]; omega)
  have hk : 64 - (i % 64 + n) < 64 := by omega
  unfold BitVector.getAsInt
  by_cases h0 : i % 64 = 0
  · have hm : 2 ^ (64 - i % 64) - 1 = allOnes := by rw [h0]; rfl
    rw [hm]
    simp only [shiftRight6, and_mod64mask, e1, e2, hn, if_true, shl64_one hk,
      sub64_pow hk, readBucket_ok hq, shr64_ok hk, bind, Except.bind, pure, Except.pure,
      if_pos h0]
  · have hk0 : 64 - i % 64 < 64 := by omega
    simp only [shiftRight6, and_mod64mask, e1, e2, hn, if_true, shl64_one hk, shl64_one hk0,
      sub64_pow hk, sub64_pow hk0, readBucket_ok hq, shr64_ok hk, bind, Except.bind, pure,
      Except.pure, h0, if_false]

theorem getAsInt_eq (v : BitVector) (i n : Nat) (hq : i / 64 < v.buckets.length)
    (hn : i % 64 + n = 64) :
    v.getAsInt i n = .ok (wordAt v.buckets (i / 64) &&& (2 ^ (64 - i % 64) - 1)) := by
  have e1 : (i % 64 + n) % wordSize = 64 := by rw [wordSize_eq]; omega
  unfold BitVector.getAsInt
  by_cases h0 : i % 64 = 0
  · have hm : 2 ^ (64 - i % 64) - 1 = allOnes := by rw [h0]; rfl
    rw [hm]
    simp only [shiftRight6, and_mod64mask, e1, Nat.lt_irrefl, if_false, gt_iff_lt,
      readBucket_ok hq, bind, Except.bind, pure, Except.pure, if_pos h0]
  · have hk0 : 64 - i % 64 < 64 := by omega
    simp only [shiftRight6, and_mod64mask, e1, Nat.lt_irrefl, if_false, gt_iff_lt,
      shl64_one hk0, sub64_pow hk0, readBucket_ok hq, bind, Except.bind, pure, Except.pure, h0]

theorem getAsInt_gt (v : BitVector) (i n : Nat) (hq : i / 64 + 1 < v.buckets.length)
    (hn63 : n ≤ 63) (hn : 64 < i % 64 + n) :
    v.getAsInt i n = .ok ((((wordAt v.buckets (i / 64) &&& (2 ^ (64 - i % 64) - 1))
        <<< (i % 64 + n - 64)) % wordSize) |||
      ((wordAt v.buckets (i / 64 + 1) &&& not64 (2 ^ (64 - (i % 64 + n - 64)) - 1))
        >>> (64 - (i % 64 + n - 64)))) := by
  have hb : i % 64 < 64 := Nat.mod_lt _ (by decide)
  have e1 : (i % 64 + n) % wordSize = i % 64 + n := by rw [wordSize_eq]; omega
  have e2 : sub64 64 (i % 64) = 64 - i % 64 := sub64_le (by omega) (by rw [wordSize_eq]; omega)
  have e3 : sub64 n (64 - i % 64) = i % 64 + n - 64 := by
    rw [sub64_le (by omega) (by rw [wordSize_eq]; omega)]; omega
  have e4 : sub64 64 (i % 64 + n - 64) = 64 - (i % 64 + n - 64) :=
    sub64_le (by omega) (by rw [wordSize_eq]; omega)
  have h1 : ¬ (i % 64 + n < 64) := by omega
  have h0 : i % 64 ≠ 0 := by omega
  have hk0 : 64 - i % 64 < 64 := by omega
  have hk1 : i % 64 + n - 64 < 64 := by omega
  have hk2 : 64 - (i % 64 + n - 64) < 64 := by omega
  have hq0 : i / 64 < v.buckets.length := by omega
  unfold BitVector.getAsInt
  simp only [shiftRight6, and_mod64mask, e1, e2, e3, e4, h1, hn, if_false, if_true, gt_iff_lt,
    shl64_one hk0, shl64_one hk2, shl64_ok hk1, sub64_pow hk0, sub64_pow hk2, readBucket_ok hq,
    readBucket_ok hq0, shr64_ok hk2, bind, Except.bind, pure, Except.pure, h0]

theorem shr_eq_zero {value n : Nat} (h : value < 2 ^ n) : value >>> n = 0 := by
  rw [Nat.shiftRight_eq_div_pow]
  exact Nat.div_eq_of_lt h

theorem readBucket_set_succ {bs : List Nat} {q : Nat} (hq : q + 1 < bs.length) (a : Nat) :
    readBucket (bs.set q a) (q + 1) = .ok (wordAt bs (q + 1)) := by
  rw [readBucket_ok (by rw [List.length_set]; exact hq), wordAt_set (by omega),
    if_neg (by omega)]

theorem writeBucket_set_succ {bs : List Nat} {q : Nat} (hq : q + 1 < bs.length) (a w : Nat) :
    writeBucket (bs.set q a) (q + 1) w = .ok ((bs.set q a).set (q + 1) w) :=
  writeBucket_ok (by rw [List.length_set]; exact hq) w

theorem setFromInt_lt (v : BitVector) (i n value : Nat) (hq : i / 64 < v.buckets.length)
    (hn1 : 1 ≤ n) (hn : i % 64 + n < 64) (hval : value < 2 ^ n) :
    v.setFromInt i n value = .ok ⟨v.bitCount, v.buckets.set (i / 64)
      ((wordAt v.buckets (i / 64) &&&
          not64 ((2 ^ (64 - i % 64) - 1) &&& not64 (2 ^ (64 - (i % 64 + n)) - 1)))
        ||| ((value <<< (64 - (i % 64 + n))) % wordSize))⟩ := by
  have e1 : (i % 64 + n) % wordSize = i % 64 + n := by rw [wordSize_eq]; omega
  have e2 : sub64 64 (i % 64 + n) = 64 - (i % 64 + n) :=
    sub64_le (by omega) (by rw [wordSize_eq]; omega)
  have hk : 64 - (i % 64 + n) < 64 := by omega
  have hn64 : n < 64 := by omega
  have e0 : shr64 value n = .ok 0 := by rw [shr64_ok hn64, shr_eq_zero hval]
  unfold BitVector.setFromInt STORM_LOG_ASSERT
  by_cases h0 : i % 64 = 0
  · have hm : 2 ^ (64 - i % 64) - 1 = allOnes := by rw [h0]; rfl
    rw [hm]
    simp only [shiftRight6, and_mod64mask, e0, e1, e2, hn, if_true, if_pos h0,
      shl64_one hk, shl64_ok hk, readBucket_ok hq, writeBucket_ok hq]
    rw [← sub64_pow hk]
    rfl
  · have hk0 : 64 - i % 64 < 64 := by omega
    simp only [shiftRight6, and_mod64mask, e0, e1, e2, hn, if_true, if_neg h0,
      shl64_one hk, shl64_one hk0, shl64_ok hk, readBucket_ok hq, writeBucket_ok hq]
    rw [← sub64_pow hk, ← sub64_pow hk0]
    rfl

theorem setFromInt_eq (v : BitVector) (i n value : Nat) (hq : i / 64 < v.buckets.length)
    (hn63 : n ≤ 63) (hn : i % 64 + n = 64) (hval : value < 2 ^ n) :
    v.setFromInt i n value = .ok ⟨v.bitCount, v.buckets.set (i / 64)
      ((wordAt v.buckets (i / 64) &&& not64 (2 ^ (64 - i % 64) - 1)) ||| value)⟩ := by
  have e1 : (i % 64 + n) % wordSize = 64 := by rw [wordSize_eq]; omega
  have hn64 : n < 64 := by omega
  have e0 : shr64 value n = .ok 0 := by rw [shr64_ok hn64, shr_eq_zero hval]
  have h0 : i % 64 ≠ 0 := by omega
  have hk0 : 64 - i % 64 < 64 := by omega
  unfold BitVector.setFromInt STORM_LOG_ASSERT
  simp only [shiftRight6, and_mod64mask, e1, Nat.lt_irrefl, if_false, gt_iff_lt, h0,
    e0, shl64_one hk0, readBucket_ok hq, writeBucket_ok hq]
  rw [← sub64_pow hk0]
  rfl

theorem setFromInt_gt (v : BitVector) (i n value : Nat) (hq : i / 64 + 1 < v.buckets.length)
    (hn63 : n ≤ 63) (hn : 64 < i % 64 + n) (hval : value < 2 ^ n) :
    v.setFromInt i n value = .ok ⟨v.bitCount,
      (v.buckets.set (i / 64)
        ((wordAt v.buckets (i / 64) &&& not64 (2 ^ (64 - i % 64) - 1))
          ||| (value >>> (i % 64 + n - 64)))).set (i / 64 + 1)
        ((wordAt v.buckets (i / 64 + 1) &&& (2 ^ (64 - (i % 64 + n - 64)) - 1))
          ||| ((value <<< (64 - (i % 64 + n - 64))) % wordSize))⟩ := by
  have hb : i % 64 < 64 := Nat.mod_lt _ (by decide)
  have e1 : (i % 64 + n) % wordSize = i % 64 + n := by rw [wordSize_eq]; omega
  have e2 : sub64 64 (i % 64) = 64 - i % 64 := sub64_le (by omega) (by rw [wordSize_eq]; omega)
  have e3 : sub64 n (64 - i % 64) = i % 64 + n - 64 := by
    rw [sub64_le (by omega) (by rw [wordSize_eq]; omega)]; omega
  have e4 : sub64 64 (i % 64 + n - 64) = 64 - (i % 64 + n - 64) :=
    sub64_le (by omega) (by rw [wordSize_eq]; omega)
  have e5 : (n + sub64 (i % 64) 64) % wordSize = i % 64 + n - 64 := by
    unfold sub64
    rw [wordSize_eq]
    omega
  have h1 : ¬ (i % 64 + n < 64) := by omega
  have h0 : i % 64 ≠ 0 := by omega
  have hk0 : 64 - i % 64 < 64 := by omega
  have hk1 : i % 64 + n - 64 < 64 := by omega
  have hk2 : 64 - (i % 64 + n - 64) < 64 := by omega
  have hq0 : i / 64 < v.buckets.length := by omega
  have hn64 : n < 64 := by omega
  have e0 : shr64 value n = .ok 0 := by rw [shr64_ok hn64, shr_eq_zero hval]
  unfold BitVector.setFromInt STORM_LOG_ASSERT
  simp only [shiftRight6, and_mod64mask, e0, e1, e2, e3, e4, e5, h1, hn, if_false, if_true,
    gt_iff_lt, h0, shr64_ok hk1, shl64_one hk0, shl64_one hk2, shl64_ok hk2,
    readBucket_ok hq0, writeBucket_ok hq0]
  simp only [bind, Except.bind, readBucket_set_succ hq, writeBucket_set_succ hq]
  rw [← sub64_pow hk0, ← sub64_pow hk2]
  rfl

theorem testBit_high_value {value n t : Nat} (hval : value < 2 ^ n) (ht : n ≤ t) :
    value.testBit t = false :=
  Nat.testBit_lt_two_pow (Nat.lt_of_lt_of_le hval (Nat.pow_le_pow_right (by decide) ht))

theorem field_lt_get (w value b n : Nat) (hn1 : 1 ≤ n) (hn : b + n < 64) (hval : value < 2 ^ n) :
    (((w &&& not64 ((2 ^ (64 - b) - 1) &&& not64 (2 ^ (64 - (b + n)) - 1)))
        ||| ((value <<< (64 - (b + n))) % wordSize))
      &&& ((2 ^ (64 - b) - 1) &&& not64 (2 ^ (64 - (b + n)) - 1))) >>> (64 - (b + n))
      = value := by
  apply Nat.eq_of_testBit_eq
  intro t
  simp only [Nat.testBit_shiftRight, Nat.testBit_and, Nat.testBit_or, testBit_not64,
    Nat.testBit_two_pow_sub_one, wordSize, Nat.testBit_mod_two_pow, Nat.testBit_shiftLeft]
  by_cases ht : t < n
  · have h1 : 64 - (b + n) + t < 64 - b := by omega
    have h2 : ¬ (64 - (b + n) + t < 64 - (b + n)) := by omega
    have h3 : 64 - (b + n) + t < 64 := by omega
    have h4 : 64 - (b + n) + t ≥ 64 - (b + n) := by omega
    have h5 : 64 - (b + n) + t - (64 - (b + n)) = t := by omega
    simp [h1, h2, h3, h4, h5]
  · have h1 : ¬ (64 - (b + n) + t < 64 - b) := by omega
    have hv : value.testBit t = false := testBit_high_value hval (by omega)
    simp [h1, hv]

theorem field_lt_frame (w value b n j : Nat) (hn : b + n < 64) (hval : value < 2 ^ n)
    (hj : j < 64) (hout : j < 64 - (b + n) ∨ 64 - b ≤ j) :
    (((w &&& not64 ((2 ^ (64 - b) - 1) &&& not64 (2 ^ (64 - (b + n)) - 1)))
        ||| ((value <<< (64 - (b + n))) % wordSize))).testBit j = w.testBit j := by
  simp only [Nat.testBit_and, Nat.testBit_or, testBit_not64,
    Nat.testBit_two_pow_sub_one, wordSize, Nat.testBit_mod_two_pow, Nat.testBit_shiftLeft]
  rcases hout with h | h
  · have h1 : j < 64 - b := by omega
    have h2 : ¬ (j ≥ 64 - (b + n)) := by omega
    simp [h, h1, h2, hj]
  · have h1 : ¬ (j < 64 - b) := by omega
    have h2 : value.testBit (j - (64 - (b + n))) = false :=
      testBit_high_value hval (by omega)
    simp [h1, h2, hj]

theorem field_eq_get (w value b n : Nat) (hn : b + n = 64) (hval : value < 2 ^ n) :
    ((w &&& not64 (2 ^ (64 - b) - 1)) ||| value) &&& (2 ^ (64 - b) - 1) = value := by
  apply Nat.eq_of_testBit_eq
  intro t
  simp only [Nat.testBit_and, Nat.testBit_or, testBit_not64, Nat.testBit_two_pow_sub_one]
  by_cases ht : t < n
  · have h1 : t < 64 - b := by omega
    have h3 : t < 64 := by omega
    simp [h1, h3]
  · have h1 : ¬ (t < 64 - b) := by omega
    have hv : value.testBit t = false := testBit_high_value hval (by omega)
    simp [h1, hv]

theorem field_eq_frame (w value b n j : Nat) (hn : b + n = 64) (hval : value < 2 ^ n)
    (hj : j < 64) (hout : 64 - b ≤ j) :
    ((w &&& not64 (2 ^ (64 - b) - 1)) ||| value).testBit j = w.testBit j := by
  simp only [Nat.testBit_and, Nat.testBit_or, testBit_not64, Nat.testBit_two_pow_sub_one]
  have h1 : ¬ (j < 64 - b) := by omega
  have h2 : value.testBit j = false := testBit_high_value hval (by omega)
  simp [h1, h2, hj]

theorem field_gt_get (w0 w1 value b n : Nat) (hb : b < 64) (hn63 : n ≤ 63) (hn : 64 < b + n)
    (hval : value < 2 ^ n) :
    (((((w0 &&& not64 (2 ^ (64 - b) - 1)) ||| (value >>> (b + n - 64)))
          &&& (2 ^ (64 - b) - 1)) <<< (b + n - 64)) % wordSize) |||
      ((((w1 &&& (2 ^ (64 - (b + n - 64)) - 1)) ||| ((value <<< (64 - (b + n - 64))) % wordSize))
          &&& not64 (2 ^ (64 - (b + n - 64)) - 1)) >>> (64 - (b + n - 64)))
      = value := by
  apply Nat.eq_of_testBit_eq
  intro t
  simp only [Nat.testBit_shiftRight, Nat.testBit_and, Nat.testBit_or, testBit_not64,
    Nat.testBit_two_pow_sub_one, wordSize, Nat.testBit_mod_two_pow, Nat.testBit_shiftLeft]
  by_cases ht : t < b + n - 64
  · have h1 : ¬ (t ≥ b + n - 64) := by omega
    have h2 : 64 - (b + n - 64) + t < 64 := by omega
    have h3 : 64 - (b + n - 64) + t ≥ 64 - (b + n - 64) := by omega
    have h4 : ¬ (64 - (b + n - 64) + t < 64 - (b + n - 64)) := by omega
    have h5 : 64 - (b + n - 64) + t - (64 - (b + n - 64)) = t := by omega
    simp [h1, h2, h3, h4, h5]
  · by_cases htn : t < n
    · have h1 : t ≥ b + n - 64 := by omega
      have h2 : t < 64 := by omega
      have h3 : t - (b + n - 64) < 64 - b := by omega
      have h4 : t - (b + n - 64) < 64 := by omega
      have h5 : b + n - 64 + (t - (b + n - 64)) = t := by omega
      have h6 : ¬ (64 - (b + n - 64) + t < 64) := by omega
      have h7 : ¬ (64 - (b + n - 64) + t < 64 - (b + n - 64)) := by omega
      simp [h1, h2, h3, h4, h5, h6, h7]
    · have h3 : ¬ (t - (b + n - 64) < 64 - b) := by omega
      have h6 : ¬ (64 - (b + n - 64) + t < 64) := by omega
      have h7 : ¬ (64 - (b + n - 64) + t < 64 - (b + n - 64)) := by omega
      have hv : value.testBit t = false := testBit_high_value hval (by omega)
      simp [h3, h6, h7, hv]

theorem field_gt_frame0 (w0 value b n j : Nat) (hb : b < 64) (hn : 64 < b + n)
    (hval : value < 2 ^ n) (hj : j < 64) (hout : 64 - b ≤ j) :
    ((w0 &&& not64 (2 ^ (64 - b) - 1)) ||| (value >>> (b + n - 64))).testBit j
      = w0.testBit j := by
  simp only [Nat.testBit_shiftRight, Nat.testBit_and, Nat.testBit_or, testBit_not64,
    Nat.testBit_two_pow_sub_one]
  have h1 : ¬ (j < 64 - b) := by omega
  have h2 : value.testBit (b + n - 64 + j) = false := testBit_high_value hval (by omega)
  simp [h1, h2, hj]

theorem field_gt_frame1 (w1 value b n j : Nat)
    (hj : j < 64 - (b + n - 64)) :
    ((w1 &&& (2 ^ (64 - (b + n - 64)) - 1)) ||| ((value <<< (64 - (b + n - 64))) % wordSize)).testBit
      j = w1.testBit j := by
  simp only [Nat.testBit_and, Nat.testBit_or, Nat.testBit_two_pow_sub_one, wordSize,
    Nat.testBit_mod_two_pow, Nat.testBit_shiftLeft]
  have h2 : ¬ (j ≥ 64 - (b + n - 64)) := by omega
  simp [hj, h2]

theorem bitAt_set_other {bs : List Nat} {q : Nat} (hq : q < bs.length) (w p : Nat)
    (h : p / 64 = q → w.testBit (63 - p % 64) = (wordAt bs q).testBit (63 - p % 64)) :
    bitAt (bs.set q w) p = bitAt bs p := by
  unfold bitAt
  rw [wordAt_set hq]
  by_cases hp : p / 64 = q
  · rw [if_pos hp, h hp, hp]
  · rw [if_neg hp]

/-- C37: on a well-formed vector, for a field of width `1 ≤ n ≤ 63` that
lies within the vector and a value below `2 ^ n`, `setFromInt` succeeds, the
length is unchanged, `getAsInt` on the same field returns the value (also
when the field crosses a bucket boundary), and every bit outside the field
is unchanged. -/
theorem C37_int_field_round_trip (v : BitVector) (i n value : Nat) (hwf : v.WF)
    (hn1 : 1 ≤ n) (hn63 : n ≤ 63) (hi : i + n ≤ v.bitCount) (hval : value < 2 ^ n) :
    ∃ r, v.setFromInt i n value = .ok r ∧ r.bitCount = v.bitCount ∧
      r.getAsInt i n = .ok value ∧
      (∀ p, p < i ∨ i + n ≤ p → bitAt r.buckets p = bitAt v.buckets p) ∧
      (∀ p, p < v.bitCount → p < i ∨ i + n ≤ p → r.get p = v.get p) := by
  have hnb : (v.bitCount + 63) / 64 ≤ v.buckets.length := by
    have := hwf.1
    rwa [neededBuckets_eq] at this
  have hb : i % 64 < 64 := Nat.mod_lt _ (by decide)
  have hq : i / 64 < v.buckets.length := by omega
  have key : ∃ r, v.setFromInt i n value = .ok r ∧ r.bitCount = v.bitCount ∧
      r.buckets.length = v.buckets.length ∧ r.getAsInt i n = .ok value ∧
      (∀ p, p < i ∨ i + n ≤ p → bitAt r.buckets p = bitAt v.buckets p) := by
    rcases Nat.lt_trichotomy (i % 64 + n) 64 with hlt | heq | hgt
    · refine ⟨_, setFromInt_lt v i n value hq hn1 hlt hval, rfl, by simp, ?_, ?_⟩
      · rw [getAsInt_lt _ i n (by simpa using hq) hn1 hlt]
        simp only [wordAt_set hq, if_true]
        rw [field_lt_get _ value (i % 64) n hn1 hlt hval]
      · intro p hp
        apply bitAt_set_other hq
        intro hpq
        exact field_lt_frame _ value (i % 64) n _ hlt hval (by omega) (by omega)
    · refine ⟨_, setFromInt_eq v i n value hq hn63 heq hval, rfl, by simp, ?_, ?_⟩
      · rw [getAsInt_eq _ i n (by simpa using hq) heq]
        simp only [wordAt_set hq, if_true]
        rw [field_eq_get _ value (i % 64) n heq hval]
      · intro p hp
        apply bitAt_set_other hq
        intro hpq
        exact field_eq_frame _ value (i % 64) n _ heq hval (by omega) (by omega)
    · have hq1 : i / 64 + 1 < v.buckets.length := by omega
      have hq1s : i / 64 + 1 < (v.buckets.set (i / 64)
          ((wordAt v.buckets (i / 64) &&& not64 (2 ^ (64 - i % 64) - 1))
            ||| (value >>> (i % 64 + n - 64)))).length := by
        rw [List.length_set]; exact hq1
      have hqs : i / 64 < (v.buckets.set (i / 64)
          ((wordAt v.buckets (i / 64) &&& not64 (2 ^ (64 - i % 64) - 1))
            ||| (value >>> (i % 64 + n - 64)))).length := by
        rw [List.length_set]; exact hq
      refine ⟨_, setFromInt_gt v i n value hq1 hn63 hgt hval, rfl, by simp, ?_, ?_⟩
      · rw [getAsInt_gt _ i n (by simpa using hq1) hn63 hgt]
        simp only [wordAt_set hq1s, wordAt_set hq, if_true,
          if_neg (show i / 64 ≠ i / 64 + 1 by omega)]
        rw [field_gt_get _ _ value (i % 64) n hb hn63 hgt hval]
      · intro p hp
        rw [bitAt_set_other hq1s, bitAt_set_other hq]
        · intro hpq
          exact field_gt_frame0 _ value (i % 64) n _ hb hgt hval (by omega) (by omega)
        · intro hpq
          rw [wordAt_set hq, if_neg (by omega)]
          exact field_gt_frame1 _ value (i % 64) n _ (by omega)
  obtain ⟨r, h1, h2, h3, h4, h5⟩ := key
  refine ⟨r, h1, h2, h4, h5, ?_⟩
  intro p hp hout
  have hpq : p / 64 < v.buckets.length := by omega
  rw [get_ok (by omega) (by omega), get_ok hp hpq, h5 p hout]

theorem C37_int_field_round_trip_witness :
    ∃ r, (BitVector.mk 128 [0, allOnes]).setFromInt 60 10 517 = .ok r ∧
      r.bitCount = (BitVector.mk 128 [0, allOnes]).bitCount ∧
      r.getAsInt 60 10 = .ok 517 ∧
      (∀ p, p < 60 ∨ 60 + 10 ≤ p →
        bitAt r.buckets p = bitAt (BitVector.mk 128 [0, allOnes]).buckets p) ∧
      (∀ p, p < (BitVector.mk 128 [0, allOnes]).bitCount → p < 60 ∨ 60 + 10 ≤ p →
        r.get p = (BitVector.mk 128 [0, allOnes]).get p) :=
  C37_int_field_round_trip (BitVector.mk 128 [0, allOnes]) 60 10 517 (by decide) (by decide)
    (by decide) (by decide) (by decide)

/-! ## The topological min/max solver and the solve goals -/

theorem vectorAt_ok {α : Type} {v : List α} {i : Nat} (h : i < v.length) :
    vectorAt v i = .ok (v.get ⟨i, h⟩) := by
  unfold vectorAt
  rw [List.getElem?_eq_getElem h]
  rfl

theorem vectorAt_getD {α : Type} {v : List α} {i : Nat} (h : i < v.length) (z : α) :
    vectorAt v i = .ok (v.getD i z) := by
  unfold vectorAt
  rw [List.getD_eq_getElem?_getD, List.getElem?_eq_getElem h]
  rfl

theorem vectorAt_error {α : Type} {v : List α} {i : Nat} (h : v.length ≤ i) :
    vectorAt v i = .error SolverError.outOfRange := by
  unfold vectorAt
  rw [List.getElem?_eq_none h]
  rfl

theorem vectorSet_ok {α : Type} {v : List α} {i : Nat} (h : i < v.length) (a : α) :
    vectorSet v i a = .ok (v.set i a) := by
  unfold vectorSet
  rw [if_pos h]
  rfl

theorem vectorSet_error {α : Type} {v : List α} {i : Nat} (h : v.length ≤ i) (a : α) :
    vectorSet v i a = .error SolverError.outOfRange := by
  unfold vectorSet
  rw [if_neg (Nat.not_lt.mpr h)]
  rfl

theorem bind_ok {α β : Type} (a : α) (f : α → Except SolverError β) :
    ((Except.ok a : Except SolverError α) >>= f) = f a := rfl

theorem bind_error {α β : Type} (e : SolverError) (f : α → Except SolverError β) :
    ((Except.error e : Except SolverError α) >>= f) = Except.error e := rfl

theorem set_getD_same {V : Type} (x : List V) (i : Nat) (z : V) : x.set i (x.getD i z) = x := by
  by_cases h : i < x.length
  · apply List.ext_getElem?
    intro j
    by_cases hj : i = j
    · subst hj
      simp [List.getElem?_set, h, List.getD_eq_getElem?_getD]
    · simp [List.getElem?_set, hj]
  · exact List.set_eq_of_length_le (Nat.le_of_not_lt h)

theorem foldedEntries_all {V : Type} (ops : ValueOps V) (member : Nat → Bool) (x : List V)
    (row : List (Nat × V)) (acc : V) (h : ∀ e ∈ row, member e.1 = true) :
    foldedEntries ops member x row acc = acc := by
  induction row generalizing acc with
  | nil => rfl
  | cons e rest ih =>
    rw [foldedEntries, h e (List.mem_cons_self _ _)]
    exact ih acc (fun u hu => h u (List.mem_cons_of_mem _ hu))

theorem foldRowEntries_eq {V : Type} (ops : ValueOps V) (member : Nat → Bool) (x : List V)
    (i : Nat) (row : List (Nat × V)) (B : List V) (hi : i < B.length) :
    foldRowEntries ops member x i row B
      = if row.all (fun e => member e.1 || decide (e.1 < x.length)) then
          .ok (B.set i (foldedEntries ops member x row (B.getD i ops.zero)))
        else .error SolverError.outOfRange := by
  induction row generalizing B with
  | nil =>
    simp only [foldRowEntries, List.all_nil, if_true, foldedEntries, set_getD_same]
    rfl
  | cons e rest ih =>
    rw [foldRowEntries, List.all_cons]
    cases hm : member e.1
    · simp only [Bool.not_false, if_true, Bool.false_or]
      by_cases hx : e.1 < x.length
      · have hB : i < (B.set i (ops.add (B.getD i ops.zero) (ops.mul e.2 (x.getD e.1 ops.zero)))).length := by
          rw [List.length_set]; exact hi
        rw [vectorAt_getD hi ops.zero, bind_ok, vectorAt_getD hx ops.zero, bind_ok,
          vectorSet_ok hi, bind_ok, ih _ hB]
        simp only [hx, decide_True, Bool.true_and, foldedEntries, hm, Bool.not_false, if_true,
          List.set_set]
        have hg : (B.set i (ops.add (B.getD i ops.zero) (ops.mul e.2 (x.getD e.1 ops.zero)))).getD i
            ops.zero = ops.add (B.getD i ops.zero) (ops.mul e.2 (x.getD e.1 ops.zero)) := by
          simp [List.getD_eq_getElem?_getD, List.getElem?_set, hi]
        rw [hg]
      · rw [vectorAt_getD hi ops.zero, bind_ok, vectorAt_error (Nat.le_of_not_lt hx), bind_error]
        simp [hx]
    · simp only [Bool.not_true, Bool.false_eq_true, if_false, Bool.true_or, Bool.true_and]
      rw [ih B hi]
      simp only [foldedEntries, hm, Bool.not_true, Bool.false_eq_true, if_false]

theorem foldRows_eq {V : Type} (ops : ValueOps V) (A : SparseMatrix V) (member : Nat → Bool)
    (x : List V) (g : Nat → V) (rows : List Nat) (pre post : List V) :
    foldRows ops A member x rows (pre ++ rows.map g ++ post, pre.length)
      = if rows.all (fun r => (A.getRow r).all (fun e => member e.1 || decide (e.1 < x.length)))
        then .ok (pre ++ rows.map (fun r => foldedEntries ops member x (A.getRow r) (g r)) ++ post,
          pre.length + rows.length)
        else .error SolverError.outOfRange := by
  induction rows generalizing pre with
  | nil => rfl
  | cons r rest ih =>
    have hi : pre.length < (pre ++ List.map g (r :: rest) ++ post).length := by
      simp only [List.length_append, List.length_map, List.length_cons]; omega
    have e1 : (pre ++ List.map g (r :: rest) ++ post).getD pre.length ops.zero = g r := by
      rw [List.getD_eq_getElem?_getD, List.map_cons, List.append_assoc,
        List.getElem?_append_right (Nat.le_refl _)]
      simp
    have e2 : (pre ++ List.map g (r :: rest) ++ post).set pre.length
        (foldedEntries ops member x (A.getRow r) (g r))
        = (pre ++ [foldedEntries ops member x (A.getRow r) (g r)]) ++ rest.map g ++ post := by
      simp [List.append_assoc, List.set_append_right]
    rw [foldRows, foldRowEntries_eq ops member x _ _ _ hi, List.all_cons]
    by_cases hr : (A.getRow r).all (fun e => member e.1 || decide (e.1 < x.length)) = true
    · rw [if_pos hr, hr, Bool.true_and, bind_ok, e1, e2]
      have := ih (pre ++ [foldedEntries ops member x (A.getRow r) (g r)])
      simp only [List.length_append, List.length_singleton] at this
      rw [this]
      split <;> simp [List.append_assoc, Nat.add_assoc, Nat.add_comm 1]
    · have hr2 := Bool.eq_false_iff.mpr hr
      rw [if_neg hr, hr2, Bool.false_and, bind_error]
      rfl

theorem replicate_set_shape (cpre : List Nat) (m v : Nat) :
    (cpre ++ List.replicate (m + 1) 0).set cpre.length v
      = (cpre ++ [v]) ++ List.replicate m 0 := by
  simp [List.replicate_succ, List.set_append_right, List.append_assoc]

theorem foldStates_eq {V : Type} (ops : ValueOps V) (A : SparseMatrix V) (member : Nat → Bool)
    (x : List V) (g : Nat → V) (states : List Nat) (pre post : List V) (cpre : List Nat)
    (a m : Nat) (hm : states.length ≤ m) :
    foldStates ops A member x states
        (pre ++ (rowsOfBlock A states).map g ++ post, pre.length, cpre.length,
          (cpre ++ [a]) ++ List.replicate m 0)
      = if (rowsOfBlock A states).all
            (fun r => (A.getRow r).all (fun e => member e.1 || decide (e.1 < x.length)))
        then .ok (pre ++ (rowsOfBlock A states).map
              (fun r => foldedEntries ops member x (A.getRow r) (g r)) ++ post,
            pre.length + (rowsOfBlock A states).length, cpre.length + states.length,
            (cpre ++ [a]) ++ prefixFrom a (states.map (fun st => (A.rowsOfGroup st).length))
              ++ List.replicate (m - states.length) 0)
        else .error SolverError.outOfRange := by
  induction states generalizing pre cpre a m with
  | nil => simp [foldStates, rowsOfBlock, prefixFrom]; rfl
  | cons st rest ih =>
    obtain ⟨m2, rfl⟩ : ∃ m2, m = m2 + 1 := ⟨m - 1, by simp at hm; omega⟩
    have hlen : cpre.length < ((cpre ++ [a]) ++ List.replicate (m2 + 1) 0).length := by
      simp only [List.length_append, List.length_singleton, List.length_replicate]; omega
    have hget : ((cpre ++ [a]) ++ List.replicate (m2 + 1) 0).getD cpre.length 0 = a := by
      rw [List.getD_eq_getElem?_getD, List.append_assoc,
        List.getElem?_append_right (Nat.le_refl _)]
      simp
    have hlen2 : cpre.length + 1 < ((cpre ++ [a]) ++ List.replicate (m2 + 1) 0).length := by
      simp only [List.length_append, List.length_singleton, List.length_replicate]; omega
    have hsz : A.rowGroupIndices.getD (st + 1) 0 - A.rowGroupIndices.getD st 0
        = (A.rowsOfGroup st).length := by
      simp [SparseMatrix.rowsOfGroup]
    have hset : ((cpre ++ [a]) ++ List.replicate (m2 + 1) 0).set (cpre.length + 1)
        (a + (A.rowsOfGroup st).length)
        = ((cpre ++ [a]) ++ [a + (A.rowsOfGroup st).length]) ++ List.replicate m2 0 := by
      have := replicate_set_shape (cpre ++ [a]) m2 (a + (A.rowsOfGroup st).length)
      simpa using this
    have e : pre ++ (rowsOfBlock A (st :: rest)).map g ++ post
        = pre ++ (A.rowsOfGroup st).map g ++ ((rowsOfBlock A rest).map g ++ post) := by
      simp [rowsOfBlock, List.append_assoc]
    rw [foldStates, vectorAt_getD hlen 0, bind_ok, hget, vectorSet_ok hlen2, bind_ok, hsz, hset, e,
      foldRows_eq]
    have hall : (rowsOfBlock A (st :: rest)).all
          (fun r => (A.getRow r).all (fun e => member e.1 || decide (e.1 < x.length)))
        = ((A.rowsOfGroup st).all
            (fun r => (A.getRow r).all (fun e => member e.1 || decide (e.1 < x.length)))
          && (rowsOfBlock A rest).all
            (fun r => (A.getRow r).all (fun e => member e.1 || decide (e.1 < x.length)))) := by
      simp [rowsOfBlock, List.all_append]
    rw [hall]
    by_cases h1 : (A.rowsOfGroup st).all
        (fun r => (A.getRow r).all (fun e => member e.1 || decide (e.1 < x.length))) = true
    · rw [if_pos h1, bind_ok, h1, Bool.true_and]
      have := ih (pre ++ (A.rowsOfGroup st).map
        (fun r => foldedEntries ops member x (A.getRow r) (g r))) (cpre ++ [a])
        (a + (A.rowsOfGroup st).length) m2 (by simpa using hm)
      simp only [List.length_append, List.length_map, List.append_assoc,
        List.length_singleton] at this ⊢
      rw [this]
      split <;> simp [rowsOfBlock, prefixFrom, List.append_assoc, Nat.add_assoc, Nat.add_comm 1]
    · have h2 := Bool.eq_false_iff.mpr h1
      rw [if_neg h1, h2, Bool.false_and, bind_error]
      rfl

theorem subMatrixIndicesOf_sorted (n : Nat) (scc : List Nat) (hs : scc.Pairwise (· < ·))
    (hv : ∀ st ∈ scc, st < n) : subMatrixIndicesOf n scc = scc := by
  unfold subMatrixIndicesOf
  have hsort : ((List.range n).filter (fun c => decide (c ∈ scc))).Pairwise (· < ·) :=
    (List.pairwise_lt_range n).filter _
  refine List.eq_of_perm_of_sorted ?_ hsort hs
  refine (List.perm_ext_iff_of_nodup (hsort.imp (fun h => Nat.ne_of_lt h))
    (hs.imp (fun h => Nat.ne_of_lt h))).2 ?_
  intro a
  simp only [List.mem_filter, List.mem_range, decide_eq_true_eq]
  exact ⟨fun h => h.2, fun h => ⟨hv a h, h⟩⟩

theorem prefixFrom_length (a : Nat) (sizes : List Nat) :
    (prefixFrom a sizes).length = sizes.length := by
  induction sizes generalizing a with
  | nil => rfl
  | cons s rest ih => simp [prefixFrom, ih]

theorem localChoiceIndices_length {V : Type} (A : SparseMatrix V) (scc : List Nat) :
    (localChoiceIndices A scc).length = scc.length + 1 := by
  simp [localChoiceIndices, prefixFrom_length]

theorem localRightHandSide_eq {V : Type} (ops : ValueOps V)
    (s : TopologicalMinMaxLinearEquationSolver V) (x b : List V) (scc : List Nat)
    (hs : scc.Pairwise (· < ·)) (hv : ∀ st ∈ scc, st < s.A.columnCount) :
    localRightHandSide ops s x b scc
      = if columnsInRange s.A x.length scc then
          .ok (localRhs ops s.A x b scc, localChoiceIndices s.A scc)
        else .error SolverError.outOfRange := by
  have hsub := subMatrixIndicesOf_sorted s.A.columnCount scc hs hv
  have h0 : vectorSet (List.replicate (scc.length + 1) 0) 0 0
      = .ok (([] ++ [0]) ++ List.replicate scc.length 0) := by
    rw [vectorSet_ok (by simp)]
    simp [List.replicate_succ]
  have hf := foldStates_eq ops s.A (fun c => decide (c ∈ scc)) x (fun r => b.getD r ops.zero) scc
    [] [] [] 0 scc.length (Nat.le_refl _)
  simp only [List.nil_append, List.append_nil, List.length_nil, Nat.zero_add, Nat.sub_self,
    List.replicate_zero] at hf h0
  unfold localRightHandSide
  simp only [hsub, SparseMatrix.getSubmatrix, selectVectorValuesGrouped]
  rw [h0, bind_ok]
  rw [show (List.map s.A.rowsOfGroup scc).flatten = rowsOfBlock s.A scc from rfl, hf]
  unfold columnsInRange
  split
  · rfl
  · rfl

theorem writtenBack_length {V : Type} (cur : List V) (scc : List Nat) (i : Nat) (x : List V) :
    (writtenBack cur scc i x).length = x.length := by
  induction scc generalizing i x with
  | nil => rfl
  | cons a rest ih =>
    rw [writtenBack, ih]
    cases cur[i]? <;> simp

theorem writeBack_eq {V : Type} (cur : List V) (scc : List Nat) (i : Nat) (x : List V)
    (hx : ∀ st ∈ scc, st < x.length) (hc : i + scc.length ≤ cur.length) :
    writeBack cur scc i x = .ok (writtenBack cur scc i x) := by
  induction scc generalizing i x with
  | nil => rfl
  | cons a rest ih =>
    have hi : i < cur.length := by simp at hc; omega
    have ha : a < x.length := hx a (List.mem_cons_self _ _)
    rw [writeBack, writtenBack, vectorAt_ok hi, bind_ok, vectorSet_ok ha, bind_ok,
      List.getElem?_eq_getElem hi]
    apply ih
    · intro st hst
      rw [List.length_set]
      exact hx st (List.mem_cons_of_mem _ hst)
    · simp at hc ⊢; omega

theorem valueIteration_length {V : Type} (ops : ValueOps V) (dir : OptimizationDirection)
    (sub : SparseMatrix V) (B : List V) (ci : List Nat) (precision : V) (relative : Bool)
    (m : Nat) (cur : List V) (it n : Nat) (hcur : cur.length = n) (hci : ci.length = n + 1) :
    (valueIteration ops dir sub B ci precision relative m cur it).2.1.length = n := by
  induction m generalizing cur it with
  | zero => exact hcur
  | succ k ih =>
    simp only [valueIteration]
    split
    · simp [ops.reduce_length, hci]
    · exact ih _ _ (by simp [ops.reduce_length, hci])

theorem validBlock_columnsInRange {V : Type} (A : SparseMatrix V) (n : Nat) (scc : List Nat)
    (h : ValidBlock A n scc) : columnsInRange A n scc = true := by
  unfold columnsInRange rowsOfBlock
  simp only [List.all_eq_true, List.mem_flatten, List.mem_map, Bool.or_eq_true,
    decide_eq_true_eq]
  rintro r ⟨l, ⟨st, hst, rfl⟩, hr⟩ e he
  exact Or.inr (h.2.2 st hst r hr e he)

theorem processComponent_eq {V : Type} (ops : ValueOps V)
    (s : TopologicalMinMaxLinearEquationSolver V) (dir : OptimizationDirection) (x b : List V)
    (scc : List Nat) (h : ValidBlock s.A x.length scc) :
    processComponent ops s dir x b false scc = .ok (componentValue ops s dir x b scc) := by
  have hv : ∀ st ∈ scc, st < s.A.columnCount := fun st hst => (h.2.1 st hst).1
  have hsub := subMatrixIndicesOf_sorted s.A.columnCount scc h.1 hv
  unfold processComponent
  simp only [hsub]
  rw [localRightHandSide_eq ops s x b scc h.1 hv, validBlock_columnsInRange s.A x.length scc h,
    if_pos rfl, bind_ok]
  simp only [Bool.false_eq_true, if_false]
  have hlen := valueIteration_length ops dir (s.A.getSubmatrix scc) (localRhs ops s.A x b scc)
    (localChoiceIndices s.A scc) s.precision s.relative s.maximalNumberOfIterations
    (selectVectorValues ops.zero scc x) 0 scc.length (by simp [selectVectorValues])
    (localChoiceIndices_length s.A scc)
  rw [writeBack_eq _ scc 0 x (fun st hst => (h.2.1 st hst).2) (by omega), bind_ok]
  rfl

theorem bind_ne_illegal {α β : Type} (m : Except SolverError α) (f : α → Except SolverError β)
    (hm : m ≠ .error SolverError.illegalArgument)
    (hf : ∀ a, f a ≠ .error SolverError.illegalArgument) :
    (m >>= f) ≠ .error SolverError.illegalArgument := by
  cases m with
  | error e =>
    intro h
    have h2 : (Except.error e : Except SolverError β) = .error SolverError.illegalArgument := h
    cases h2
    exact hm rfl
  | ok a => exact hf a

theorem vectorAt_ne_illegal {α : Type} (v : List α) (i : Nat) :
    vectorAt v i ≠ .error SolverError.illegalArgument := by
  unfold vectorAt
  cases v[i]? <;> intro h <;> cases h

theorem vectorSet_ne_illegal {α : Type} (v : List α) (i : Nat) (a : α) :
    vectorSet v i a ≠ .error SolverError.illegalArgument := by
  unfold vectorSet
  split <;> intro h <;> cases h

theorem foldRowEntries_ne_illegal {V : Type} (ops : ValueOps V) (member : Nat → Bool)
    (x : List V) (i : Nat) (row : List (Nat × V)) (B : List V) :
    foldRowEntries ops member x i row B ≠ .error SolverError.illegalArgument := by
  induction row generalizing B with
  | nil => intro h; cases h
  | cons e rest ih =>
    rw [foldRowEntries]
    split
    · apply bind_ne_illegal _ _ (vectorAt_ne_illegal _ _)
      intro cur
      apply bind_ne_illegal _ _ (vectorAt_ne_illegal _ _)
      intro xv
      apply bind_ne_illegal _ _ (vectorSet_ne_illegal _ _ _)
      intro B2
      exact ih B2
    · exact ih B

theorem foldRows_ne_illegal {V : Type} (ops : ValueOps V) (A : SparseMatrix V)
    (member : Nat → Bool) (x : List V) (rows : List Nat) (st : List V × Nat) :
    foldRows ops A member x rows st ≠ .error SolverError.illegalArgument := by
  induction rows generalizing st with
  | nil => intro h; cases h
  | cons r rest ih =>
    obtain ⟨B, i⟩ := st
    rw [foldRows]
    apply bind_ne_illegal _ _ (foldRowEntries_ne_illegal _ _ _ _ _ _)
    intro B2
    exact ih _

theorem foldStates_ne_illegal {V : Type} (ops : ValueOps V) (A : SparseMatrix V)
    (member : Nat → Bool) (x : List V) (states : List Nat) (st : List V × Nat × Nat × List Nat) :
    foldStates ops A member x states st ≠ .error SolverError.illegalArgument := by
  induction states generalizing st with
  | nil => intro h; cases h
  | cons a rest ih =>
    obtain ⟨B, i, o, ci⟩ := st
    rw [foldStates]
    apply bind_ne_illegal _ _ (vectorAt_ne_illegal _ _)
    intro p
    apply bind_ne_illegal _ _ (vectorSet_ne_illegal _ _ _)
    intro ci2
    apply bind_ne_illegal _ _ (foldRows_ne_illegal _ _ _ _ _ _)
    intro st2
    exact ih _

theorem writeBack_ne_illegal {V : Type} (cur : List V) (scc : List Nat) (i : Nat) (x : List V) :
    writeBack cur scc i x ≠ .error SolverError.illegalArgument := by
  induction scc generalizing i x with
  | nil => intro h; cases h
  | cons a rest ih =>
    rw [writeBack]
    apply bind_ne_illegal _ _ (vectorAt_ne_illegal _ _)
    intro v
    apply bind_ne_illegal _ _ (vectorSet_ne_illegal _ _ _)
    intro x2
    exact ih _ _

theorem processComponent_ne_illegal {V : Type} (ops : ValueOps V)
    (s : TopologicalMinMaxLinearEquationSolver V) (dir : OptimizationDirection) (x b : List V)
    (useGpu : Bool) (scc : List Nat) :
    processComponent ops s dir x b useGpu scc ≠ .error SolverError.illegalArgument := by
  unfold processComponent localRightHandSide
  apply bind_ne_illegal
  · apply bind_ne_illegal _ _ (vectorSet_ne_illegal _ _ _)
    intro ci
    apply bind_ne_illegal _ _ (foldStates_ne_illegal _ _ _ _ _ _)
    intro st h
    cases h
  · intro pre
    cases useGpu
    · simp only [Bool.false_eq_true, if_false]
      apply bind_ne_illegal _ _ (writeBack_ne_illegal _ _ _ _)
      intro x2 h
      cases h
    · intro h
      cases h

theorem componentLoop_ne_illegal {V : Type} (ops : ValueOps V)
    (s : TopologicalMinMaxLinearEquationSolver V) (dir : OptimizationDirection) (b : List V)
    (l : List (Bool × List Nat)) (st : SolveResult V) :
    componentLoop ops s dir b l st ≠ .error SolverError.illegalArgument := by
  induction l generalizing st with
  | nil => intro h; cases h
  | cons a rest ih =>
    obtain ⟨u, scc⟩ := a
    rw [componentLoop]
    split
    · apply bind_ne_illegal _ _ (processComponent_ne_illegal _ _ _ _ _ _ _)
      intro r
      exact ih _
    · intro h
      cases h

theorem grouping_eq_map (d : List (List Nat)) (t : List Nat) :
    getOptimalGroupingFromTopologicalSccDecomposition d t
      = (processingOrder d t).map (fun scc => (false, scc)) := by
  simp [getOptimalGroupingFromTopologicalSccDecomposition, processingOrder, List.map_map,
    Function.comp_def]

theorem solveEquations_nonempty {V : Type} (ops : ValueOps V)
    (s : TopologicalMinMaxLinearEquationSolver V)
    (d : List (List Nat)) (t : List Nat) (dir : OptimizationDirection) (x b : List V)
    (hd : d ≠ []) :
    solveEquations ops s d t dir x b
      = componentLoop ops s dir b ((processingOrder d t).map (fun scc => (false, scc)))
          ⟨true, x, 0⟩ := by
  have h : 0 < d.length := List.length_pos.mpr hd
  simp only [solveEquations, STORM_LOG_THROW, gt_iff_lt, h, decide_True, if_true, grouping_eq_map]
  rfl

theorem componentLoop_stopped {V : Type} (ops : ValueOps V)
    (s : TopologicalMinMaxLinearEquationSolver V) (dir : OptimizationDirection) (b : List V)
    (l : List (Bool × List Nat)) (x : List V) (g : Nat) :
    componentLoop ops s dir b l ⟨false, x, g⟩ = .ok ⟨false, x, g⟩ := by
  cases l with
  | nil => rfl
  | cons a rest => obtain ⟨u, scc⟩ := a; rfl

theorem xAfter_cons {V : Type} (ops : ValueOps V) (s : TopologicalMinMaxLinearEquationSolver V)
    (dir : OptimizationDirection) (b : List V) (scc : List Nat) (rest : List (List Nat))
    (x : List V) (k : Nat) :
    xAfter ops s dir b (scc :: rest) x (k + 1)
      = xAfter ops s dir b rest (componentValue ops s dir x b scc).2.1 k := by
  induction k with
  | zero => rfl
  | succ i ih =>
    rw [xAfter, ih]
    rfl

theorem sweepsAfter_cons {V : Type} (ops : ValueOps V)
    (s : TopologicalMinMaxLinearEquationSolver V) (dir : OptimizationDirection) (b : List V)
    (scc : List Nat) (rest : List (List Nat)) (x : List V) (k : Nat) :
    sweepsAfter ops s dir b (scc :: rest) x (k + 1)
      = (componentValue ops s dir x b scc).2.2
        + sweepsAfter ops s dir b rest (componentValue ops s dir x b scc).2.1 k := by
  induction k with
  | zero => simp [sweepsAfter, xAfter]
  | succ i ih =>
    rw [sweepsAfter, ih, xAfter_cons]
    simp only [sweepsAfter, List.getD_cons_succ]
    omega

theorem componentValue_length {V : Type} (ops : ValueOps V)
    (s : TopologicalMinMaxLinearEquationSolver V) (dir : OptimizationDirection) (x b : List V)
    (scc : List Nat) : (componentValue ops s dir x b scc).2.1.length = x.length := by
  simp only [componentValue]
  exact writtenBack_length _ _ _ _

theorem xAfter_length {V : Type} (ops : ValueOps V) (s : TopologicalMinMaxLinearEquationSolver V)
    (dir : OptimizationDirection) (b : List V) (blocks : List (List Nat)) (x : List V)
    (k : Nat) : (xAfter ops s dir b blocks x k).length = x.length := by
  induction k with
  | zero => rfl
  | succ i ih => rw [xAfter, componentValue_length, ih]

theorem componentLoop_result {V : Type} (ops : ValueOps V)
    (s : TopologicalMinMaxLinearEquationSolver V) (dir : OptimizationDirection) (b : List V)
    (blocks : List (List Nat)) (x : List V) (g : Nat)
    (hvalid : ∀ scc ∈ blocks, ValidBlock s.A x.length scc) :
    ∃ r, componentLoop ops s dir b (blocks.map (fun scc => (false, scc))) ⟨true, x, g⟩ = .ok r ∧
      (r.converged = true ↔ ∀ k, k < blocks.length →
        (componentValue ops s dir (xAfter ops s dir b blocks x k) b (blocks.getD k [])).1
          = true) ∧
      (∀ k, k < blocks.length →
        (∀ j, j < k →
          (componentValue ops s dir (xAfter ops s dir b blocks x j) b (blocks.getD j [])).1
            = true) →
        (componentValue ops s dir (xAfter ops s dir b blocks x k) b (blocks.getD k [])).1
          = false →
        r.x = xAfter ops s dir b blocks x (k + 1) ∧
        r.globalIterations = g + sweepsAfter ops s dir b blocks x (k + 1)) ∧
      (r.converged = true →
        r.x = xAfter ops s dir b blocks x blocks.length ∧
        r.globalIterations = g + sweepsAfter ops s dir b blocks x blocks.length) := by
  induction blocks generalizing x g with
  | nil => exact ⟨⟨true, x, g⟩, rfl, by simp, by simp, fun _ => ⟨rfl, rfl⟩⟩
  | cons scc rest ih =>
    have hscc := hvalid scc (List.mem_cons_self _ _)
    have hrest : ∀ u ∈ rest, ValidBlock s.A (componentValue ops s dir x b scc).2.1.length u := by
      intro u hu
      rw [componentValue_length]
      exact hvalid u (List.mem_cons_of_mem _ hu)
    simp only [List.map_cons, componentLoop, if_true]
    rw [processComponent_eq ops s dir x b scc hscc, bind_ok]
    have hx0 : xAfter ops s dir b (scc :: rest) x 0 = x := rfl
    by_cases hc : (componentValue ops s dir x b scc).1 = true
    · obtain ⟨r, hr, hiff, hstop, hall⟩ := ih (componentValue ops s dir x b scc).2.1
        (g + (componentValue ops s dir x b scc).2.2) hrest
      rw [hc]
      refine ⟨r, hr, ?_, ?_, ?_⟩
      · rw [hiff]
        constructor
        · intro h k hk
          cases k with
          | zero => exact hc
          | succ i =>
            rw [xAfter_cons]
            exact h i (by simpa using hk)
        · intro h k hk
          have := h (k + 1) (by simpa using hk)
          rwa [xAfter_cons] at this
      · intro k hk hbefore hfail
        cases k with
        | zero =>
          rw [hx0] at hfail
          simp only [List.getD_cons_zero] at hfail
          rw [hc] at hfail
          cases hfail
        | succ i =>
          rw [xAfter_cons, sweepsAfter_cons, ← Nat.add_assoc]
          apply hstop i (by simpa using hk)
          · intro j hj
            have := hbefore (j + 1) (Nat.succ_lt_succ hj)
            rwa [xAfter_cons] at this
          · rwa [xAfter_cons] at hfail
      · intro hcv
        rw [List.length_cons, xAfter_cons, sweepsAfter_cons, ← Nat.add_assoc]
        exact hall hcv
    · have hf : (componentValue ops s dir x b scc).1 = false := by
        cases h : (componentValue ops s dir x b scc).1
        · rfl
        · exact absurd h hc
      rw [hf, componentLoop_stopped]
      refine ⟨_, rfl, ?_, ?_, ?_⟩
      · constructor
        · intro h
          cases h
        · intro h
          have := h 0 (by simp)
          rw [hx0] at this
          simp only [List.getD_cons_zero] at this
          rw [hf] at this
          cases this
      · intro k hk hbefore hfail
        cases k with
        | zero => exact ⟨rfl, by simp [sweepsAfter, xAfter]⟩
        | succ i =>
          have := hbefore 0 (Nat.succ_pos _)
          rw [hx0] at this
          simp only [List.getD_cons_zero] at this
          rw [hf] at this
          cases this
      · intro h
        cases h

theorem valueIteration_converged_iff {V : Type} (ops : ValueOps V) (dir : OptimizationDirection)
    (sub : SparseMatrix V) (sccSubB : List V) (ci : List Nat) (precision : V) (relative : Bool)
    (m : Nat) (cur : List V) (it : Nat) :
    (valueIteration ops dir sub sccSubB ci precision relative m cur it).1 = true ↔
      ∃ j, j < m ∧ ops.equalModuloPrecision
        ((fun c => ops.reduceVectorMinOrMax dir
          (ops.addVectors (ops.multiplyWithVector sub c) sccSubB) ci)^[j] cur)
        ((fun c => ops.reduceVectorMinOrMax dir
          (ops.addVectors (ops.multiplyWithVector sub c) sccSubB) ci)^[j + 1] cur)
        precision relative = true := by
  induction m generalizing cur it with
  | zero => simp [valueIteration]
  | succ k ih =>
    simp only [valueIteration]
    split
    · rename_i h
      simp only [true_iff]
      exact ⟨0, Nat.succ_pos _, by simpa using h⟩
    · rename_i h
      rw [ih]
      constructor
      · rintro ⟨j, hj, he⟩
        exact ⟨j + 1, Nat.succ_lt_succ hj, by simpa [Function.iterate_succ_apply] using he⟩
      · rintro ⟨j, hj, he⟩
        cases j with
        | zero => exact absurd (by simpa using he) h
        | succ i =>
          exact ⟨i, Nat.lt_of_succ_lt_succ hj, by simpa [Function.iterate_succ_apply] using he⟩

theorem componentValue_converged_iff {V : Type} (ops : ValueOps V)
    (s : TopologicalMinMaxLinearEquationSolver V) (dir : OptimizationDirection) (x b : List V)
    (scc : List Nat) :
    (componentValue ops s dir x b scc).1 = true ↔ LocallyConverges ops s dir x b scc := by
  simp only [componentValue, LocallyConverges, localSweep]
  exact valueIteration_converged_iff ops dir _ _ _ _ _ _ _ _

theorem valueIteration_sweeps {V : Type} (ops : ValueOps V) (dir : OptimizationDirection)
    (sub : SparseMatrix V) (sccSubB : List V) (ci : List Nat) (precision : V) (relative : Bool)
    (m : Nat) (cur : List V) (it : Nat) :
    (valueIteration ops dir sub sccSubB ci precision relative m cur it).2.2 ≤ it + m := by
  induction m generalizing cur it with
  | zero => simp [valueIteration]
  | succ k ih =>
    simp only [valueIteration]
    split
    · simp
    · have := ih (ops.reduceVectorMinOrMax dir
        (ops.addVectors (ops.multiplyWithVector sub cur) sccSubB) ci) (it + 1)
      omega

theorem processComponent_sweeps {V : Type} (ops : ValueOps V)
    (s : TopologicalMinMaxLinearEquationSolver V) (dir : OptimizationDirection) (x b : List V)
    (useGpu : Bool) (scc : List Nat) (res : Bool × List V × Nat)
    (h : processComponent ops s dir x b useGpu scc = .ok res) :
    res.2.2 ≤ s.maximalNumberOfIterations := by
  unfold processComponent at h
  cases hp : localRightHandSide ops s x b scc with
  | error e =>
    rw [hp] at h
    cases h
  | ok pre =>
    rw [hp, bind_ok] at h
    cases useGpu with
    | true => cases h
    | false =>
      simp only [Bool.false_eq_true, if_false] at h
      cases hw : writeBack (valueIteration ops dir
          (s.A.getSubmatrix (subMatrixIndicesOf s.A.columnCount scc)) pre.1 pre.2 s.precision
          s.relative s.maximalNumberOfIterations
          (selectVectorValues ops.zero (subMatrixIndicesOf s.A.columnCount scc) x) 0).2.1 scc 0 x
        with
      | error e =>
        rw [hw] at h
        cases h
      | ok x2 =>
        rw [hw, bind_ok] at h
        cases h
        have := valueIteration_sweeps ops dir
          (s.A.getSubmatrix (subMatrixIndicesOf s.A.columnCount scc)) pre.1 pre.2 s.precision
          s.relative s.maximalNumberOfIterations
          (selectVectorValues ops.zero (subMatrixIndicesOf s.A.columnCount scc) x) 0
        simpa using this

theorem componentLoop_sweeps {V : Type} (ops : ValueOps V)
    (s : TopologicalMinMaxLinearEquationSolver V) (dir : OptimizationDirection) (b : List V)
    (l : List (Bool × List Nat)) (st r : SolveResult V)
    (h : componentLoop ops s dir b l st = .ok r) :
    r.globalIterations ≤ st.globalIterations + l.length * s.maximalNumberOfIterations := by
  induction l generalizing st with
  | nil =>
    cases h
    simp
  | cons a rest ih =>
    obtain ⟨u, scc⟩ := a
    rw [componentLoop] at h
    by_cases hc : st.converged = true
    · rw [if_pos hc] at h
      cases hp : processComponent ops s dir st.x b u scc with
      | error e =>
        rw [hp] at h
        cases h
      | ok res =>
        rw [hp, bind_ok] at h
        have h1 := ih _ h
        have h2 := processComponent_sweeps ops s dir st.x b u scc res hp
        simp only [List.length_cons, Nat.succ_mul] at h1 ⊢
        omega
    · rw [if_neg hc] at h
      cases h
      omega

theorem writtenBack_self {V : Type} (z : V) (x : List V) (scc pre : List Nat) :
    writtenBack (selectVectorValues z (pre ++ scc) x) scc pre.length x = x := by
  induction scc generalizing pre with
  | nil => rfl
  | cons a rest ih =>
    have e : (selectVectorValues z (pre ++ a :: rest) x)[pre.length]? = some (x.getD a z) := by
      have e2 : (List.map (fun p => x.getD p z) pre).length ≤ pre.length := by simp
      simp only [selectVectorValues, List.map_append, List.map_cons]
      rw [List.getElem?_append_right e2]
      simp
    rw [writtenBack, e]
    simp only [set_getD_same]
    have := ih (pre ++ [a])
    simpa using this

theorem componentValue_zero {V : Type} (ops : ValueOps V)
    (s : TopologicalMinMaxLinearEquationSolver V) (dir : OptimizationDirection) (x b : List V)
    (scc : List Nat) (hm : s.maximalNumberOfIterations = 0) :
    componentValue ops s dir x b scc = (false, x, 0) := by
  have := writtenBack_self ops.zero x scc []
  simp only [List.nil_append, List.length_nil] at this
  simp only [componentValue, hm, valueIteration, localStart, this]

/-- C23: for a non-empty decomposition and blocks the solver can process on
`x` (ascending states and columns within `x`), `solveEquations` returns
normally, whatever the arithmetic of the value type, and the returned flag
is true exactly when the local iteration of every component of the
processing order, started from the vector left by the components before it,
reaches two successive iterates equal modulo the precision within
`maximalNumberOfIterations` sweeps. -/
theorem C23_result_is_conjunction {V : Type} (ops : ValueOps V)
    (s : TopologicalMinMaxLinearEquationSolver V)
    (d : List (List Nat)) (t : List Nat) (dir : OptimizationDirection) (x b : List V)
    (hd : d ≠ []) (hvalid : ∀ scc ∈ processingOrder d t, ValidBlock s.A x.length scc) :
    ∃ r, solveEquations ops s d t dir x b = .ok r ∧
      (r.converged = true ↔ ∀ k, k < t.length →
        LocallyConverges ops s dir (xAfter ops s dir b (processingOrder d t) x k) b
          ((processingOrder d t).getD k [])) := by
  rw [solveEquations_nonempty ops s d t dir x b hd]
  obtain ⟨r, hr, hiff, _⟩ := componentLoop_result ops s dir b (processingOrder d t) x 0 hvalid
  refine ⟨r, hr, ?_⟩
  rw [hiff]
  simp only [componentValue_converged_iff, processingOrder, List.length_map]

theorem C23_result_is_conjunction_witness :
    ([[0], [1], [2]] : List (List Nat)) ≠ [] ∧
    (∀ scc ∈ processingOrder [[0], [1], [2]] [2, 1, 0],
      ValidBlock (loopSolver 2).A ([0, 0, 0] : List ℚ).length scc) ∧
    ∃ r, solveEquations exactOps (loopSolver 2) [[0], [1], [2]] [2, 1, 0] .Minimize [0, 0, 0]
        [0, 1, 1] = .ok r ∧
      (r.converged = true ↔ ∀ k, k < [2, 1, 0].length →
        LocallyConverges exactOps (loopSolver 2) .Minimize
          (xAfter exactOps (loopSolver 2) .Minimize [0, 1, 1]
            (processingOrder [[0], [1], [2]] [2, 1, 0]) [0, 0, 0] k) [0, 1, 1]
          ((processingOrder [[0], [1], [2]] [2, 1, 0]).getD k [])) :=
  ⟨by decide, by decide, C23_result_is_conjunction exactOps (loopSolver 2) [[0], [1], [2]]
    [2, 1, 0] .Minimize [0, 0, 0] [0, 1, 1] (by decide) (by decide)⟩

/-- C24: with `maximalNumberOfIterations = 0`, a non-empty decomposition, at
least one component to process and blocks the solver can process on `x`,
`solveEquations` makes no sweep, returns `false` and leaves every entry of
`x` at its input value (whether or not `x` is within the tolerance, and
whatever the arithmetic of the value type). -/
theorem C24_zero_iterations {V : Type} (ops : ValueOps V)
    (s : TopologicalMinMaxLinearEquationSolver V)
    (d : List (List Nat)) (t : List Nat) (dir : OptimizationDirection) (x b : List V)
    (hd : d ≠ []) (ht : t ≠ []) (hm : s.maximalNumberOfIterations = 0)
    (hvalid : ∀ scc ∈ processingOrder d t, ValidBlock s.A x.length scc) :
    solveEquations ops s d t dir x b = .ok ⟨false, x, 0⟩ := by
  rw [solveEquations_nonempty ops s d t dir x b hd]
  cases t with
  | nil => exact absurd rfl ht
  | cons k rest =>
    have hk : ValidBlock s.A x.length (d.getD k []) :=
      hvalid _ (by simp [processingOrder])
    simp only [processingOrder, List.map_cons, componentLoop, if_true]
    rw [processComponent_eq ops s dir x b _ hk, bind_ok, componentValue_zero ops s dir x b _ hm]
    exact componentLoop_stopped ops s dir b _ x _

theorem C24_zero_iterations_witness :
    ([[0], [1], [2]] : List (List Nat)) ≠ [] ∧ ([2, 1, 0] : List Nat) ≠ [] ∧
    (exampleSolver 0 0).maximalNumberOfIterations = 0 ∧
    (∀ scc ∈ processingOrder [[0], [1], [2]] [2, 1, 0],
      ValidBlock (exampleSolver 0 0).A ([0, 0, 0] : List ℚ).length scc) ∧
    solveEquations exactOps (exampleSolver 0 0) [[0], [1], [2]] [2, 1, 0] .Minimize [0, 0, 0]
      [0, 0, 1] = .ok ⟨false, [0, 0, 0], 0⟩ :=
  ⟨by decide, by decide, rfl, by decide,
    C24_zero_iterations exactOps (exampleSolver 0 0) [[0], [1], [2]] [2, 1, 0] .Minimize
      [0, 0, 0] [0, 0, 1] (by decide) (by decide) rfl (by decide)⟩

/-- C25: whatever the arithmetic of the value type, a component that is
processed makes at most `maximalNumberOfIterations` sweeps, and every call
of `solveEquations` that returns has made at most (number of components)
times `maximalNumberOfIterations` sweeps; for a non-empty decomposition and
blocks the solver can process on `x` the call does return. -/
theorem C25_sweeps_bounded {V : Type} (ops : ValueOps V)
    (s : TopologicalMinMaxLinearEquationSolver V)
    (d : List (List Nat)) (t : List Nat) (dir : OptimizationDirection) (x b : List V) :
    (∀ x1 useGpu scc res, processComponent ops s dir x1 b useGpu scc = .ok res →
      res.2.2 ≤ s.maximalNumberOfIterations) ∧
    (∀ r, solveEquations ops s d t dir x b = .ok r →
      r.globalIterations ≤ t.length * s.maximalNumberOfIterations) ∧
    (d ≠ [] → (∀ scc ∈ processingOrder d t, ValidBlock s.A x.length scc) →
      ∃ r, solveEquations ops s d t dir x b = .ok r) := by
  refine ⟨fun x1 u scc res h => processComponent_sweeps ops s dir x1 b u scc res h, ?_, ?_⟩
  · intro r h
    by_cases hd : d = []
    · subst hd
      cases h
    · rw [solveEquations_nonempty ops s d t dir x b hd] at h
      have := componentLoop_sweeps ops s dir b _ _ r h
      simpa [processingOrder] using this
  · intro hd hvalid
    rw [solveEquations_nonempty ops s d t dir x b hd]
    obtain ⟨r, hr, _⟩ := componentLoop_result ops s dir b (processingOrder d t) x 0 hvalid
    exact ⟨r, hr⟩

theorem C25_sweeps_bounded_witness :
    ([[0], [1], [2]] : List (List Nat)) ≠ [] ∧
    (∀ scc ∈ processingOrder [[0], [1], [2]] [2, 1, 0],
      ValidBlock (loopSolver 2).A ([0, 0, 0] : List ℚ).length scc) ∧
    ∃ r, solveEquations exactOps (loopSolver 2) [[0], [1], [2]] [2, 1, 0] .Minimize [0, 0, 0]
      [0, 1, 1] = .ok r :=
  ⟨by decide, by decide, (C25_sweeps_bounded exactOps (loopSolver 2) [[0], [1], [2]] [2, 1, 0]
    .Minimize [0, 0, 0] [0, 1, 1]).2.2 (by decide) (by decide)⟩

/-- C26: with an empty SCC decomposition `solveEquations` throws the
invalid-argument exception; nothing has been iterated or written at that
point. -/
theorem C26_empty_decomposition_rejected {V : Type} (ops : ValueOps V)
    (s : TopologicalMinMaxLinearEquationSolver V)
    (topologicalSort : List Nat) (dir : OptimizationDirection) (x b : List V) :
    solveEquations ops s [] topologicalSort dir x b = .error SolverError.illegalArgument := by
  rfl

/-- C27 (as written, refuted): a call whose vectors do not fit the matrix
(three row groups, `x` of length 4, `b` of length 5) is not rejected; it
returns normally. -/
theorem C27_size_mismatch_accepted :
    solveEquations exactOps (exampleSolver (1 / 1000000) 100) [[0], [1], [2]] [2, 1, 0]
      OptimizationDirection.Minimize [0, 0, 0, 7] [0, 0, 1, 5, 5]
      = .ok ⟨true, [1, 1, 1, 7], 6⟩ := by
  decide!

/-- C27 (amended): `solveEquations` has one invalid-argument failure, the
empty SCC decomposition; no other input, whatever the sizes of the matrix, of
`x` and of `b`, makes it fail with that error. -/
theorem C27_only_empty_decomposition_rejected {V : Type} (ops : ValueOps V)
    (s : TopologicalMinMaxLinearEquationSolver V)
    (d : List (List Nat)) (t : List Nat) (dir : OptimizationDirection) (x b : List V) :
    solveEquations ops s d t dir x b = .error SolverError.illegalArgument ↔ d = [] := by
  constructor
  · intro h
    by_contra hd
    rw [solveEquations_nonempty ops s d t dir x b hd] at h
    exact componentLoop_ne_illegal ops s dir b _ _ h
  · intro h
    subst h
    rfl

theorem processComponent_condition {V : Type} (ops : ValueOps V)
    (s : TopologicalMinMaxLinearEquationSolver V) (c : Option (TerminationCondition V))
    (dir : OptimizationDirection) (x b : List V) (useGpu : Bool) (scc : List Nat) :
    processComponent ops { s with terminationCondition := c } dir x b useGpu scc
      = processComponent ops s dir x b useGpu scc := rfl

theorem componentLoop_condition {V : Type} (ops : ValueOps V)
    (s : TopologicalMinMaxLinearEquationSolver V) (c : Option (TerminationCondition V))
    (dir : OptimizationDirection) (b : List V) (l : List (Bool × List Nat))
    (st : SolveResult V) :
    componentLoop ops { s with terminationCondition := c } dir b l st
      = componentLoop ops s dir b l st := by
  induction l generalizing st with
  | nil => rfl
  | cons a rest ih =>
    obtain ⟨u, scc⟩ := a
    simp only [componentLoop, processComponent_condition, ih]

/-- C28 (as written, refuted): on the three-state example a solve with an
installed termination condition makes the same six sweeps as the solve
without one, and for no value type and no input does the solve with a
condition make fewer sweeps than the solve without. -/
theorem C28_condition_saves_no_sweep :
    (solveEquations exactOps { exampleSolver (1 / 1000000) 100 with
        terminationCondition := some [CtorArg.filter [0, 1, 2], CtorArg.flag false,
          CtorArg.value 0, CtorArg.flag false] }
      [[0], [1], [2]] [2, 1, 0] OptimizationDirection.Maximize [0, 0, 0] [0, 0, 1]
      = .ok ⟨true, [1, 1, 1], 6⟩ ∧
    solveEquations exactOps (exampleSolver (1 / 1000000) 100)
      [[0], [1], [2]] [2, 1, 0] OptimizationDirection.Maximize [0, 0, 0] [0, 0, 1]
      = .ok ⟨true, [1, 1, 1], 6⟩) ∧
    ¬ ∃ (V : Type) (ops : ValueOps V) (s : TopologicalMinMaxLinearEquationSolver V)
        (c : TerminationCondition V)
        (d : List (List Nat)) (t : List Nat) (dir : OptimizationDirection) (x b : List V)
        (r1 r2 : SolveResult V),
      solveEquations ops { s with terminationCondition := some c } d t dir x b = .ok r1 ∧
      solveEquations ops { s with terminationCondition := none } d t dir x b = .ok r2 ∧
      r1.globalIterations < r2.globalIterations := by
  refine ⟨by decide!, ?_⟩
  rintro ⟨V, ops, s, c, d, t, dir, x, b, r1, r2, h1, h2, hlt⟩
  simp only [solveEquations, componentLoop_condition] at h1 h2
  rw [h1] at h2
  cases h2
  exact Nat.lt_irrefl _ hlt

/-- C28 (amended): `solveEquations` never consults the installed termination
condition: the returned flag, the vector and the number of sweeps are the same
for every condition and for none. -/
theorem C28_condition_ignored {V : Type} (ops : ValueOps V)
    (s : TopologicalMinMaxLinearEquationSolver V)
    (c : Option (TerminationCondition V)) (d : List (List Nat)) (t : List Nat)
    (dir : OptimizationDirection) (x b : List V) :
    solveEquations ops { s with terminationCondition := c } d t dir x b
      = solveEquations ops s d t dir x b := by
  simp only [solveEquations, componentLoop_condition]

theorem writtenBack_frame {V : Type} (cur : List V) (scc : List Nat) (i : Nat) (x : List V)
    (st : Nat) (h : st ∉ scc) : (writtenBack cur scc i x)[st]? = x[st]? := by
  induction scc generalizing i x with
  | nil => rfl
  | cons a rest ih =>
    rw [writtenBack, ih (i + 1) _ (fun hm => h (List.mem_cons_of_mem _ hm))]
    have hne : a ≠ st := fun e => h (e ▸ List.mem_cons_self _ _)
    cases cur[i]? with
    | none => rfl
    | some v => simp [List.getElem?_set, hne]

theorem componentValue_frame {V : Type} (ops : ValueOps V)
    (s : TopologicalMinMaxLinearEquationSolver V) (dir : OptimizationDirection) (x b : List V)
    (scc : List Nat) (st : Nat) (h : st ∉ scc) :
    (componentValue ops s dir x b scc).2.1[st]? = x[st]? := by
  simp only [componentValue]
  exact writtenBack_frame _ scc 0 x st h

theorem xAfter_frame {V : Type} (ops : ValueOps V) (s : TopologicalMinMaxLinearEquationSolver V)
    (dir : OptimizationDirection) (b : List V) (blocks : List (List Nat)) (x : List V)
    (st lo n : Nat) (h : ∀ i, lo ≤ i → i < lo + n → st ∉ blocks.getD i []) :
    (xAfter ops s dir b blocks x (lo + n))[st]? = (xAfter ops s dir b blocks x lo)[st]? := by
  induction n with
  | zero => rfl
  | succ m ih =>
    rw [← Nat.add_assoc, xAfter,
      componentValue_frame ops s dir _ b _ st (h (lo + m) (Nat.le_add_right _ _) (by omega))]
    exact ih (fun i h1 h2 => h i h1 (by omega))

/-- C39: for blocks the solver can process on `x`, whatever the arithmetic
of the value type: if the component at position `k` is the first whose local
iteration does not converge, `solveEquations` returns `false` with the vector
as it is after the write-back of component `k`; with pairwise disjoint
blocks, the entries of the components after position `k` have their input
values, and the entries of a component before position `k` have the values
written when that component was solved. -/
theorem C39_early_stop {V : Type} (ops : ValueOps V)
    (s : TopologicalMinMaxLinearEquationSolver V)
    (d : List (List Nat)) (t : List Nat) (dir : OptimizationDirection) (x b : List V)
    (k : Nat) (hd : d ≠ []) (hk : k < t.length)
    (hvalid : ∀ scc ∈ processingOrder d t, ValidBlock s.A x.length scc)
    (hdisj : ∀ i j, i < j → j < t.length →
      ∀ st, st ∈ (processingOrder d t).getD i [] → st ∉ (processingOrder d t).getD j [])
    (hbefore : ∀ j, j < k →
      LocallyConverges ops s dir (xAfter ops s dir b (processingOrder d t) x j) b
        ((processingOrder d t).getD j []))
    (hfail : ¬ LocallyConverges ops s dir (xAfter ops s dir b (processingOrder d t) x k) b
      ((processingOrder d t).getD k [])) :
    ∃ r, solveEquations ops s d t dir x b = .ok r ∧ r.converged = false ∧
      r.x = xAfter ops s dir b (processingOrder d t) x (k + 1) ∧
      (∀ j, k < j → j < t.length → ∀ st, st ∈ (processingOrder d t).getD j [] →
        r.x[st]? = x[st]?) ∧
      (∀ j, j < k → ∀ st, st ∈ (processingOrder d t).getD j [] →
        r.x[st]? = (xAfter ops s dir b (processingOrder d t) x (j + 1))[st]?) := by
  rw [solveEquations_nonempty ops s d t dir x b hd]
  obtain ⟨r, hr, hiff, hstop, _⟩ := componentLoop_result ops s dir b (processingOrder d t) x 0
    hvalid
  have hlen : (processingOrder d t).length = t.length := by simp [processingOrder]
  have hx : r.x = xAfter ops s dir b (processingOrder d t) x (k + 1) := by
    refine (hstop k (by omega) ?_ ?_).1
    · intro j hj
      exact (componentValue_converged_iff ops s dir _ b _).2 (hbefore j hj)
    · cases h : (componentValue ops s dir (xAfter ops s dir b (processingOrder d t) x k) b
          ((processingOrder d t).getD k [])).1
      · rfl
      · exact absurd ((componentValue_converged_iff ops s dir _ b _).1 h) hfail
  refine ⟨r, hr, ?_, hx, ?_, ?_⟩
  · cases hcv : r.converged
    · rfl
    · exact absurd ((componentValue_converged_iff ops s dir _ b _).1
        (hiff.1 hcv k (by omega))) hfail
  · intro j hkj hj st hst
    rw [hx]
    have := xAfter_frame ops s dir b (processingOrder d t) x st 0 (k + 1)
      (fun i _ hi hmem => hdisj i j (by omega) hj st hmem hst)
    simpa using this
  · intro j hjk st hst
    rw [hx]
    have := xAfter_frame ops s dir b (processingOrder d t) x st (j + 1) (k - j)
      (fun i h1 hi => hdisj j i (by omega) (by omega) st hst)
    rwa [show j + 1 + (k - j) = k + 1 by omega] at this

theorem C39_early_stop_witness :
    ∃ r, solveEquations exactOps (loopSolver 2) [[0], [1], [2]] [2, 1, 0] .Minimize [0, 0, 0]
        [0, 1, 1] = .ok r ∧ r.converged = false ∧
      r.x = xAfter exactOps (loopSolver 2) .Minimize [0, 1, 1]
        (processingOrder [[0], [1], [2]] [2, 1, 0]) [0, 0, 0] (1 + 1) ∧
      (∀ j, 1 < j → j < [2, 1, 0].length →
        ∀ st, st ∈ (processingOrder [[0], [1], [2]] [2, 1, 0]).getD j [] →
        r.x[st]? = ([0, 0, 0] : List ℚ)[st]?) ∧
      (∀ j, j < 1 → ∀ st, st ∈ (processingOrder [[0], [1], [2]] [2, 1, 0]).getD j [] →
        r.x[st]? = (xAfter exactOps (loopSolver 2) .Minimize [0, 1, 1]
          (processingOrder [[0], [1], [2]] [2, 1, 0]) [0, 0, 0] (j + 1))[st]?) :=
  C39_early_stop exactOps (loopSolver 2) [[0], [1], [2]] [2, 1, 0] .Minimize [0, 0, 0]
    [0, 1, 1] 1 (by decide) (by decide) (by decide)
    (by
      intro i j hij hj st hi hm
      have h3 : j < 3 := hj
      interval_cases j <;> interval_cases i <;>
        simp [processingOrder] at hi hm <;> omega)
    (by
      intro j hj
      have hj0 : j = 0 := by omega
      subst hj0
      exact (componentValue_converged_iff exactOps (loopSolver 2) .Minimize _ [0, 1, 1] _).1
        (by decide!))
    (by
      intro h
      have := (componentValue_converged_iff exactOps (loopSolver 2) .Minimize _ [0, 1, 1]
        _).2 h
      revert this
      decide!)

theorem drop_take_eq_map_range' (src : List ℚ) (f : Nat → ℚ) (lo n : Nat)
    (h : ∀ i, i < n → src[lo + i]? = some (f (lo + i))) :
    (src.drop lo).take n = (List.range' lo n).map f := by
  apply List.ext_getElem?
  intro i
  by_cases hi : i < n
  · rw [List.getElem?_take_of_lt hi, List.getElem?_drop, h i hi]
    simp [List.getElem?_range' , hi]
  · have hi2 : n ≤ i := Nat.le_of_not_lt hi
    rw [List.getElem?_eq_none (by simp; omega), List.getElem?_eq_none (by simp; omega)]

theorem repeatedMultiply_step (s : TopologicalMinMaxLinearEquationSolver ℚ)
    (dir : OptimizationDirection) (b : Option (List ℚ)) (x : List ℚ)
    (hrows : ∀ k ∈ s.A.rowGroupIndices, k ≤ s.A.rows.length) :
    (∀ bv, b = some bv → s.A.rows.length ≤ bv.length) →
    reduceVectorMinOrMax dir
      (match b with
        | some bv => addVectors (s.A.multiplyWithVector x) bv
        | none => s.A.multiplyWithVector x) s.A.rowGroupIndices
      = bellmanStep s.A dir b x := by
  intro hb
  unfold reduceVectorMinOrMax bellmanStep
  apply List.map_congr_left
  intro g hg
  congr 1
  simp only [SparseMatrix.rowsOfGroup]
  apply drop_take_eq_map_range'
  intro i hi
  have hg1 : g + 1 < s.A.rowGroupIndices.length := by
    have := List.mem_range.mp hg; omega
  have hmem : s.A.rowGroupIndices.getD (g + 1) 0 ∈ s.A.rowGroupIndices := by
    rw [List.getD_eq_getElem _ _ hg1]; exact List.getElem_mem _
  have hle := hrows _ hmem
  have hlt : s.A.rowGroupIndices.getD g 0 + i < s.A.rows.length := by omega
  generalize s.A.rowGroupIndices.getD g 0 + i = j at hlt
  cases b with
  | none =>
    simp [SparseMatrix.multiplyWithVector, SparseMatrix.getRow, List.getD_eq_getElem?_getD,
      List.getElem?_eq_getElem hlt]
  | some bv =>
    have hbl := hb bv rfl
    have hlt2 : j < bv.length := by omega
    simp [SparseMatrix.multiplyWithVector, SparseMatrix.getRow, addVectors,
      List.getD_eq_getElem?_getD, List.getElem?_zipWith, List.getElem?_eq_getElem hlt,
      List.getElem?_eq_getElem hlt2]

theorem repeatedMultiplyLoop_iterate (s : TopologicalMinMaxLinearEquationSolver ℚ)
    (dir : OptimizationDirection) (b : Option (List ℚ))
    (hrows : ∀ k ∈ s.A.rowGroupIndices, k ≤ s.A.rows.length)
    (hb : ∀ bv, b = some bv → s.A.rows.length ≤ bv.length) (n : Nat) (x : List ℚ) :
    repeatedMultiplyLoop exactOps s dir b n x = (bellmanStep s.A dir b)^[n] x := by
  induction n generalizing x with
  | zero => rfl
  | succ k ih =>
    rw [Function.iterate_succ_apply, ← ih, ← repeatedMultiply_step s dir b x hrows hb]
    cases b <;> rfl

/-- C22: `repeatedMultiply` with `n` steps applies the one-step operator `n`
times: no step is skipped or added, zero steps leave `x` as it is, and `n + m`
steps are `m` steps after `n` steps. -/
theorem C22_repeated_multiply (s : TopologicalMinMaxLinearEquationSolver ℚ)
    (dir : OptimizationDirection) (b : Option (List ℚ)) (x : List ℚ)
    (hrows : ∀ k ∈ s.A.rowGroupIndices, k ≤ s.A.rows.length)
    (hb : ∀ bv, b = some bv → s.A.rows.length ≤ bv.length) :
    (∀ n, repeatedMultiply exactOps s dir x b n = (bellmanStep s.A dir b)^[n] x) ∧
    repeatedMultiply exactOps s dir x b 0 = x ∧
    (∀ n m, repeatedMultiply exactOps s dir x b (n + m)
      = repeatedMultiply exactOps s dir (repeatedMultiply exactOps s dir x b n) b m) := by
  refine ⟨fun n => repeatedMultiplyLoop_iterate s dir b hrows hb n x, rfl, fun n m => ?_⟩
  simp only [repeatedMultiply]
  rw [repeatedMultiplyLoop_iterate s dir b hrows hb, repeatedMultiplyLoop_iterate s dir b hrows hb,
    repeatedMultiplyLoop_iterate s dir b hrows hb, Nat.add_comm, Function.iterate_add_apply]

theorem C22_repeated_multiply_witness :
    (∀ k ∈ (exampleSolver 0 0).A.rowGroupIndices, k ≤ (exampleSolver 0 0).A.rows.length) ∧
    (∀ bv, some [0, 0, (1 : ℚ)] = some bv → (exampleSolver 0 0).A.rows.length ≤ bv.length) ∧
    repeatedMultiply exactOps (exampleSolver 0 0) OptimizationDirection.Maximize [0, 0, 0]
      (some [0, 0, 1]) 0 = [0, 0, 0] :=
  ⟨by decide, by intro bv h; cases h; decide,
    (C22_repeated_multiply (exampleSolver 0 0) .Maximize (some [0, 0, 1]) [0, 0, 0] (by decide)
      (by intro bv h; cases h; decide)).2.1⟩

/-- C30: `configureMinMaxLinearEquationSolver` returns the solver the factory
creates for the matrix, with the direction set to the direction of the goal;
given that the factory installs no termination condition itself, the solver
has one exactly for a bounded goal, and that condition is constructed from
the relevant values, the strictness flag, the threshold and the minimize flag
of the goal. -/
theorem C30_configure_min_max (goal : SolveGoal)
    (factory : SparseMatrix ℚ → TopologicalMinMaxLinearEquationSolver ℚ) (matrix : SparseMatrix ℚ)
    (hfresh : (factory matrix).terminationCondition = none) :
    (configureMinMaxLinearEquationSolver goal factory matrix).A = (factory matrix).A ∧
    (configureMinMaxLinearEquationSolver goal factory matrix).precision
      = (factory matrix).precision ∧
    (configureMinMaxLinearEquationSolver goal factory matrix).maximalNumberOfIterations
      = (factory matrix).maximalNumberOfIterations ∧
    (configureMinMaxLinearEquationSolver goal factory matrix).relative
      = (factory matrix).relative ∧
    (configureMinMaxLinearEquationSolver goal factory matrix).direction = some goal.direction ∧
    ((configureMinMaxLinearEquationSolver goal factory matrix).terminationCondition.isSome
      = goal.isBounded) ∧
    (∀ g, goal = SolveGoal.bounded g →
      (configureMinMaxLinearEquationSolver goal factory matrix).terminationCondition
        = some [CtorArg.filter g.relevantValues, CtorArg.flag g.boundIsStrict,
            CtorArg.value g.thresholdValue, CtorArg.flag g.minimize]) := by
  cases goal with
  | unbounded dd =>
    refine ⟨rfl, rfl, rfl, rfl, rfl, ?_, ?_⟩
    · simp [configureMinMaxLinearEquationSolver,
        TopologicalMinMaxLinearEquationSolver.setOptimizationDirection, hfresh,
        SolveGoal.isBounded]
    · intro g h
      cases h
  | bounded g0 =>
    refine ⟨rfl, rfl, rfl, rfl, rfl, rfl, ?_⟩
    intro g h
    cases h
    rfl

theorem C30_configure_min_max_witness :
    (exampleFactory exampleMatrix).terminationCondition = none ∧
    (configureMinMaxLinearEquationSolver (SolveGoal.bounded exampleGoal) exampleFactory
      exampleMatrix).direction = some OptimizationDirection.Maximize :=
  ⟨rfl, (C30_configure_min_max (SolveGoal.bounded exampleGoal) exampleFactory exampleMatrix
    rfl).2.2.2.2.1⟩

/-- C40: for one bounded goal (strict bound 1/2) the two configure functions
construct different termination conditions: the min/max variant passes the
strictness flag second and the threshold third, the linear variant passes the
threshold second and the strictness flag third. -/
theorem C40_arguments_swapped :
    (configureMinMaxLinearEquationSolver (SolveGoal.bounded exampleGoal) exampleFactory
      exampleMatrix).terminationCondition
      = some [CtorArg.filter [0, 1, 2], CtorArg.flag true, CtorArg.value (1 / 2),
          CtorArg.flag false] ∧
    (configureLinearEquationSolver (SolveGoal.bounded exampleGoal) exampleLinearFactory
      exampleMatrix).terminationCondition
      = some [CtorArg.filter [0, 1, 2], CtorArg.value (1 / 2), CtorArg.flag true,
          CtorArg.flag false] ∧
    (configureMinMaxLinearEquationSolver (SolveGoal.bounded exampleGoal) exampleFactory
      exampleMatrix).terminationCondition
      ≠ (configureLinearEquationSolver (SolveGoal.bounded exampleGoal) exampleLinearFactory
        exampleMatrix).terminationCondition := by
  decide!

/-- C33: accelerated grouping of three singleton components in the order
0, 1, 2, where two components fit into the memory and the third does not: the
flush of the open group merges up to the end of the order, so the first block
is all three states and state 2 is returned a second time in the last
block. -/
theorem C33_flush_merges_to_the_end :
    getOptimalGroupingAccelerated exampleMatrix (fun _ states _ => states) 2
      [[0], [1], [2]] [0, 1, 2] = [(true, [0, 1, 2]), (true, [2])] := by
  decide!

/-- C21: on the three-state example (row 0 = {(1, 1)}, row 1 = {(2, 1)}, row
2 empty, b = [0, 0, 1], x = [0, 0, 0], blocks [2], [1], [0]) with the absolute
test, a precision that is not negative and at least two sweeps allowed,
`solveEquations` over exact numbers returns `true` with x = [1, 1, 1], for
both directions. -/
theorem C21_three_state_example (precision : ℚ) (m : Nat) (dir : OptimizationDirection)
    (hp : 0 ≤ precision) (hm : 2 ≤ m) :
    ∃ n, solveEquations exactOps (exampleSolver precision m) [[0], [1], [2]] [2, 1, 0] dir
      [0, 0, 0] [0, 0, 1] = .ok { converged := true, x := [1, 1, 1], globalIterations := n } := by
  obtain ⟨k, rfl⟩ : ∃ k, m = k + 2 := ⟨m - 2, by omega⟩
  by_cases h1 : 1 ≤ precision
  · refine ⟨3, ?_⟩
    cases dir <;>
    simp [solveEquations, STORM_LOG_THROW, getOptimalGroupingFromTopologicalSccDecomposition,
      componentLoop, processComponent, localRightHandSide, subMatrixIndicesOf, exampleSolver,
      exampleMatrix, SparseMatrix.getSubmatrix, SparseMatrix.rowsOfGroup, SparseMatrix.getRow,
      selectVectorValues, selectVectorValuesGrouped, foldStates, foldRows, foldRowEntries,
      valueIteration, writeBack, vectorAt, vectorSet, exactOps, addVectors,
      SparseMatrix.multiplyWithVector, reduceVectorMinOrMax, reduceGroup, equalModuloPrecision,
      List.range_succ, h1, hp, List.range', bind, Except.bind, pure, Except.pure,
      List.replicate]
  · refine ⟨6, ?_⟩
    cases dir <;>
    simp [solveEquations, STORM_LOG_THROW, getOptimalGroupingFromTopologicalSccDecomposition,
      componentLoop, processComponent, localRightHandSide, subMatrixIndicesOf, exampleSolver,
      exampleMatrix, SparseMatrix.getSubmatrix, SparseMatrix.rowsOfGroup, SparseMatrix.getRow,
      selectVectorValues, selectVectorValuesGrouped, foldStates, foldRows, foldRowEntries,
      valueIteration, writeBack, vectorAt, vectorSet, exactOps, addVectors,
      SparseMatrix.multiplyWithVector, reduceVectorMinOrMax, reduceGroup, equalModuloPrecision,
      List.range_succ, h1, hp, List.range', bind, Except.bind, pure, Except.pure,
      List.replicate]

theorem C21_three_state_example_witness :
    (0 : ℚ) ≤ 1 / 1000000 ∧ 2 ≤ 20000 ∧
    ∃ n, solveEquations exactOps (exampleSolver (1 / 1000000) 20000) [[0], [1], [2]] [2, 1, 0]
      OptimizationDirection.Minimize [0, 0, 0] [0, 0, 1]
        = .ok { converged := true, x := [1, 1, 1], globalIterations := n } :=
  ⟨by norm_num, by decide, C21_three_state_example (1 / 1000000) 20000 .Minimize (by norm_num)
    (by decide)⟩

/-! ## Folding and the fixed point of a converged solve -/

theorem foldedEntries_exact (member : Nat → Bool) (x : List ℚ) (row : List (Nat × ℚ))
    (acc : ℚ) :
    foldedEntries exactOps member x row acc
      = acc + ((row.filter (fun e => !member e.1)).map (fun e => e.2 * x.getD e.1 0)).sum := by
  induction row generalizing acc with
  | nil => simp [foldedEntries]
  | cons e rest ih =>
    rw [foldedEntries, ih]
    cases h : member e.1 <;> simp [h, List.filter_cons, add_assoc, exactOps]

theorem localRhs_exact (A : SparseMatrix ℚ) (x b : List ℚ) (scc : List Nat) :
    localRhs exactOps A x b scc = (rowsOfBlock A scc).map (foldedRightHandSide A x b scc) := by
  unfold localRhs
  apply List.map_congr_left
  intro r _
  rw [foldedEntries_exact]
  rfl

/-- C31: for a block of ascending states below the column count, lines
144-181 return the local right-hand side exactly when every column they read
lies below the length of `x`, and throw `std::out_of_range` otherwise.  The
local right-hand side has one entry per row of the states of the block, in
order; the entry of row `r` starts from `b[r]` and accumulates, in the order
of the row, `p * x[c]` for the entries `(c, p)` with `c` outside the block
(over exact numbers: `b[r]` plus the sum of these products); a row all of
whose columns lie in the block keeps `b[r]`; the entries with `c` in the
block are the entries of the corresponding row of the sub-matrix. -/
theorem C31_folding {V : Type} (ops : ValueOps V) (s : TopologicalMinMaxLinearEquationSolver V)
    (x b : List V) (scc : List Nat) (hs : scc.Pairwise (· < ·))
    (hv : ∀ st ∈ scc, st < s.A.columnCount) :
    (localRightHandSide ops s x b scc
      = if columnsInRange s.A x.length scc then
          .ok ((rowsOfBlock s.A scc).map (fun r =>
              foldedEntries ops (fun c => decide (c ∈ scc)) x (s.A.getRow r)
                (b.getD r ops.zero)),
            localChoiceIndices s.A scc)
        else .error SolverError.outOfRange) ∧
    (∀ (sq : TopologicalMinMaxLinearEquationSolver ℚ) (xq bq : List ℚ),
      (∀ st ∈ scc, st < sq.A.columnCount) → columnsInRange sq.A xq.length scc = true →
      localRightHandSide exactOps sq xq bq scc
        = .ok ((rowsOfBlock sq.A scc).map (foldedRightHandSide sq.A xq bq scc),
            localChoiceIndices sq.A scc)) ∧
    (∀ r, (∀ e ∈ s.A.getRow r, e.1 ∈ scc) →
      foldedEntries ops (fun c => decide (c ∈ scc)) x (s.A.getRow r) (b.getD r ops.zero)
        = b.getD r ops.zero) ∧
    (s.A.getSubmatrix (subMatrixIndicesOf s.A.columnCount scc)).rows
      = (rowsOfBlock s.A scc).map (fun r =>
          ((s.A.getRow r).filter (fun e => decide (e.1 ∈ scc))).map
            (fun e => (scc.indexOf e.1, e.2))) := by
  have hsub := subMatrixIndicesOf_sorted s.A.columnCount scc hs hv
  refine ⟨?_, ?_, ?_, ?_⟩
  · rw [localRightHandSide_eq ops s x b scc hs hv]
    rfl
  · intro sq xq bq hvq hcols
    rw [localRightHandSide_eq exactOps sq xq bq scc hs hvq, if_pos hcols,
      localRhs_exact sq.A xq bq scc]
  · intro r hr
    apply foldedEntries_all
    intro e he
    simpa using hr e he
  · simp only [SparseMatrix.getSubmatrix, hsub]
    rfl

theorem C31_folding_witness :
    ([1] : List Nat).Pairwise (· < ·) ∧ (∀ st ∈ [1], st < (exampleSolver 0 1).A.columnCount) ∧
    localRightHandSide exactOps (exampleSolver 0 1) [0, 0, 1] [0, 0, 1] [1]
      = .ok ((rowsOfBlock (exampleSolver 0 1).A [1]).map
            (foldedRightHandSide (exampleSolver 0 1).A [0, 0, 1] [0, 0, 1] [1]),
          localChoiceIndices (exampleSolver 0 1).A [1]) ∧
    localRightHandSide exactOps (exampleSolver 0 1) [0, 0] [0, 0, 1] [1]
      = .error SolverError.outOfRange :=
  ⟨by simp, by decide,
    (C31_folding exactOps (exampleSolver 0 1) [0, 0, 1] [0, 0, 1] [1] (by simp)
      (by decide)).2.1 (exampleSolver 0 1) [0, 0, 1] [0, 0, 1] (by decide) (by decide),
    (C31_folding exactOps (exampleSolver 0 1) [0, 0] [0, 0, 1] [1] (by simp)
      (by decide)).1.trans (by decide!)⟩

theorem reduce_segments (dir : OptimizationDirection) (segs : List (List ℚ)) (pre : List ℚ) :
    reduceVectorMinOrMax dir (pre ++ segs.flatten)
        (pre.length :: prefixFrom pre.length (segs.map List.length))
      = segs.map (reduceGroup dir) := by
  induction segs generalizing pre with
  | nil => simp [reduceVectorMinOrMax, prefixFrom]
  | cons seg rest ih =>
    have h := ih (pre ++ seg)
    simp only [reduceVectorMinOrMax, List.length_cons, prefixFrom_length, List.length_map,
      Nat.add_sub_cancel, List.map_cons, prefixFrom, List.length_append] at h ⊢
    rw [List.range_succ_eq_map, List.map_cons, List.map_map]
    congr 1
    · simp [List.flatten]
    · rw [← h]
      apply List.map_congr_left
      intro g _
      simp [List.flatten, List.append_assoc]

theorem zipWith_map_same (l : List Nat) (f g : Nat → ℚ) :
    List.zipWith (fun a b => a + b) (l.map f) (l.map g) = l.map (fun r => f r + g r) := by
  induction l with
  | nil => rfl
  | cons a rest ih => simp [ih]

theorem localSweep_eq (s : TopologicalMinMaxLinearEquationSolver ℚ)
    (dir : OptimizationDirection) (x b : List ℚ) (scc : List Nat) (cur : List ℚ) :
    localSweep exactOps s dir x b scc cur
      = scc.map (fun st => reduceGroup dir ((s.A.rowsOfGroup st).map
          (localRow s.A x b scc cur))) := by
  have hM : (s.A.getSubmatrix scc).multiplyWithVector cur
      = (rowsOfBlock s.A scc).map (fun r =>
          (((s.A.getRow r).filter (fun e => decide (e.1 ∈ scc))).map
            (fun e => e.2 * cur.getD (scc.indexOf e.1) 0)).sum) := by
    simp [SparseMatrix.multiplyWithVector, SparseMatrix.getSubmatrix, rowsOfBlock,
      List.map_map, Function.comp_def]
  unfold localSweep
  rw [localRhs_exact]
  show reduceVectorMinOrMax dir
    (addVectors ((s.A.getSubmatrix scc).multiplyWithVector cur)
      ((rowsOfBlock s.A scc).map (foldedRightHandSide s.A x b scc)))
    (localChoiceIndices s.A scc) = _
  rw [hM, addVectors, zipWith_map_same]
  have hseg : (rowsOfBlock s.A scc).map (fun r =>
        (((s.A.getRow r).filter (fun e => decide (e.1 ∈ scc))).map
            (fun e => e.2 * cur.getD (scc.indexOf e.1) 0)).sum
          + foldedRightHandSide s.A x b scc r)
      = ([] : List ℚ) ++ (scc.map (fun st => (s.A.rowsOfGroup st).map
          (localRow s.A x b scc cur))).flatten := by
    simp only [rowsOfBlock, List.map_flatten, List.map_map, Function.comp_def,
      List.nil_append]
    rfl
  have hlen : scc.map (fun st => (s.A.rowsOfGroup st).length)
      = (scc.map (fun st => (s.A.rowsOfGroup st).map (localRow s.A x b scc cur))).map
          List.length := by
    simp [List.map_map, Function.comp_def]
  unfold localChoiceIndices
  rw [hseg, hlen]
  have := reduce_segments dir (scc.map (fun st => (s.A.rowsOfGroup st).map
    (localRow s.A x b scc cur))) []
  simp only [List.length_nil] at this
  rw [this, List.map_map]
  rfl

theorem equalModuloPrecision_zero (l r : List ℚ) (hlen : l.length = r.length)
    (h : equalModuloPrecision l r 0 false = true) : l = r := by
  induction l generalizing r with
  | nil =>
    cases r with
    | nil => rfl
    | cons c rest => simp at hlen
  | cons a rest ih =>
    cases r with
    | nil => simp at hlen
    | cons c rest2 =>
      simp only [equalModuloPrecision, List.zipWith_cons_cons, List.all_cons, Bool.and_eq_true,
        Bool.false_eq_true, if_false, id, decide_eq_true_eq] at h
      have hac : a = c := by
        have h0 : |a - c| = 0 := le_antisymm h.1 (abs_nonneg _)
        exact sub_eq_zero.mp (abs_eq_zero.mp h0)
      rw [hac, ih rest2 (by simpa using hlen) (by
        simpa [equalModuloPrecision] using h.2)]

theorem valueIteration_fixed {V : Type} (ops : ValueOps V) (dir : OptimizationDirection)
    (sub : SparseMatrix V) (sccSubB : List V) (ci : List Nat) (precision : V) (relative : Bool)
    (P : List V → Prop)
    (hP : ∀ c, P (ops.reduceVectorMinOrMax dir
      (ops.addVectors (ops.multiplyWithVector sub c) sccSubB) ci))
    (m : Nat) (cur : List V) (it : Nat) (hcur : P cur)
    (h : (valueIteration ops dir sub sccSubB ci precision relative m cur it).1 = true) :
    ∃ c, P c ∧
      (valueIteration ops dir sub sccSubB ci precision relative m cur it).2.1
        = ops.reduceVectorMinOrMax dir
            (ops.addVectors (ops.multiplyWithVector sub c) sccSubB) ci ∧
      ops.equalModuloPrecision c
        (ops.reduceVectorMinOrMax dir (ops.addVectors (ops.multiplyWithVector sub c) sccSubB) ci)
        precision relative = true := by
  induction m generalizing cur it with
  | zero => simp [valueIteration] at h
  | succ k ih =>
    simp only [valueIteration] at h ⊢
    split at h
    · rename_i hc
      rw [if_pos hc]
      exact ⟨cur, hcur, rfl, hc⟩
    · rename_i hc
      rw [if_neg hc]
      exact ih _ _ (hP cur) h

theorem localSweep_length (s : TopologicalMinMaxLinearEquationSolver ℚ)
    (dir : OptimizationDirection) (x b : List ℚ) (scc : List Nat) (cur : List ℚ) :
    (localSweep exactOps s dir x b scc cur).length = scc.length := by
  rw [localSweep_eq s dir x b scc cur, List.length_map]

theorem componentValue_fixed (s : TopologicalMinMaxLinearEquationSolver ℚ)
    (dir : OptimizationDirection) (x b : List ℚ) (scc : List Nat)
    (hprec : s.precision = 0) (hrel : s.relative = false)
    (h : (componentValue exactOps s dir x b scc).1 = true) :
    ∃ c, c.length = scc.length ∧ localSweep exactOps s dir x b scc c = c ∧
      (componentValue exactOps s dir x b scc).2.1 = writtenBack c scc 0 x := by
  have hfix := valueIteration_fixed exactOps dir (s.A.getSubmatrix scc)
    (localRhs exactOps s.A x b scc) (localChoiceIndices s.A scc) s.precision s.relative
    (fun c => c.length = scc.length)
    (fun c => localSweep_length s dir x b scc c)
    s.maximalNumberOfIterations (localStart exactOps x scc) 0
    (by simp [localStart, selectVectorValues])
    h
  obtain ⟨c, hlen, hres, heq⟩ := hfix
  have hsw : exactOps.reduceVectorMinOrMax dir
      (exactOps.addVectors (exactOps.multiplyWithVector (s.A.getSubmatrix scc) c)
        (localRhs exactOps s.A x b scc)) (localChoiceIndices s.A scc)
      = localSweep exactOps s dir x b scc c := rfl
  rw [hsw] at hres heq
  rw [hprec, hrel] at heq
  have hc : c = localSweep exactOps s dir x b scc c :=
    equalModuloPrecision_zero _ _ (by rw [hlen, localSweep_length s dir x b scc c]) heq
  refine ⟨c, hlen, hc.symm, ?_⟩
  show writtenBack _ scc 0 x = _
  rw [hres, ← hc]

theorem writtenBack_get (cur : List ℚ) (scc : List Nat) (i : Nat) (x : List ℚ)
    (hnd : scc.Nodup) (hx : ∀ st ∈ scc, st < x.length) (hc : i + scc.length ≤ cur.length)
    (st : Nat) (hst : st ∈ scc) :
    (writtenBack cur scc i x).getD st 0 = cur.getD (i + scc.indexOf st) 0 := by
  induction scc generalizing i x with
  | nil => cases hst
  | cons a rest ih =>
    rw [writtenBack]
    have hnd2 := List.nodup_cons.mp hnd
    have hi : i < cur.length := by simp only [List.length_cons] at hc; omega
    rw [List.getElem?_eq_getElem hi]
    by_cases ha : st = a
    · subst ha
      rw [List.getD_eq_getElem?_getD, writtenBack_frame _ rest _ _ st hnd2.1]
      have hlt : st < x.length := hx st (List.mem_cons_self _ _)
      simp [List.getElem?_set, hlt, List.getD_eq_getElem?_getD, List.getElem?_eq_getElem hi]
    · have hmem : st ∈ rest := by
        rcases List.mem_cons.mp hst with h | h
        · exact absurd h ha
        · exact h
      rw [ih (i + 1) _ hnd2.2 (by
        intro t ht
        rw [List.length_set]
        exact hx t (List.mem_cons_of_mem _ ht)) (by
          simp only [List.length_cons] at hc; omega) hmem]
      have hidx : List.indexOf st (a :: rest) = List.indexOf st rest + 1 := by
        rw [List.indexOf_cons_ne _ (fun e => ha e.symm)]
      rw [hidx]
      congr 1
      omega

theorem sum_filter_split (row : List (Nat × ℚ)) (p : Nat × ℚ → Bool) (g : Nat × ℚ → ℚ) :
    (row.map g).sum = ((row.filter p).map g).sum + ((row.filter (fun e => !p e)).map g).sum := by
  induction row with
  | nil => simp
  | cons e rest ih =>
    cases h : p e <;> simp [List.filter_cons, h, ih] <;> ring

theorem getD_map_indexOf (scc : List Nat) (F : Nat → ℚ) (st : Nat) (hst : st ∈ scc) :
    (scc.map F).getD (scc.indexOf st) 0 = F st := by
  have hlt : scc.indexOf st < scc.length := List.indexOf_lt_length.mpr hst
  rw [List.getD_eq_getElem?_getD, List.getElem?_map, List.getElem?_eq_getElem hlt]
  simp [List.indexOf_getElem]

theorem componentValue_bellman (s : TopologicalMinMaxLinearEquationSolver ℚ)
    (dir : OptimizationDirection) (x b : List ℚ) (scc : List Nat)
    (hprec : s.precision = 0) (hrel : s.relative = false)
    (hs : scc.Pairwise (· < ·))
    (hx : ∀ st ∈ scc, st < x.length)
    (h : (componentValue exactOps s dir x b scc).1 = true) :
    ∀ st ∈ scc, BellmanAt s.A dir b (componentValue exactOps s dir x b scc).2.1 st := by
  obtain ⟨c, hlen, hc, hres⟩ := componentValue_fixed s dir x b scc hprec hrel h
  have hnd : scc.Nodup := hs.imp (fun h => Nat.ne_of_lt h)
  have hin : ∀ u ∈ scc, (writtenBack c scc 0 x).getD u 0 = c.getD (scc.indexOf u) 0 := by
    intro u hu
    rw [writtenBack_get c scc 0 x hnd hx (by omega) u hu, Nat.zero_add]
  have hout : ∀ u, u ∉ scc → (writtenBack c scc 0 x).getD u 0 = x.getD u 0 := by
    intro u hu
    rw [List.getD_eq_getElem?_getD, writtenBack_frame c scc 0 x u hu, List.getD_eq_getElem?_getD]
  intro st hst
  unfold BellmanAt
  rw [hres, hin st hst]
  have h1 : c.getD (scc.indexOf st) 0
      = (localSweep exactOps s dir x b scc c).getD (scc.indexOf st) 0 := by rw [hc]
  rw [h1, localSweep_eq s dir x b scc c, getD_map_indexOf scc _ st hst]
  congr 1
  apply List.map_congr_left
  intro r _
  rw [sum_filter_split (s.A.getRow r) (fun e => decide (e.1 ∈ scc))
    (fun e => e.2 * (writtenBack c scc 0 x).getD e.1 0)]
  unfold localRow foldedRightHandSide
  have e1 : ((s.A.getRow r).filter (fun e => decide (e.1 ∈ scc))).map
        (fun e => e.2 * (writtenBack c scc 0 x).getD e.1 0)
      = ((s.A.getRow r).filter (fun e => decide (e.1 ∈ scc))).map
        (fun e => e.2 * c.getD (scc.indexOf e.1) 0) := by
    apply List.map_congr_left
    intro e he
    have hmem : e.1 ∈ scc := by simpa using (List.mem_filter.mp he).2
    rw [hin e.1 hmem]
  have e2 : ((s.A.getRow r).filter (fun e => !decide (e.1 ∈ scc))).map
        (fun e => e.2 * (writtenBack c scc 0 x).getD e.1 0)
      = ((s.A.getRow r).filter (fun e => !decide (e.1 ∈ scc))).map
        (fun e => e.2 * x.getD e.1 0) := by
    apply List.map_congr_left
    intro e he
    have hmem : e.1 ∉ scc := by simpa using (List.mem_filter.mp he).2
    rw [hout e.1 hmem]
  rw [e1, e2]
  ring

theorem bellman_congr (A : SparseMatrix ℚ) (dir : OptimizationDirection) (b x y : List ℚ)
    (st : Nat) (h0 : y.getD st 0 = x.getD st 0)
    (h1 : ∀ r ∈ A.rowsOfGroup st, ∀ e ∈ A.getRow r, y.getD e.1 0 = x.getD e.1 0)
    (h : BellmanAt A dir b x st) : BellmanAt A dir b y st := by
  unfold BellmanAt at h ⊢
  rw [h0, h]
  congr 1
  apply List.map_congr_left
  intro r hr
  congr 2
  apply List.map_congr_left
  intro e he
  rw [h1 r hr e he]

theorem xAfter_bellman (s : TopologicalMinMaxLinearEquationSolver ℚ)
    (dir : OptimizationDirection)
    (b : List ℚ) (blocks : List (List Nat)) (x : List ℚ)
    (hprec : s.precision = 0) (hrel : s.relative = false)
    (hsorted : ∀ k, k < blocks.length → (blocks.getD k []).Pairwise (· < ·))
    (hvalid : ∀ k, k < blocks.length →
      ∀ st ∈ blocks.getD k [], st < s.A.columnCount ∧ st < x.length)
    (hdisj : ∀ j, j < blocks.length → ∀ i, i < j →
      ∀ st ∈ blocks.getD i [], st ∉ blocks.getD j [])
    (htopo : ∀ j, j < blocks.length → ∀ st ∈ blocks.getD j [], ∀ r ∈ s.A.rowsOfGroup st,
      ∀ e ∈ s.A.getRow r, ∃ i, i ≤ j ∧ e.1 ∈ blocks.getD i [])
    (hconv : ∀ k, k < blocks.length →
      (componentValue exactOps s dir (xAfter exactOps s dir b blocks x k) b
        (blocks.getD k [])).1 = true)
    (n : Nat) (hn : n ≤ blocks.length) :
    ∀ j, j < n → ∀ st ∈ blocks.getD j [],
      BellmanAt s.A dir b (xAfter exactOps s dir b blocks x n) st := by
  induction n with
  | zero => intro j hj; exact absurd hj (Nat.not_lt_zero _)
  | succ m ih =>
    intro j hj st hst
    have hm : m < blocks.length := hn
    rw [xAfter]
    by_cases hjm : j = m
    · subst hjm
      exact componentValue_bellman s dir _ b _ hprec hrel (hsorted j hm)
        (fun u hu => by rw [xAfter_length]; exact (hvalid j hm u hu).2)
        (hconv j hm) st hst
    · have hlt : j < m := by omega
      have hframe : ∀ u, u ∉ blocks.getD m [] →
          (componentValue exactOps s dir (xAfter exactOps s dir b blocks x m) b
            (blocks.getD m [])).2.1.getD u 0
            = (xAfter exactOps s dir b blocks x m).getD u 0 := by
        intro u hu
        rw [List.getD_eq_getElem?_getD, componentValue_frame exactOps s dir _ b _ u hu,
          List.getD_eq_getElem?_getD]
      apply bellman_congr s.A dir b (xAfter exactOps s dir b blocks x m)
      · exact hframe st (hdisj m hm j hlt st hst)
      · intro r hr e he
        obtain ⟨i, hi, hmem⟩ := htopo j (by omega) st hst r hr e he
        exact hframe e.1 (hdisj m hm i (by omega) e.1 hmem)
      · exact ih (by omega) j hlt st hst

/-- C32: over exact numbers, with precision 0 and the absolute test, blocks
of ascending valid states that are pairwise disjoint and cover the states,
and every transition of a block leading into the block itself or into a block
processed before it: if `solveEquations` returns `true`, the returned vector
satisfies the min/max equation at every state. -/
theorem C32_fixed_point (s : TopologicalMinMaxLinearEquationSolver ℚ)
    (d : List (List Nat)) (t : List Nat) (dir : OptimizationDirection) (x b : List ℚ)
    (r : SolveResult ℚ) (hprec : s.precision = 0) (hrel : s.relative = false)
    (hsorted : ∀ k, k < t.length → ((processingOrder d t).getD k []).Pairwise (· < ·))
    (hvalid : ∀ k, k < t.length →
      ∀ st ∈ (processingOrder d t).getD k [], st < s.A.columnCount ∧ st < x.length)
    (hdisj : ∀ j, j < t.length → ∀ i, i < j →
      ∀ st ∈ (processingOrder d t).getD i [], st ∉ (processingOrder d t).getD j [])
    (hcover : ∀ st, st < x.length → ∃ k, k < t.length ∧ st ∈ (processingOrder d t).getD k [])
    (htopo : ∀ j, j < t.length → ∀ st ∈ (processingOrder d t).getD j [],
      ∀ row ∈ s.A.rowsOfGroup st, ∀ e ∈ s.A.getRow row,
        ∃ i, i ≤ j ∧ e.1 ∈ (processingOrder d t).getD i [])
    (hres : solveEquations exactOps s d t dir x b = .ok r) (hconv : r.converged = true) :
    ∀ st, st < x.length → BellmanAt s.A dir b r.x st := by
  have hd : d ≠ [] := by
    intro h0
    subst h0
    cases hres
  have hlen : (processingOrder d t).length = t.length := by simp [processingOrder]
  have hblocks : ∀ scc ∈ processingOrder d t, ValidBlock s.A x.length scc := by
    intro scc hscc
    obtain ⟨k, hk, hget⟩ := List.getElem_of_mem hscc
    have hk2 : k < t.length := hlen ▸ hk
    have hgd : (processingOrder d t).getD k [] = scc := by
      rw [List.getD_eq_getElem _ _ hk, hget]
    refine ⟨hgd ▸ hsorted k hk2, fun st hst => hvalid k hk2 st (hgd ▸ hst), ?_⟩
    intro st hst row hrow e he
    obtain ⟨i, hi, hmem⟩ := htopo k hk2 st (hgd ▸ hst) row hrow e he
    exact (hvalid i (by omega) e.1 hmem).2
  rw [solveEquations_nonempty exactOps s d t dir x b hd] at hres
  obtain ⟨r2, hr2, hiff, _, hx⟩ :=
    componentLoop_result exactOps s dir b (processingOrder d t) x 0 hblocks
  have hrr : r2 = r := by
    rw [hr2] at hres
    cases hres
    rfl
  subst hrr
  have hall := hiff.1 hconv
  intro st hst
  obtain ⟨k, hk, hmem⟩ := hcover st hst
  rw [(hx hconv).1]
  exact xAfter_bellman s dir b (processingOrder d t) x hprec hrel
    (fun k hk => hsorted k (hlen ▸ hk)) (fun k hk => hvalid k (hlen ▸ hk))
    (fun j hj => hdisj j (hlen ▸ hj)) (fun j hj => htopo j (hlen ▸ hj)) hall
    (processingOrder d t).length (Nat.le_refl _) k (hlen ▸ hk) st hmem

theorem C32_fixed_point_witness :
    BellmanAt (exampleSolver 0 2).A OptimizationDirection.Maximize [0, 0, 1] [1, 1, 1] 0 :=
  C32_fixed_point (exampleSolver 0 2) [[0], [1], [2]] [2, 1, 0] .Maximize [0, 0, 0] [0, 0, 1]
    ⟨true, [1, 1, 1], 6⟩ rfl rfl (by decide) (by decide) (by decide) (by decide) (by decide)
    (by decide!) rfl 0 (by decide)

/-! ## The processing order -/

theorem extractPartitionDependencyGraph_length {V : Type} (A : SparseMatrix V)
    (d : List (List Nat)) : (extractPartitionDependencyGraph A d).length = d.length := by
  simp [extractPartitionDependencyGraph]

theorem mem_extractPartitionDependencyGraph {V : Type} (A : SparseMatrix V)
    (d : List (List Nat)) (i j : Nat) :
    j ∈ (extractPartitionDependencyGraph A d).getD i [] ↔ CondensationEdge A d i j := by
  unfold extractPartitionDependencyGraph CondensationEdge
  by_cases hi : i < d.length
  · rw [List.getD_eq_getElem?_getD, List.getElem?_map,
      List.getElem?_eq_getElem (by simpa using hi)]
    simp only [List.getElem_range, Option.map_some', Option.getD_some, List.mem_filter,
      List.mem_range, Bool.and_eq_true, decide_eq_true_eq, List.any_eq_true]
    constructor
    · rintro ⟨hj, hne, st, hst, r, hr, e, he, hmem⟩
      exact ⟨hi, hj, hne, st, hst, r, hr, e, he, hmem⟩
    · rintro ⟨_, hj, hne, st, hst, r, hr, e, he, hmem⟩
      exact ⟨hj, hne, st, hst, r, hr, e, he, hmem⟩
  · rw [List.getD_eq_getElem?_getD, List.getElem?_eq_none (by simpa using hi)]
    simp [hi]

theorem exists_unplaced (n : Nat) (order : List Nat)
    (hlen : order.length < n) : ∃ i, i < n ∧ i ∉ order := by
  by_contra hcon
  push_neg at hcon
  have hsub : List.range n ⊆ order := fun i hi => hcon i (List.mem_range.mp hi)
  have := (List.subperm_of_subset (List.nodup_range n) hsub).length_le
  rw [List.length_range] at this
  omega

theorem exists_ready (graph : List (List Nat)) (rank : Nat → Nat) (order : List Nat)
    (hin : ∀ i, i < graph.length → ∀ j ∈ graph.getD i [], j < graph.length)
    (hrank : ∀ i, i < graph.length → ∀ j ∈ graph.getD i [], rank j < rank i) :
    ∀ m i, rank i ≤ m → i < graph.length → i ∉ order →
      ∃ c, c < graph.length ∧ c ∉ order ∧ ∀ j ∈ graph.getD c [], j ∈ order := by
  intro m
  induction m with
  | zero =>
    intro i hr hi hno
    refine ⟨i, hi, hno, ?_⟩
    intro j hj
    have := hrank i hi j hj
    omega
  | succ k ih =>
    intro i hr hi hno
    by_cases hall : ∀ j ∈ graph.getD i [], j ∈ order
    · exact ⟨i, hi, hno, hall⟩
    · push_neg at hall
      obtain ⟨j, hj, hjno⟩ := hall
      have := hrank i hi j hj
      exact ih j (by omega) (hin i hi j hj) hjno

theorem topologicalStep_spec (graph : List (List Nat)) (rank : Nat → Nat) (order : List Nat)
    (hin : ∀ i, i < graph.length → ∀ j ∈ graph.getD i [], j < graph.length)
    (hrank : ∀ i, i < graph.length → ∀ j ∈ graph.getD i [], rank j < rank i)
    (h : SuccessorsFirst graph order) (hlen : order.length < graph.length) :
    SuccessorsFirst graph (topologicalStep graph order) ∧
      (topologicalStep graph order).length = order.length + 1 := by
  obtain ⟨i0, hi0, hno0⟩ := exists_unplaced graph.length order hlen
  obtain ⟨c, hc, hcno, hcall⟩ := exists_ready graph rank order hin hrank (rank i0) i0
    (Nat.le_refl _) hi0 hno0
  unfold topologicalStep
  cases hf : (List.range graph.length).find? (fun i =>
      decide (i ∉ order) && (graph.getD i []).all (fun j => decide (j ∈ order))) with
  | none =>
    exfalso
    have := List.find?_eq_none.mp hf c (List.mem_range.mpr hc)
    simp only [Bool.and_eq_true, decide_eq_true_eq, List.all_eq_true, not_and] at this
    exact this hcno hcall
  | some i =>
    have hp := List.find?_some hf
    have hmem := List.mem_of_find?_eq_some hf
    simp only [Bool.and_eq_true, decide_eq_true_eq, List.all_eq_true] at hp
    refine ⟨⟨?_, ?_, ?_⟩, by simp⟩
    · rw [List.nodup_append]
      refine ⟨h.nodup, List.nodup_singleton i, ?_⟩
      intro a ha hb
      rw [List.mem_singleton] at hb
      subst hb
      exact hp.1 ha
    · intro a ha
      rcases List.mem_append.mp ha with h1 | h1
      · exact h.bound a h1
      · rw [List.mem_singleton] at h1
        subst h1
        exact List.mem_range.mp hmem
    · intro p a hpa j hj
      by_cases hpl : p < order.length
      · rw [List.getElem?_append_left hpl] at hpa
        obtain ⟨q, hq, hqj⟩ := h.earlier p a hpa j hj
        exact ⟨q, hq, by rw [List.getElem?_append_left (by omega)]; exact hqj⟩
      · have hpe : p = order.length := by
          by_contra hne
          rw [List.getElem?_eq_none (by simp; omega)] at hpa
          cases hpa
        subst hpe
        rw [List.getElem?_append_right (Nat.le_refl _)] at hpa
        simp only [Nat.sub_self, List.getElem?_cons_zero, Option.some.injEq] at hpa
        subst hpa
        obtain ⟨q, hq, hqj⟩ := List.getElem_of_mem (hp.2 j hj)
        exact ⟨q, hq, by
          rw [List.getElem?_append_left hq, List.getElem?_eq_getElem hq, hqj]⟩

theorem topologicalStep_iterate (graph : List (List Nat)) (rank : Nat → Nat)
    (hin : ∀ i, i < graph.length → ∀ j ∈ graph.getD i [], j < graph.length)
    (hrank : ∀ i, i < graph.length → ∀ j ∈ graph.getD i [], rank j < rank i) (k : Nat)
    (hk : k ≤ graph.length) :
    SuccessorsFirst graph ((topologicalStep graph)^[k] []) ∧
      ((topologicalStep graph)^[k] []).length = k := by
  induction k with
  | zero =>
    refine ⟨⟨List.nodup_nil, ?_, ?_⟩, rfl⟩
    · intro i hi
      cases hi
    · intro p i hp
      cases hp
  | succ m ih =>
    obtain ⟨h1, h2⟩ := ih (by omega)
    rw [Function.iterate_succ_apply']
    obtain ⟨h3, h4⟩ := topologicalStep_spec graph rank _ hin hrank h1 (by omega)
    exact ⟨h3, by rw [h4, h2]⟩

theorem getTopologicalSort_spec (graph : List (List Nat)) (rank : Nat → Nat)
    (hin : ∀ i, i < graph.length → ∀ j ∈ graph.getD i [], j < graph.length)
    (hrank : ∀ i, i < graph.length → ∀ j ∈ graph.getD i [], rank j < rank i) :
    SuccessorsFirst graph (getTopologicalSort graph) ∧
      (getTopologicalSort graph).Perm (List.range graph.length) := by
  obtain ⟨h1, h2⟩ := topologicalStep_iterate graph rank hin hrank graph.length (Nat.le_refl _)
  refine ⟨h1, ?_⟩
  have hsub : getTopologicalSort graph ⊆ List.range graph.length :=
    fun i hi => List.mem_range.mpr (h1.bound i hi)
  exact (List.subperm_of_subset h1.nodup hsub).perm_of_length_le (by
    rw [List.length_range]
    exact le_of_eq h2.symm)

theorem processingOrder_getD (d : List (List Nat)) (t : List Nat) (k : Nat) (hk : k < t.length) :
    (processingOrder d t).getD k [] = d.getD (t.getD k 0) [] := by
  unfold processingOrder
  rw [List.getD_eq_getElem?_getD, List.getElem?_map, List.getElem?_eq_getElem hk,
    List.getD_eq_getElem _ _ hk]
  rfl

/-- C29: let `t` be the topological sort of the dependency graph of a
non-empty decomposition `d` whose condensation graph is acyclic (a rank
decreases along every edge) and whose blocks are valid for `x`.  Then `t`
lists every component exactly once; the scalar grouping has one entry per
component, entry `k` being block `d[t[k]]` with the accelerated flag false;
for every condensation edge `i → j`, `j` stands at an earlier position of `t`
than `i`; and `solveEquations` processes the blocks in this order: step `k`
runs the local iteration of block `d[t[k]]` on the vector left by the steps
before it, a call that returns `true` has run all steps, and a call in which
step `k` is the first that does not converge returns `false` with the vector
and the sweep count after step `k`. -/
theorem C29_processing_order {V : Type} (ops : ValueOps V)
    (s : TopologicalMinMaxLinearEquationSolver V) (d : List (List Nat))
    (dir : OptimizationDirection) (x b : List V) (rank : Nat → Nat) (t : List Nat)
    (hd : d ≠ [])
    (hacyclic : ∀ i j, CondensationEdge s.A d i j → rank j < rank i)
    (hvalid : ∀ scc ∈ d, ValidBlock s.A x.length scc)
    (ht : t = getTopologicalSort (extractPartitionDependencyGraph s.A d)) :
    t.Perm (List.range d.length) ∧
    (getOptimalGroupingFromTopologicalSccDecomposition d t).length = d.length ∧
    (∀ k, k < d.length →
      (getOptimalGroupingFromTopologicalSccDecomposition d t)[k]?
        = some (false, d.getD (t.getD k 0) [])) ∧
    (∀ i j, CondensationEdge s.A d i j →
      ∃ pj pi : Nat, pj < pi ∧ pi < d.length ∧ t[pj]? = some j ∧ t[pi]? = some i) ∧
    (∀ k, k < d.length →
      xAfter ops s dir b (processingOrder d t) x (k + 1)
        = (componentValue ops s dir (xAfter ops s dir b (processingOrder d t) x k) b
            (d.getD (t.getD k 0) [])).2.1) ∧
    ∃ r, solveEquations ops s d t dir x b = .ok r ∧
      (r.converged = true →
        r.x = xAfter ops s dir b (processingOrder d t) x d.length ∧
        r.globalIterations = sweepsAfter ops s dir b (processingOrder d t) x d.length) ∧
      (∀ k, k < d.length →
        (∀ j, j < k →
          LocallyConverges ops s dir (xAfter ops s dir b (processingOrder d t) x j) b
            (d.getD (t.getD j 0) [])) →
        ¬ LocallyConverges ops s dir (xAfter ops s dir b (processingOrder d t) x k) b
            (d.getD (t.getD k 0) []) →
        r.converged = false ∧
        r.x = xAfter ops s dir b (processingOrder d t) x (k + 1) ∧
        r.globalIterations = sweepsAfter ops s dir b (processingOrder d t) x (k + 1)) := by
  have hgl := extractPartitionDependencyGraph_length s.A d
  have hin : ∀ i, i < (extractPartitionDependencyGraph s.A d).length →
      ∀ j ∈ (extractPartitionDependencyGraph s.A d).getD i [],
        j < (extractPartitionDependencyGraph s.A d).length := by
    intro i _ j hj
    rw [hgl]
    exact ((mem_extractPartitionDependencyGraph s.A d i j).mp hj).2.1
  have hrank : ∀ i, i < (extractPartitionDependencyGraph s.A d).length →
      ∀ j ∈ (extractPartitionDependencyGraph s.A d).getD i [], rank j < rank i := by
    intro i _ j hj
    exact hacyclic i j ((mem_extractPartitionDependencyGraph s.A d i j).mp hj)
  obtain ⟨hsf, hperm⟩ := getTopologicalSort_spec (extractPartitionDependencyGraph s.A d) rank
    hin hrank
  rw [← ht, hgl] at hperm
  rw [← ht] at hsf
  have hlen : t.length = d.length := by rw [hperm.length_eq, List.length_range]
  have hplen : (processingOrder d t).length = d.length := by simp [processingOrder, hlen]
  have hblocks : ∀ scc ∈ processingOrder d t, ValidBlock s.A x.length scc := by
    intro scc hscc
    obtain ⟨c, hc, rfl⟩ := List.mem_map.mp hscc
    have hcd : c < d.length := List.mem_range.mp (hperm.subset hc)
    rw [List.getD_eq_getElem _ _ hcd]
    exact hvalid _ (List.getElem_mem _)
  refine ⟨hperm, by simp [getOptimalGroupingFromTopologicalSccDecomposition, hlen], ?_, ?_, ?_,
    ?_⟩
  · intro k hk
    have hk2 : k < t.length := by omega
    unfold getOptimalGroupingFromTopologicalSccDecomposition
    rw [List.getElem?_map, List.getElem?_eq_getElem hk2, List.getD_eq_getElem _ _ hk2]
    rfl
  · intro i j hedge
    have hi : i ∈ t := hperm.symm.subset (List.mem_range.mpr hedge.1)
    obtain ⟨pi, hpi, hget⟩ := List.getElem_of_mem hi
    have hsome : t[pi]? = some i := by rw [List.getElem?_eq_getElem hpi, hget]
    obtain ⟨pj, hpj, hq⟩ := hsf.earlier pi i hsome j
      ((mem_extractPartitionDependencyGraph s.A d i j).mpr hedge)
    exact ⟨pj, pi, hpj, by omega, hq, hsome⟩
  · intro k hk
    rw [xAfter, processingOrder_getD d t k (by omega)]
  · rw [solveEquations_nonempty ops s d t dir x b hd]
    obtain ⟨r, hr, hiff, hstop, hall⟩ :=
      componentLoop_result ops s dir b (processingOrder d t) x 0 hblocks
    refine ⟨r, hr, ?_, ?_⟩
    · intro hc
      have := hall hc
      rw [hplen, Nat.zero_add] at this
      exact this
    · intro k hk hbefore hfail
      have hkf : (componentValue ops s dir (xAfter ops s dir b (processingOrder d t) x k) b
          ((processingOrder d t).getD k [])).1 = false := by
        rw [processingOrder_getD d t k (by omega)]
        cases hcv : (componentValue ops s dir (xAfter ops s dir b (processingOrder d t) x k) b
          (d.getD (t.getD k 0) [])).1
        · rfl
        · exact absurd ((componentValue_converged_iff ops s dir _ b _).mp hcv) hfail
      have hres := hstop k (by omega) (by
        intro j hj
        rw [processingOrder_getD d t j (by omega)]
        exact (componentValue_converged_iff ops s dir _ b _).mpr (hbefore j hj)) hkf
      rw [Nat.zero_add] at hres
      refine ⟨?_, hres⟩
      cases hc : r.converged
      · rfl
      · have := hiff.mp hc k (by omega)
        rw [hkf] at this
        cases this

theorem C29_processing_order_witness :
    ([[0], [1], [2]] : List (List Nat)) ≠ [] ∧
    (∀ i j, CondensationEdge (exampleSolver (1 / 1000000) 2).A [[0], [1], [2]] i j →
      3 - j < 3 - i) ∧
    (∀ scc ∈ ([[0], [1], [2]] : List (List Nat)),
      ValidBlock (exampleSolver (1 / 1000000) 2).A ([0, 0, 0] : List ℚ).length scc) ∧
    [2, 1, 0] = getTopologicalSort
      (extractPartitionDependencyGraph (exampleSolver (1 / 1000000) 2).A [[0], [1], [2]]) ∧
    CondensationEdge (exampleSolver (1 / 1000000) 2).A [[0], [1], [2]] 0 1 ∧
    (∃ pj pi : Nat, pj < pi ∧ pi < ([[0], [1], [2]] : List (List Nat)).length ∧
      ([2, 1, 0] : List Nat)[pj]? = some 1 ∧ ([2, 1, 0] : List Nat)[pi]? = some 0) ∧
    ∃ r, solveEquations exactOps (exampleSolver (1 / 1000000) 2) [[0], [1], [2]] [2, 1, 0]
        .Minimize [0, 0, 0] [0, 0, 1] = .ok r ∧
      (r.converged = true →
        r.x = xAfter exactOps (exampleSolver (1 / 1000000) 2) .Minimize [0, 0, 1]
          (processingOrder [[0], [1], [2]] [2, 1, 0]) [0, 0, 0]
          ([[0], [1], [2]] : List (List Nat)).length ∧
        r.globalIterations = sweepsAfter exactOps (exampleSolver (1 / 1000000) 2) .Minimize
          [0, 0, 1] (processingOrder [[0], [1], [2]] [2, 1, 0]) [0, 0, 0]
          ([[0], [1], [2]] : List (List Nat)).length) :=
  have hacyclic : ∀ i j, CondensationEdge (exampleSolver (1 / 1000000) 2).A [[0], [1], [2]] i j →
      3 - j < 3 - i := by
    intro i j h
    have hi : i < 3 := h.1
    have hj : j < 3 := h.2.1
    have hm := (mem_extractPartitionDependencyGraph _ _ i j).mpr h
    interval_cases i <;> interval_cases j <;> first
      | decide
      | (exfalso; revert hm; decide)
  have hedge : CondensationEdge (exampleSolver (1 / 1000000) 2).A [[0], [1], [2]] 0 1 :=
    (mem_extractPartitionDependencyGraph _ _ 0 1).mp (by decide)
  have h := C29_processing_order exactOps (exampleSolver (1 / 1000000) 2) [[0], [1], [2]]
    .Minimize [0, 0, 0] [0, 0, 1] (fun i => 3 - i) [2, 1, 0] (by decide) hacyclic (by decide)
    (by decide)
  ⟨by decide, hacyclic, by decide, by decide, hedge, h.2.2.2.1 0 1 hedge,
    h.2.2.2.2.2.imp (fun _ hr => ⟨hr.1, hr.2.1⟩)⟩

end Storm
